import Mathlib

/-!
# tedit: undo/redo stack, save pipeline and shell escaping

A shallow embedding of the undo/redo stack, the command dispatch, the save
pipeline and the shell escaping of `src/tedit.cpp`, followed by theorems about them.

Conventions of the embedding:

* a `std::string` is a list of bytes, written `Str := List Char`;
* a `std::vector<T>` is a `List T`;
* `long` values are `Int`, `size_t` values are `Nat`, and a cast between the
  two is written out (`toSizeT`);
* whatever the program reads from the outside (standard input, the file
  system, the exit status of a child process, which system call fails) is an
  explicit argument of the embedded function.
-/

namespace Tedit

/-- A `std::string`: a finite sequence of bytes. -/
abbrev Str := List Char

/-- The byte `'` (0x27). -/
def SQ : Char := Char.ofNat 39

/-- The byte `\` (0x5c). -/
def BSL : Char := Char.ofNat 92

/-- The byte `\n` (0x0a). -/
def NL : Char := Char.ofNat 10

/-- The byte NUL, which ends a C string. -/
def NUL : Char := Char.ofNat 0

/-- What a C function sees of `s.c_str()`: the bytes before the first NUL. -/
def c_str (s : Str) : Str := s.takeWhile (fun c => c != NUL)

/-! ## Line storage (`struct Buffer`) -/

/-- Source `struct Buffer` (tedit.cpp:285). -/
structure Buffer where
  path : Str
  lines : List Str
  dirty : Bool
  number : Bool
  backup : Bool
  highlight : Bool
deriving DecidableEq

/-- A default-constructed `Buffer` (the member initialisers of the struct). -/
def Buffer.fresh : Buffer :=
  { path := [], lines := [], dirty := false, number := true, backup := true, highlight := false }

/-! ## Undo stack (`struct Snap`, `struct Stack`) -/

/-- Source `struct Snap` (tedit.cpp:297): a copy of the lines of a buffer. -/
structure Snap where
  lines : List Str
deriving DecidableEq

/-- Source `UNDO_MAX` (tedit.cpp:298). -/
def UNDO_MAX : Nat := 200

/-- Source `struct Stack` (tedit.cpp:299): `st.back()` is the last element of the list. -/
structure Stack where
  st : List Snap
deriving DecidableEq

namespace Stack

/-- Source `Stack::clear` (tedit.cpp:301). -/
def clear (_s : Stack) : Stack := { st := [] }

/-- Source `Stack::push` (tedit.cpp:302):
`if(st.size()==UNDO_MAX) st.erase(st.begin()); st.push_back(Snap{b.lines});` -/
def push (s : Stack) (b : Buffer) : Stack :=
  let st1 := if s.st.length = UNDO_MAX then s.st.drop 1 else s.st
  { st := st1 ++ [{ lines := b.lines }] }

/-- Source `Stack::pop` (tedit.cpp:303): `none` is the `return false` of an empty stack,
otherwise the popped snapshot (`st.back()`) and the stack after `pop_back`. -/
def pop (s : Stack) : Option (Snap × Stack) :=
  match s.st.getLast? with
  | none => none
  | some top => some (top, { st := s.st.dropLast })

end Stack

/-! ## Character classes and small string helpers -/

/-- The C++ `std::isspace((unsigned char)c)` in the "C" locale: space, `\t`, `\n`, `\v`,
`\f` and `\r`. -/
def isspace (c : Char) : Bool :=
  c.toNat == 32 || (decide (9 ≤ c.toNat) && decide (c.toNat ≤ 13))

/-- The C++ `std::isdigit((unsigned char)c)`. -/
def isdigit (c : Char) : Bool := decide (48 ≤ c.toNat) && decide (c.toNat ≤ 57)

/-- The C++ `std::tolower((unsigned char)c)` in the "C" locale. -/
def tolower (c : Char) : Char :=
  if 65 ≤ c.toNat ∧ c.toNat ≤ 90 then Char.ofNat (c.toNat + 32) else c

/-- Source `lower` (tedit.cpp:266). -/
def lower (s : Str) : Str := s.map tolower

/-- Source `trim_copy` (tedit.cpp:257): drop leading, then trailing, white space. -/
def trim_copy (s : Str) : Str :=
  ((s.dropWhile isspace).reverse.dropWhile isspace).reverse

/-- Source `rstrip_newline` (tedit.cpp:263): drop trailing `\n` and `\r` bytes. -/
def rstrip_newline (s : Str) : Str :=
  (s.reverse.dropWhile (fun c => c.toNat == 10 || c.toNat == 13)).reverse

/-! ## `long` and `size_t` -/

/-- The C++ `LONG_MAX` of a 64-bit `long`. -/
def LONG_MAX : Int := 2 ^ 63 - 1

/-- The C++ `LONG_MIN` of a 64-bit `long`. -/
def LONG_MIN : Int := -(2 ^ 63)

/-- The cast `(size_t)v` of a `long`: reduction modulo `2^64`. -/
def toSizeT (v : Int) : Nat := (v % (2 ^ 64 : Int)).toNat

/-- The cast `(long)n` of a `size_t`: the two's complement reading of the 64 bits. -/
def toLong (n : Nat) : Int :=
  let m : Nat := n % 2 ^ 64
  if m < 2 ^ 63 then (m : Int) else (m : Int) - 2 ^ 64

/-- Value of a run of decimal digits. -/
def digitsVal (ds : Str) : Nat := ds.foldl (fun a c => 10 * a + (c.toNat - 48)) 0

/-- Result of `strtol(nptr, &e, 10)`: the value returned, whether `errno` was set to
`ERANGE`, whether any conversion was performed (`e != nptr`), and the bytes from `e` on. -/
structure StrtolResult where
  value : Int
  erange : Bool
  converted : Bool
  tail : Str
deriving DecidableEq

/-- The C++ `strtol(nptr, &e, 10)` on the C string `nptr`: skip white space, take an optional
sign, then the longest run of decimal digits; without a digit nothing is converted and
`e == nptr`; a value outside `long` is clamped and reported through `ERANGE`. -/
def strtol (nptr : Str) : StrtolResult :=
  let s1 := nptr.dropWhile isspace
  let neg := s1.head? == some '-'
  let s2 := if s1.head? == some '-' || s1.head? == some '+' then s1.drop 1 else s1
  let ds := s2.takeWhile isdigit
  let tl := s2.dropWhile isdigit
  if ds.isEmpty then { value := 0, erange := false, converted := false, tail := nptr }
  else
    let mag : Int := (digitsVal ds : Int)
    let v : Int := if neg then -mag else mag
    if v > LONG_MAX then { value := LONG_MAX, erange := true, converted := true, tail := tl }
    else if v < LONG_MIN then { value := LONG_MIN, erange := true, converted := true, tail := tl }
    else { value := v, erange := false, converted := true, tail := tl }

/-- Source `parse_long` (tedit.cpp:269): `none` is `return false` (and `out` is left alone),
`some v` is `out = v; return true`. -/
def parse_long (s : Str) : Option Int :=
  if s.isEmpty then none
  else
    let r := strtol (c_str s)
    if r.erange then none
    else if !r.converted || !r.tail.isEmpty then none
    else some r.value

/-- The C++ `std::to_string` of a `size_t`. -/
def to_string (n : Nat) : Str := (Nat.repr n).toList

/-- The C++ `string::find(ch)`: index of the first occurrence of a byte, when there is one. -/
def findChar (c : Char) (s : Str) : Option Nat :=
  if s.contains c then some (s.takeWhile (fun x => x != c)).length else none

/-- Source `parse_range` (tedit.cpp:446): `none` is `return false`; `some (lo, hi)` is
`return true` with the two output parameters. The outputs are only written on the
`return true` paths, as in the source. -/
def parse_range (arg : Str) (nlines : Nat) : Option (Nat × Nat) :=
  let norm_token : Str → Str := fun t =>
    let t1 := trim_copy t
    if t1 = ['$'] then to_string nlines else t1
  let s := arg.filter (fun c => !isspace c)
  if s.isEmpty then some (1, nlines)
  else
    let parsed : Option (Int × Int) :=
      match findChar '-' s with
      | none =>
          match parse_long (norm_token s) with
          | none => none
          | some lo => if lo ≤ 0 then none else some (lo, lo)
      | some dash =>
          let L := norm_token (s.take dash)
          let R := norm_token (s.drop (dash + 1))
          let lo? : Option Int :=
            if L.isEmpty then some 1
            else match parse_long L with
              | none => none
              | some lo => if lo ≤ 0 then none else some lo
          match lo? with
          | none => none
          | some lo =>
            let hi? : Option Int :=
              if R.isEmpty then some (toLong nlines)
              else match parse_long R with
                | none => none
                | some hi => if hi ≤ 0 then none else some hi
            match hi? with
            | none => none
            | some hi => some (lo, hi)
    match parsed with
    | none => none
    | some (lo, hi) =>
      if nlines = 0 then some (1, 0)
      else
        let lo1 : Int := if toSizeT lo < 1 then 1 else lo
        let hi1 : Int := if toSizeT hi > nlines then toLong nlines else hi
        if lo1 > hi1 then none else some (toSizeT lo1, toSizeT hi1)

/-! ## Shell escaping and the privileged move -/

/-- Source `sh_escape` (tedit.cpp:61): the loop appends to `r`, starting from one quote. -/
def sh_escape (s : Str) : Str :=
  let r0 : Str := [SQ]
  let r1 : Str := s.foldl (fun r c => if c = SQ then r ++ [SQ, BSL, SQ, SQ] else r ++ [c]) r0
  r1 ++ [SQ]

/-- The string `inner` built by `doas_move_into_place_secure` (tedit.cpp:359). -/
def doas_inner (tmp dest : Str) : Str :=
  "mv ".toList ++ sh_escape tmp ++ " ".toList ++ sh_escape dest ++ " && sync".toList

/-- The string `cmd` built by `doas_move_into_place_secure` (tedit.cpp:360). -/
def doas_cmd (tmp dest : Str) : Str :=
  "doas sh -c ".toList ++ sh_escape (doas_inner tmp dest)

/-! ## Reference semantics: how a POSIX shell splits a command line into words

This is not code of the editor: it is the reading of the shell command language
(token recognition and quote removal) against which `sh_escape` is judged. Only the
constructs that the editor's command lines use are accepted; a character that the
shell would treat specially outside quotes makes the reading fail. -/

/-- A shell token: a word after quote removal, or a control operator. -/
inductive Tok where
  | word : Str → Tok
  | op : Str → Tok
deriving DecidableEq

/-- Where the scanner stands: outside quotes, inside single quotes, right after an
unquoted backslash, or right after one unquoted `&`. -/
inductive ShMode where
  | plain
  | quoted
  | escaped
  | amp
deriving DecidableEq

/-- Characters that are literal outside quotes: letters, digits and `- _ . / , : + @ %`. -/
def sh_literal (c : Char) : Bool :=
  c.isAlphanum || "-_./,:+@%".toList.contains c

/-- The word in progress, delimited: it becomes a token. -/
def sh_flush (cur : Option Str) : List Tok :=
  match cur with
  | none => []
  | some w => [Tok.word w]

/-- The word in progress with one more literal character. -/
def sh_push (cur : Option Str) (c : Char) : Option Str := some (cur.getD [] ++ [c])

/-- Token recognition with quote removal. Inside single quotes every character is
literal up to the closing quote; a backslash outside quotes makes the next character
literal (and removes a following newline); blanks delimit words; `&&` is an operator.
`none`: an unterminated quote, or a construct outside this fragment. -/
def sh_tokens : ShMode → Option Str → Str → Option (List Tok)
  | ShMode.plain, cur, [] => some (sh_flush cur)
  | ShMode.quoted, _, [] => none
  | ShMode.escaped, _, [] => none
  | ShMode.amp, _, [] => none
  | ShMode.quoted, cur, c :: cs =>
    if c = SQ then sh_tokens ShMode.plain cur cs
    else sh_tokens ShMode.quoted (sh_push cur c) cs
  | ShMode.escaped, cur, c :: cs =>
    if c = NL then sh_tokens ShMode.plain cur cs
    else sh_tokens ShMode.plain (sh_push cur c) cs
  | ShMode.amp, _, c :: cs =>
    if c = '&' then (sh_tokens ShMode.plain none cs).map (fun ts => Tok.op "&&".toList :: ts)
    else none
  | ShMode.plain, cur, c :: cs =>
    if c = SQ then sh_tokens ShMode.quoted (some (cur.getD [])) cs
    else if c = BSL then sh_tokens ShMode.escaped cur cs
    else if c = ' ' ∨ c = '\t' then
      (sh_tokens ShMode.plain none cs).map (fun ts => sh_flush cur ++ ts)
    else if c = '&' then
      (sh_tokens ShMode.amp none cs).map (fun ts => sh_flush cur ++ ts)
    else if sh_literal c then sh_tokens ShMode.plain (sh_push cur c) cs
    else none

/-- The words and operators a POSIX shell reads from the command line `s`. -/
def posix_words (s : Str) : Option (List Tok) := sh_tokens ShMode.plain none s

/-- The text `sh_escape` is specified to produce between the two outer quotes: `s`
with every single quote replaced by the four characters quote, backslash, quote, quote. -/
def quote_body (s : Str) : Str :=
  s.flatMap (fun c => if c = SQ then [SQ, BSL, SQ, SQ] else [c])

/-! ## File-system model -/

/-- A regular file: permission bits and contents. -/
structure File where
  mode : Nat
  data : Str
deriving DecidableEq

/-- The file system as far as the editor touches it: which regular file, if any, a path
names. -/
abbrev FS := Str → Option File

/-- Create or replace the file at `p`. -/
def FS.put (fs : FS) (p : Str) (f : File) : FS := fun q => if q = p then some f else fs q

/-- The C++ `unlink(p)`. -/
def FS.unlink (fs : FS) (p : Str) : FS := fun q => if q = p then none else fs q

/-- A successful `rename(src, dst)`: `dst` now names the file `src` named, `src` is gone. -/
def FS.rename (fs : FS) (src dst : Str) : FS :=
  match fs src with
  | none => fs
  | some f => (fs.unlink src).put dst f

/-- Which of the system and library calls made by one run of `atomic_save` fail; the
outcome of each call is an input of the model. `true` means the call succeeds. -/
structure SaveFaults where
  /-- The C++ `::open(src, O_RDONLY)` in `safe_backup_copy`. -/
  backup_open_src : Bool
  /-- The C++ `::open(dst, ...)` in `safe_backup_copy` (both attempts). -/
  backup_open_dst : Bool
  /-- Value `none` when every `::write` of the backup copies its bytes, `some n` when a write
  fails after `n` bytes reached the backup. -/
  backup_short : Option Nat
  /-- The six bytes `mkstemp` puts in place of `XXXXXX`, `none` when it fails. -/
  mkstemp : Option Str
  fchmod : Bool
  fdopen : Bool
  /-- Value `none` when every `fputs`/`fputc` succeeds, `some i` when the write of line `i`
  (counting from 0) returns `EOF`. -/
  write_fail : Option Nat
  fflush : Bool
  fsync : Bool
  fclose : Bool
  rename : Bool
  /-- Exit status that `std::system` reports for the `doas` command. -/
  doas_rc : Int
  /-- Whether the `mv` of the privileged command line `mv A B && sync` took place in a
  run that reports a non-zero status: `true` when the move was done and `sync` then
  failed or was killed, `false` when `doas`, `sh` or `mv` failed and nothing was moved.
  A run that reports status 0 has always moved the file. -/
  doas_moved : Bool
  /-- The text `strerror(errno)` yields for the failing call. -/
  strerror : Str

/-- Result of a save: the `bool` returned, the message left in `err`, the file system. -/
structure SaveResult where
  ok : Bool
  err : Str
  fs : FS

/-- Source `safe_backup_copy` (tedit.cpp:81). The `bool` it returns is discarded by its only
caller, so the model keeps the file system only. A backup created by the call has mode
0600, one that existed keeps its mode. -/
def safe_backup_copy (o : SaveFaults) (src dst : Str) (fs : FS) : FS :=
  match fs src with
  | none => fs
  | some f =>
    if !o.backup_open_src then fs
    else if !o.backup_open_dst then fs
    else
      let m : Nat := match fs dst with
        | some g => g.mode
        | none => 384
      let copied : Str := match o.backup_short with
        | none => f.data
        | some n => f.data.take n
      fs.put dst { mode := m, data := copied }

/-- The bytes the loop of `atomic_save_to_fd` hands to the stream for the lines `ls`:
`fputs(L.c_str(), tf)`, which writes the bytes of `L` before its first NUL, then
`fputc('\n', tf)`, for each line in order. -/
def fputs_lines (ls : List Str) : Str := (ls.map (fun L => c_str L ++ [NL])).flatten

/-- Source `atomic_save_to_fd` (tedit.cpp:339), writing to the open temporary file `tmp`.
Returns the `bool`, the message, and the file system. -/
def atomic_save_to_fd (o : SaveFaults) (tmp : Str) (b : Buffer) (fs : FS) : SaveResult :=
  let m : Nat := match fs tmp with
    | some g => g.mode
    | none => 384
  let failing : Option Nat := match o.write_fail with
    | none => none
    | some i => if i < b.lines.length then some i else none
  match failing with
  | some i =>
      { ok := false, err := "write: ".toList ++ o.strerror,
        fs := fs.put tmp { mode := m, data := fputs_lines (b.lines.take i) } }
  | none =>
    let fs1 := fs.put tmp { mode := m, data := fputs_lines b.lines }
    if !o.fflush then { ok := false, err := "flush: ".toList ++ o.strerror, fs := fs1 }
    else if !o.fsync then { ok := false, err := "fsync: ".toList ++ o.strerror, fs := fs1 }
    else if !o.fclose then { ok := false, err := "close: ".toList ++ o.strerror, fs := fs1 }
    else { ok := true, err := [], fs := fs1 }

/-- The C++ `std::to_string` of an `int`. -/
def int_to_string (n : Int) : Str := (toString n).toList

/-- The inner command line of a command line that reads `doas sh -c INNER`. -/
def as_doas_sh (ts : Option (List Tok)) : Option Str :=
  match ts with
  | some [Tok.word w1, Tok.word w2, Tok.word w3, Tok.word inner] =>
    if w1 = "doas".toList ∧ w2 = "sh".toList ∧ w3 = "-c".toList then some inner else none
  | _ => none

/-- The two operands of a command line that reads `mv A B && sync`. -/
def as_mv_sync (ts : Option (List Tok)) : Option (Str × Str) :=
  match ts with
  | some [Tok.word w4, Tok.word a, Tok.word b, Tok.op w5, Tok.word w6] =>
    if w4 = "mv".toList ∧ w5 = "&&".toList ∧ w6 = "sync".toList then some (a, b) else none
  | _ => none

/-- The file moved and its destination, when the shell reads the line `line` as
`doas sh -c INNER` and `INNER` as `mv A B && sync`. -/
def parse_doas_mv (line : Str) : Option (Str × Str) :=
  match as_doas_sh (posix_words line) with
  | none => none
  | some inner => as_mv_sync (posix_words inner)

/-- Source `run_shell_cmd` (tedit.cpp:76), that is `std::system(cmd.c_str())`, for the command
line of the save pipeline; the exit status and the file system afterwards. The shell
receives the bytes of `cmd` before the first NUL. When it reads them as
`doas sh -c INNER` and `INNER` as `mv A B && sync`, with `A` an existing file, the
child has one of three outcomes: it moves `A` onto `B`, runs `sync` and exits with
status 0; it moves `A` onto `B` and exits with the non-zero status `o.doas_rc` because
`sync` failed or was killed (`o.doas_moved`); or it exits with the non-zero status
`o.doas_rc` having moved nothing. Any other line is rejected with status 2 (a missing
source file with status 1) and nothing is moved. -/
def run_shell_cmd (o : SaveFaults) (cmd : Str) (fs : FS) : Int × FS :=
  match parse_doas_mv (c_str cmd) with
  | none => (2, fs)
  | some (a, b) =>
    if (fs a).isNone then (1, fs)
    else if o.doas_rc = 0 then (0, fs.rename a b)
    else if o.doas_moved then (o.doas_rc, fs.rename a b)
    else (o.doas_rc, fs)

/-- Source `doas_move_into_place_secure` (tedit.cpp:358); `doas_cmd` is the string `cmd` it
builds from `inner`. -/
def doas_move_into_place_secure (o : SaveFaults) (tmp dest : Str) (fs : FS) : SaveResult :=
  let cmd : Str := doas_cmd tmp dest
  let r := run_shell_cmd o cmd fs
  if r.1 ≠ 0 then
    { ok := false,
      err := "doas move failed (exit ".toList ++ int_to_string r.1 ++ ")".toList,
      fs := r.2 }
  else { ok := true, err := [], fs := r.2 }

/-- The name `mkstemp` gives the temporary file for the template `path + ".tmp.XXXXXX"`. -/
def tmp_name (path sfx : Str) : Str := path ++ ".tmp.".toList ++ sfx

/-- The call `mkstemp(tbuf.data())` of `atomic_save` (tedit.cpp:382): the name of the
file it creates, `none` when it fails. `mkstemp` creates the file exclusively, so a name
that is taken counts as a failure. -/
def mkstemp (o : SaveFaults) (path : Str) (fs : FS) : Option Str :=
  match o.mkstemp with
  | none => none
  | some sfx => if (fs (tmp_name path sfx)).isSome then none else some (tmp_name path sfx)

/-- The steps of `atomic_save` from `fchmod` on (tedit.cpp:384-408), once `mkstemp` has
created the empty file `tmp` with mode 0600. -/
def atomic_save_tmp (o : SaveFaults) (path tmp : Str) (mode : Nat) (b : Buffer) (fs1 : FS) :
    SaveResult :=
  let fs2 : FS := fs1.put tmp { mode := 384, data := [] }
  let fs3 : FS := if o.fchmod then fs2.put tmp { mode := mode, data := [] } else fs2
  if !o.fdopen then
    { ok := false, err := "fdopen: ".toList ++ o.strerror, fs := fs3.unlink tmp }
  else
    let w := atomic_save_to_fd o tmp b fs3
    if !w.ok then { ok := false, err := w.err, fs := w.fs.unlink tmp }
    else if o.rename then { ok := true, err := w.err, fs := w.fs.rename tmp path }
    else
      let d := doas_move_into_place_secure o tmp path w.fs
      if !d.ok then
        { ok := false, err := "rename: ".toList ++ o.strerror ++ " ; ".toList ++ d.err,
          fs := d.fs.unlink tmp }
      else { ok := true, err := w.err, fs := d.fs }

/-- Source `atomic_save` (tedit.cpp:370). Paths are C strings (no NUL byte); `fsync_dir_of`
changes no file. -/
def atomic_save (o : SaveFaults) (path : Str) (b : Buffer) (backup : Bool) (fs : FS) :
    SaveResult :=
  let mode : Nat := match fs path with
    | some f => f.mode % 512
    | none => 420
  let fs1 : FS := if backup && (fs path).isSome
    then safe_backup_copy o path (path ++ ['~']) fs else fs
  match mkstemp o path fs1 with
  | none => { ok := false, err := "mkstemp: ".toList ++ o.strerror, fs := fs1 }
  | some tmp => atomic_save_tmp o path tmp mode b fs1

/-! ## Reading text: `std::getline` and `std::istringstream` -/

/-- The lines `while(std::getline(in, line))` yields for the bytes `s`, before any
stripping; `cur` holds, reversed, the bytes of the line being read. A final line without
`\n` is delivered when it is not empty. -/
def getlines_from (cur : Str) : Str → List Str
  | [] => if cur.isEmpty then [] else [cur.reverse]
  | c :: cs => if c = NL then cur.reverse :: getlines_from [] cs else getlines_from (c :: cur) cs

/-- The loop `while(std::getline(in,line)){ rstrip_newline(line); lines.push_back(line); }`
of `load_file`, `maybe_recover` and `read` on a file holding the bytes `s`. -/
def read_lines (s : Str) : List Str := (getlines_from [] s).map rstrip_newline

/-- State of a `std::istringstream`: the bytes not yet read, `eofbit`, `failbit`. -/
structure IStream where
  rest : Str
  eof : Bool
  fail : Bool
deriving DecidableEq

namespace IStream

/-- The C++ `std::istringstream ts(s)`. -/
def ofStr (s : Str) : IStream := { rest := s, eof := false, fail := false }

/-- The C++ `ts.good()`. -/
def good (s : IStream) : Bool := !s.eof && !s.fail

/-- The C++ `ts >> w` for a `std::string w` whose value before the call is `dflt`. -/
def word (s : IStream) (dflt : Str) : Str × IStream :=
  if !s.good then (dflt, { s with fail := true })
  else
    let r := s.rest.dropWhile isspace
    if r.isEmpty then (dflt, { rest := [], eof := true, fail := true })
    else
      let w := r.takeWhile (fun c => !isspace c)
      let r1 := r.dropWhile (fun c => !isspace c)
      (w, { rest := r1, eof := r1.isEmpty, fail := false })

/-- The C++ `ts >> v` for a `long v` whose value before the call is `dflt`: white space is
skipped, then a sign and decimal digits are read; without a digit `v` becomes 0 and
`failbit` is set, a value outside `long` is clamped and sets `failbit`. -/
def long (s : IStream) (dflt : Int) : Int × IStream :=
  if !s.good then (dflt, { s with fail := true })
  else
    let r := s.rest.dropWhile isspace
    if r.isEmpty then (dflt, { rest := [], eof := true, fail := true })
    else
      let neg := r.head? == some '-'
      let r1 := if r.head? == some '-' || r.head? == some '+' then r.drop 1 else r
      let ds := r1.takeWhile isdigit
      let r2 := r1.dropWhile isdigit
      if ds.isEmpty then (0, { rest := r1, eof := r1.isEmpty, fail := true })
      else
        let mag : Int := (digitsVal ds : Int)
        let v : Int := if neg then -mag else mag
        if v > LONG_MAX then (LONG_MAX, { rest := r2, eof := r2.isEmpty, fail := true })
        else if v < LONG_MIN then (LONG_MIN, { rest := r2, eof := r2.isEmpty, fail := true })
        else (v, { rest := r2, eof := r2.isEmpty, fail := false })

/-- The C++ `std::getline(ts, line)` for a `line` whose value before the call is `dflt`. -/
def getline (s : IStream) (dflt : Str) : Str × IStream :=
  if !s.good then (dflt, { s with fail := true })
  else
    let line := s.rest.takeWhile (fun c => c != NL)
    match s.rest.dropWhile (fun c => c != NL) with
    | [] => (line, { rest := [], eof := true, fail := line.isEmpty })
    | _ :: r1 => (line, { rest := r1, eof := false, fail := false })

end IStream

/-! ## Search and replace helpers -/

/-- Whether `needle` starts the string `s`. -/
def starts_with (needle s : Str) : Bool := s.take needle.length == needle

/-- The C++ `s.find(needle)` of `std::string`: the first index at which `needle` occurs. -/
def find_sub (needle : Str) : Str → Option Nat
  | [] => if needle.isEmpty then some 0 else none
  | c :: cs =>
    if starts_with needle (c :: cs) then some 0
    else match find_sub needle cs with
      | none => none
      | some k => some (k + 1)

/-- Source `replace_first_line` (tedit.cpp:506): the new line and the count returned. -/
def replace_first_line (s needle repl : Str) : Str × Nat :=
  match find_sub needle s with
  | none => (s, 0)
  | some pos => (s.take pos ++ repl ++ s.drop (pos + needle.length), 1)

/-- The loop of `replace_all_line` for a non-empty needle, as one left-to-right scan:
`skip` counts the bytes of a matched needle still to be passed over. -/
def replace_all_scan (needle repl : Str) : Nat → Str → Str × Nat
  | _, [] => ([], 0)
  | skip + 1, _ :: cs => replace_all_scan needle repl skip cs
  | 0, c :: cs =>
    if starts_with needle (c :: cs) then
      let r := replace_all_scan needle repl (needle.length - 1) cs
      (repl ++ r.1, r.2 + 1)
    else
      let r := replace_all_scan needle repl 0 cs
      (c :: r.1, r.2)

/-- Source `replace_all_line` (tedit.cpp:512). -/
def replace_all_line (s needle repl : Str) : Str × Nat :=
  if needle.isEmpty then (s, 0) else replace_all_scan needle repl 0 s

/-- Source `search_plain_allhits` (tedit.cpp:477): the 1-based numbers of the matching lines. -/
def search_plain_allhits (b : Buffer) (q : Str) (icase : Bool) : List Nat :=
  if q.isEmpty then []
  else
    let qq := if icase then lower q else q
    (List.range b.lines.length).filterMap (fun i =>
      let L := if icase then lower (b.lines.getD i []) else b.lines.getD i []
      if (find_sub qq L).isSome then some (i + 1) else none)

/-! ## The editor (`struct Editor`) -/

/-- The fields of `struct Editor` (tedit.cpp:1008) that the commands below read or write. -/
structure Editor where
  buf : Buffer
  undo : Stack
  redo : Stack
  others : List Buffer
  last_search : Str
  last_icase : Bool
  last_index : Nat
  aliases : List (Str × Str)
deriving DecidableEq

/-- The editor as constructed: an unnamed empty buffer, both stacks empty. -/
def Editor.init : Editor :=
  { buf := Buffer.fresh, undo := { st := [] }, redo := { st := [] }, others := [],
    last_search := [], last_icase := false, last_index := 0, aliases := [] }

/-- What lies outside the process: the file system and the lines still to come on
standard input (each `std::getline(std::cin, s)` takes the next one and fails when
none is left). -/
structure World where
  fs : FS
  stdin : List Str

/-- Outside inputs of one command: the environment, the faults of a save, and the
outcome of child processes. -/
structure Env where
  /-- The result of `home_path()`. -/
  home : Str
  /-- The hexadecimal text of `std::hash<string>` of a path. -/
  hash_hex : Str → Str
  faults : SaveFaults
  /-- Effect on the file system of running the hook script at the given path. -/
  hook : Str → FS → FS
  /-- The lines a filter command leaves in its output file, `none` when
  `run_filter_replace` fails after its range check. -/
  filter_out : Option (List Str)

/-- Source `recover_path_for` (tedit.cpp:414). -/
def recover_path_for (env : Env) (b : Buffer) : Str :=
  let p : Str := if b.path.isEmpty then ".unnamed".toList else b.path
  env.home ++ "/.tedit-recover-".toList ++ env.hash_hex p

/-- Source `Editor::run_hook` (tedit.cpp:1271), as its effect on the file system. -/
def run_hook (env : Env) (name : Str) (fs : FS) : FS :=
  let h : Str := env.home ++ "/.tedit/hooks/".toList ++ name
  if (fs h).isNone then fs else env.hook h fs

namespace Editor

/-- Source `Editor::push_undo` (tedit.cpp:1301): `undo.push(buf); redo.clear();`. -/
def push_undo (e : Editor) : Editor :=
  { e with undo := e.undo.push e.buf, redo := e.redo.clear }

/-- Source `Editor::save` (tedit.cpp:1280): the `bool` returned, the editor and the world
afterwards. -/
def save (env : Env) (maybe : Str) (e : Editor) (w : World) : Bool × Editor × World :=
  let target : Str := if maybe.isEmpty then e.buf.path else maybe
  if target.isEmpty then (false, e, w)
  else
    let r := atomic_save env.faults target e.buf e.buf.backup w.fs
    if !r.ok then (false, e, { w with fs := r.fs })
    else
      let buf1 : Buffer := if target ≠ e.buf.path then { e.buf with path := target } else e.buf
      let buf2 : Buffer := { buf1 with dirty := false }
      let fs1 : FS := r.fs.unlink (recover_path_for env buf2)
      let fs2 : FS := run_hook env "on_save".toList fs1
      (true, { e with buf := buf2 }, { w with fs := fs2 })

/-- The reading loop of `append_mode` and `insert_mode`: `pos` is `none` for
`push_back` (append), `some before` for `insert_mode(before)`. Returns the lines, the
number of lines added and what is left of standard input. -/
def input_loop (pos : Option Nat) : List Str → List Str → Nat → List Str × Nat × List Str
  | [], lines, added => (lines, added, [])
  | s :: more, lines, added =>
    if s = ".".toList then (lines, added, more)
    else
      let s1 : Str := if s = "\".\"".toList then ".".toList else s
      let lines1 : List Str := match pos with
        | none => lines ++ [s1]
        | some before =>
          if before + added > lines.length then lines ++ [s1]
          else lines.take (before + added) ++ [s1] ++ lines.drop (before + added)
      input_loop pos more lines1 (added + 1)

/-- Source `Editor::append_mode` (tedit.cpp:1303). -/
def append_mode (e : Editor) (w : World) : Editor × World :=
  let r := input_loop none w.stdin e.buf.lines 0
  let buf1 : Buffer := { e.buf with lines := r.1 }
  let buf2 : Buffer := if r.2.1 ≠ 0 then { buf1 with dirty := true } else buf1
  ({ e with buf := buf2 }, { w with stdin := r.2.2 })

/-- Source `Editor::insert_mode` (tedit.cpp:1316). -/
def insert_mode (before : Nat) (e : Editor) (w : World) : Editor × World :=
  let r := input_loop (some before) w.stdin e.buf.lines 0
  let buf1 : Buffer := { e.buf with lines := r.1 }
  let buf2 : Buffer := if r.2.1 ≠ 0 then { buf1 with dirty := true } else buf1
  ({ e with buf := buf2 }, { w with stdin := r.2.2 })

/-- Source `Editor::repl` (tedit.cpp:1381). -/
def repl (global : Bool) (old nw : Str) (e : Editor) : Editor :=
  if old.isEmpty then e
  else
    let e1 := e.push_undo
    let rs : List (Str × Nat) := e1.buf.lines.map (fun L =>
      if global then replace_all_line L old nw else replace_first_line L old nw)
    let total : Nat := (rs.map (fun r => r.2)).sum
    let lines1 : List Str := rs.map (fun r => r.1)
    let buf1 : Buffer := { e1.buf with lines := lines1 }
    let buf2 : Buffer := if total ≠ 0 then { buf1 with dirty := true } else buf1
    { e1 with buf := buf2 }

end Editor

/-- The C++ `v.erase(v.begin()+a, v.begin()+b)` of a vector. -/
def erase_range (l : List Str) (a b : Nat) : List Str := l.take a ++ l.drop b

/-- The C++ `v.insert(v.begin()+at, first, last)` of a vector. -/
def insert_at (l : List Str) (at_ : Nat) (xs : List Str) : List Str :=
  l.take at_ ++ xs ++ l.drop at_

/-- Source `run_filter_replace` (tedit.cpp:529): `none` is `return false`, in which case `lines`
is untouched. The temporary files and the child process are summarised by `out_lines`,
the lines read back from the output file, `none` when any step in between fails. -/
def run_filter_replace (lines : List Str) (lo hi : Nat) (out_lines : Option (List Str)) :
    Option (List Str) :=
  if lo < 1 ∨ hi < lo ∨ hi > lines.length then none
  else match out_lines with
    | none => none
    | some out =>
      let count := hi - lo + 1
      some (insert_at (erase_range lines (lo - 1) (lo - 1 + count)) (lo - 1) out)

/-- The joined text of `join`: lines `lo..hi`, separated by one space. -/
def join_text (lines : List Str) (lo hi : Nat) : Str :=
  " ".toList.intercalate ((lines.drop (lo - 1)).take (hi + 1 - lo))

/-! ## Command dispatch (`Editor::handle`)

Each `cmd_*` function is the body of one `if(lc==...)` branch of `Editor::handle`;
what a branch prints is not part of the model. -/

/-- The branch `append|a` (tedit.cpp:1540). -/
def cmd_append (e : Editor) (w : World) : Editor × World :=
  e.push_undo.append_mode w

/-- The branch `insert|i` (tedit.cpp:1541). -/
def cmd_insert (rest : Str) (e : Editor) (w : World) : Editor × World :=
  match parse_long rest with
  | none => (e, w)
  | some n =>
    if n < 1 ∨ toSizeT n > e.buf.lines.length + 1 then (e, w)
    else
      let r := e.push_undo.insert_mode (toSizeT n - 1) w
      ({ r.1 with buf := { r.1.buf with dirty := true } }, r.2)

/-- The branch `delete|d` (tedit.cpp:1547). -/
def cmd_delete (rest : Str) (e : Editor) : Editor :=
  if e.buf.lines.isEmpty then e
  else match parse_range rest e.buf.lines.length with
    | none => e
    | some (lo, hi) =>
      let e1 := e.push_undo
      let count := hi - lo + 1
      { e1 with buf := { e1.buf with
          lines := erase_range e1.buf.lines (lo - 1) (lo - 1 + count), dirty := true } }

/-- The branch `move|m` (tedit.cpp:1560); `frm` and `to_` are the source's `from` and `to`. -/
def cmd_move (rest : Str) (e : Editor) : Editor :=
  let r1 := (IStream.ofStr rest).long 0
  let r2 := r1.2.long 0
  let frm : Int := r1.1
  let to_ : Int := r2.1
  if frm = 0 ∧ to_ = 0 then e
  else if frm < 1 ∨ toSizeT frm > e.buf.lines.length ∨ to_ < 0 ∨
      toSizeT to_ > e.buf.lines.length
  then e
  else
    let e1 := e.push_undo
    let s : Str := e1.buf.lines.getD (toSizeT frm - 1) []
    let l1 : List Str := e1.buf.lines.eraseIdx (toSizeT frm - 1)
    let to1 : Int := if to_ > frm then to_ - 1 else to_
    let to2 : Int := if to1 > toLong l1.length then toLong l1.length else to1
    { e1 with buf := { e1.buf with lines := insert_at l1 to2.toNat [s], dirty := true } }

/-- The branch `join` (tedit.cpp:1577). -/
def cmd_join (rest : Str) (e : Editor) : Editor :=
  match parse_range rest e.buf.lines.length with
  | none => e
  | some (lo, hi) =>
    if hi ≤ lo then e
    else
      let e1 := e.push_undo
      let out : Str := join_text e1.buf.lines lo hi
      let l1 : List Str := erase_range e1.buf.lines (lo - 1) hi
      { e1 with buf := { e1.buf with lines := insert_at l1 (lo - 1) [out], dirty := true } }

/-- The branch `repl|replg` (tedit.cpp:1597). -/
def cmd_repl (lc rest : Str) (e : Editor) : Editor :=
  let g : Bool := lc = "replg".toList
  let r1 := (IStream.ofStr rest).word []
  let r2 := r1.2.word []
  e.repl g r1.1 r2.1

/-- The branch `read` (tedit.cpp:1599). -/
def cmd_read (rest : Str) (e : Editor) (w : World) : Editor :=
  let r1 := (IStream.ofStr rest).word []
  let p : Str := r1.1
  if p.isEmpty then e
  else
    let r2 := r1.2.long (-1)
    let n : Int := if r2.2.fail then -1 else r2.1
    match w.fs p with
    | none => e
    | some f =>
      let e1 := e.push_undo
      let R : List Str := read_lines f.data
      let at0 : Nat := if n < 0 then e1.buf.lines.length else toSizeT n
      let at1 : Nat := if at0 > e1.buf.lines.length then e1.buf.lines.length else at0
      { e1 with buf := { e1.buf with lines := insert_at e1.buf.lines at1 R, dirty := true } }

/-- The branch `filter` (tedit.cpp:1634). -/
def cmd_filter (env : Env) (rest : Str) (e : Editor) : Editor :=
  let r1 := (IStream.ofStr rest).word []
  let rng : Str := r1.1
  let ex : Str := trim_copy (r1.2.getline []).1
  if ex.isEmpty ∨ ex.head? ≠ some '!' then e
  else match parse_range rng e.buf.lines.length with
    | none => e
    | some (lo, hi) =>
      let e1 := e.push_undo
      match run_filter_replace e1.buf.lines lo hi env.filter_out with
      | some ls => { e1 with buf := { e1.buf with lines := ls, dirty := true } }
      | none => e1

/-- The loop `while(k-- > 0)` of the branch `undo|u`, for a positive `k` given as a
natural number; a failed `pop` is the `break`. -/
def undo_loop : Nat → Editor → Editor
  | 0, e => e
  | k + 1, e =>
    match e.undo.pop with
    | none => e
    | some (s, u) =>
      undo_loop k { e with
        undo := u, redo := e.redo.push e.buf,
        buf := { e.buf with lines := s.lines, dirty := true } }

/-- The branch `undo|u` (tedit.cpp:1646): `k` stays 1 when `rest` is empty or does
not parse; a `k` that is zero or negative runs the loop no time. -/
def cmd_undo (rest : Str) (e : Editor) : Editor :=
  let k : Int := if rest.isEmpty then 1 else (parse_long rest).getD 1
  undo_loop k.toNat e

/-- The branch `redo` (tedit.cpp:1656). -/
def cmd_redo (e : Editor) : Editor :=
  match e.redo.pop with
  | none => e
  | some (s, r) =>
    { e with redo := r, undo := e.undo.push e.buf,
             buf := { e.buf with lines := s.lines, dirty := true } }

/-- What `Editor::handle` leaves behind: the editor, the world, and the `bool` it
returns (`false` ends the command loop). -/
structure Outcome where
  ed : Editor
  world : World
  keep : Bool

/-- The branch `wq` (tedit.cpp:1512). -/
def cmd_wq (env : Env) (e : Editor) (w : World) : Outcome :=
  let r := e.save env [] w
  if r.1 then
    { ed := r.2.1, world := { r.2.2 with fs := run_hook env "on_quit".toList r.2.2.fs },
      keep := false }
  else { ed := r.2.1, world := r.2.2, keep := true }

/-- The branches `write|w` (tedit.cpp:1513) and `saveas` (tedit.cpp:1514) once the
argument of `saveas` is known not to be empty: `save(rest); return true;`. -/
def cmd_write (env : Env) (rest : Str) (e : Editor) (w : World) : Outcome :=
  let r := e.save env rest w
  { ed := r.2.1, world := r.2.2, keep := true }

/-- The branch `write [range] <path>` (tedit.cpp:1616). -/
def cmd_write_range (env : Env) (rest : Str) (e : Editor) (w : World) : Outcome :=
  let ts := (IStream.ofStr rest).word []
  let tok1 : Str := ts.1
  if tok1.isEmpty then { ed := e, world := w, keep := true }
  else
    let isrange : Bool := tok1.any (fun ch => ch == '-' || isdigit ch || ch == '$')
    let n := e.buf.lines.length
    let go : Nat → Nat → Str → Outcome := fun lo hi outp =>
      let tmp : Buffer := { Buffer.fresh with
        lines := if hi ≥ lo then (e.buf.lines.drop (lo - 1)).take (hi - (lo - 1)) else [] }
      let r := atomic_save env.faults outp tmp e.buf.backup w.fs
      { ed := e, world := { w with fs := r.fs }, keep := true }
    if isrange then
      match parse_range tok1 n with
      | none => { ed := e, world := w, keep := true }
      | some (lo, hi) =>
        let outp : Str := (ts.2.word []).1
        if outp.isEmpty then { ed := e, world := w, keep := true } else go lo hi outp
    else go 1 n tok1

/-- Source `load_file` (tedit.cpp:309): the buffer after reading the file at `path`, or
with no lines when the file cannot be opened. -/
def load_file (path : Str) (b : Buffer) (fs : FS) : Buffer :=
  match fs path with
  | none => { b with lines := [], dirty := false }
  | some f => { b with lines := read_lines f.data, dirty := false }

/-- The text `autosave_if_needed` writes for a buffer (tedit.cpp:428): every line followed
by a newline. -/
def autosave_text (b : Buffer) : Str := (b.lines.map (fun L => L ++ [NL])).flatten

/-- Source `autosave_if_needed` (tedit.cpp:420), with the clock and the stream as
inputs: `due` tells whether the interval is positive and has elapsed, `open_ok` whether
the output stream could be opened. -/
def autosave_if_needed (env : Env) (due open_ok : Bool) (b : Buffer) (fs : FS) : FS :=
  if !due then fs
  else if !b.dirty then fs
  else if open_ok then
    fs.put (recover_path_for env b)
      { mode := (match fs (recover_path_for env b) with
          | some f => f.mode
          | none => 420),
        data := autosave_text b }
  else fs

/-- Source `maybe_recover` (tedit.cpp:433): the `bool` returned and the buffer. -/
def maybe_recover (env : Env) (b : Buffer) (fs : FS) : Bool × Buffer :=
  match fs (recover_path_for env b) with
  | none => (false, b)
  | some f => (true, { b with lines := read_lines f.data, dirty := true })

namespace Editor

/-- Source `Editor::load` (tedit.cpp:1264). -/
def load (env : Env) (p : Str) (e : Editor) (w : World) : Editor :=
  let b1 : Buffer := load_file p { e.buf with path := p } w.fs
  { e with buf := (maybe_recover env b1 w.fs).2 }

/-- Source `Editor::open_new_buffer` (tedit.cpp:1425). -/
def open_new_buffer (env : Env) (path : Str) (e : Editor) (w : World) : Editor :=
  let nb : Buffer :=
    if !path.isEmpty then
      (maybe_recover env (load_file path { Buffer.fresh with path := path } w.fs) w.fs).2
    else Buffer.fresh
  { e with others := e.others ++ [e.buf], buf := nb }

/-- Source `Editor::next_match` (tedit.cpp:1400). `hits` is ascending, so
`std::upper_bound` is the first hit above `last_index` and `std::lower_bound` the first
hit not below it. -/
def next_match (e : Editor) (reverse : Bool) : Editor :=
  if e.last_search.isEmpty then e
  else
    let hits := search_plain_allhits e.buf e.last_search e.last_icase
    if hits.isEmpty then e
    else if !reverse then
      let k := (hits.takeWhile (fun h => decide (h ≤ e.last_index))).length
      let k1 := if k = hits.length then 0 else k
      { e with last_index := hits.getD k1 0 }
    else
      let k := (hits.takeWhile (fun h => decide (h < e.last_index))).length
      let k1 := if k = 0 then hits.length else k
      { e with last_index := hits.getD (k1 - 1) 0 }

/-- Source `Editor::bnext` (tedit.cpp:1440). -/
def bnext (e : Editor) : Editor :=
  if e.others.isEmpty then e
  else
    let others1 : List Buffer := e.buf :: e.others
    { e with buf := others1.getLastD e.buf, others := others1.dropLast }

/-- Source `Editor::bprev` (tedit.cpp:1448). -/
def bprev (e : Editor) : Editor :=
  if e.others.isEmpty then e
  else
    let back : Buffer := e.others.getLastD e.buf
    let others1 : List Buffer := e.others.dropLast
    { e with others := e.buf :: others1, buf := back }

end Editor

/-- The branch `open` (tedit.cpp:1506). -/
def cmd_open (env : Env) (rest : Str) (e : Editor) (w : World) : Editor :=
  if rest.isEmpty then e
  else if !e.buf.path.isEmpty && e.buf.dirty then e
  else e.load env rest w

/-- The branches `find` and `findi` (tedit.cpp:1591); the matches are only printed. -/
def cmd_find (icase : Bool) (rest : Str) (e : Editor) : Editor :=
  if rest.isEmpty then e
  else { e with last_search := rest, last_icase := icase, last_index := 0 }

/-- The part of the dispatch chain of `Editor::handle` (tedit.cpp:1505 onwards)
that opens, saves, edits, searches, undoes, redoes and switches buffers, tested in the
order of the source; `lc` is the lower-cased command word and `rest` the trimmed
remainder of the line. `none` stands for the commands that are not modelled. -/
def handle_cmd (env : Env) (lc rest : Str) (e : Editor) (w : World) : Option Outcome :=
  if lc = "open".toList then some { ed := cmd_open env rest e w, world := w, keep := true }
  else if lc = "wq".toList then some (cmd_wq env e w)
  else if lc = "write".toList ∨ lc = "w".toList then some (cmd_write env rest e w)
  else if lc = "saveas".toList then
    if rest.isEmpty then some { ed := e, world := w, keep := true }
    else some (cmd_write env rest e w)
  else if lc = "append".toList ∨ lc = "a".toList then
    let r := cmd_append e w
    some { ed := r.1, world := r.2, keep := true }
  else if lc = "insert".toList ∨ lc = "i".toList then
    let r := cmd_insert rest e w
    some { ed := r.1, world := r.2, keep := true }
  else if lc = "delete".toList ∨ lc = "d".toList then
    some { ed := cmd_delete rest e, world := w, keep := true }
  else if lc = "move".toList ∨ lc = "m".toList then
    some { ed := cmd_move rest e, world := w, keep := true }
  else if lc = "join".toList then some { ed := cmd_join rest e, world := w, keep := true }
  else if lc = "find".toList then
    some { ed := cmd_find false rest e, world := w, keep := true }
  else if lc = "findi".toList then
    some { ed := cmd_find true rest e, world := w, keep := true }
  else if lc = "findre".toList then some { ed := e, world := w, keep := true }
  else if lc = "n".toList then some { ed := e.next_match false, world := w, keep := true }
  else if lc = "N".toList then some { ed := e.next_match true, world := w, keep := true }
  else if lc = "repl".toList ∨ lc = "replg".toList then
    some { ed := cmd_repl lc rest e, world := w, keep := true }
  else if lc = "read".toList then some { ed := cmd_read rest e w, world := w, keep := true }
  else if lc = "write".toList then some (cmd_write_range env rest e w)
  else if lc = "filter".toList then
    some { ed := cmd_filter env rest e, world := w, keep := true }
  else if lc = "undo".toList ∨ lc = "u".toList then
    some { ed := cmd_undo rest e, world := w, keep := true }
  else if lc = "redo".toList then some { ed := cmd_redo e, world := w, keep := true }
  else if lc = "new".toList then
    some { ed := e.open_new_buffer env rest w, world := w, keep := true }
  else if lc = "bnext".toList then some { ed := e.bnext, world := w, keep := true }
  else if lc = "bprev".toList then some { ed := e.bprev, world := w, keep := true }
  else none

/-- Source `Editor::handle` (tedit.cpp:1481) up to the dispatch chain: the line is
trimmed, a leading `:` is dropped, an alias for the first word is expanded, a line that
starts with `/` is a search, and otherwise the first word, lower-cased, selects the
branch. The autosave at the top, which can only write the recovery file, is left out. -/
def handle (env : Env) (raw : Str) (e : Editor) (w : World) : Option Outcome :=
  let in0 : Str := trim_copy raw
  if in0.isEmpty then some { ed := e, world := w, keep := true }
  else
    let in1 : Str := if in0.head? = some ':' then trim_copy (in0.drop 1) else in0
    if in1.isEmpty then some { ed := e, world := w, keep := true }
    else
      let t := (IStream.ofStr in1).word []
      let in2 : Str := match e.aliases.lookup t.1 with
        | some expansion => expansion ++ (t.2.getline []).1
        | none => in1
      if in2.head? = some '/' then
        some { ed := { e with last_search := in2.drop 1, last_icase := false, last_index := 0 },
               world := w, keep := true }
      else
        let c := (IStream.ofStr in2).word []
        let rest : Str := trim_copy (c.2.getline []).1
        let lc : Str := lower c.1
        handle_cmd env lc rest e w

/-- A command went past its checks: it pushed a snapshot of the buffer and emptied the
redo stack. -/
def Performed (e e1 : Editor) : Prop :=
  e1.undo = e.undo.push e.buf ∧ e1.redo.st = []

/-- The editor states the command loop can be in: the state at start-up, in which both
stacks are empty; the state `handle` leaves after a command line; and the state left by
a command outside the chain given above (`help`, `print`, `set`, `theme`, `cd`, ...),
none of which touches the two stacks. -/
inductive Reachable : Editor → Prop
  | start (e : Editor) : e.undo.st = [] → e.redo.st = [] → Reachable e
  | command (env : Env) (raw : Str) (e : Editor) (w : World) (o : Outcome) :
      Reachable e → handle env raw e w = some o → Reachable o.ed
  | other (e e1 : Editor) : Reachable e → e1.undo = e.undo → e1.redo = e.redo →
      Reachable e1

/-! ## Interactive line input (`struct LineReader`) -/

/-- The byte `\r` (0x0d). -/
def CR : Char := Char.ofNat 13

/-- The byte `\t` (0x09). -/
def TAB : Char := Char.ofNat 9

/-- The byte `\b` (0x08). -/
def BS : Char := Char.ofNat 8

/-- The byte DEL (0x7f). -/
def DEL : Char := Char.ofNat 127

/-- The byte ESC (0x1b). -/
def ESC : Char := Char.ofNat 27

/-- The fields of `struct LineReader` (tedit.cpp:813) that decide what `read`, `complete`
and `remember` compute; the two colour strings only affect what is drawn. -/
structure LineReader where
  history : List Str
  commands : List Str
deriving DecidableEq

/-- The member `HIST_MAX` of `LineReader` (tedit.cpp:814), which no code assigns. -/
def HIST_MAX : Nat := 800

/-- The words the loop `while(in>>w) v.push_back(w)` yields for the rest of a string,
`cur` holding, reversed, the bytes of the word being read. -/
def split_words_from (cur : Str) : Str → List Str
  | [] => if cur.isEmpty then [] else [cur.reverse]
  | c :: cs =>
    if isspace c then
      if cur.isEmpty then split_words_from [] cs else cur.reverse :: split_words_from [] cs
    else split_words_from (c :: cur) cs

/-- Source `LineReader::split_words` (tedit.cpp:824). -/
def split_words (s : Str) : List Str := split_words_from [] s

/-- One entry of a directory as `fs::directory_iterator` delivers it: the file name and
what `is_directory()` answers. -/
structure DirEntry where
  name : Str
  is_dir : Bool
deriving DecidableEq

/-- What completion sees of the outside: the result of `home_path()` and, for each
directory path, the entries `fs::directory_iterator` delivers (none when the directory
cannot be opened). -/
structure Listing where
  home : Str
  entries : Str → List DirEntry

/-- The C++ `s.find_last_of(ch)`: the index of the last occurrence of a byte, if any. -/
def find_last_of (c : Char) (s : Str) : Option Nat :=
  if s.contains c then some (s.length - 1 - (s.reverse.takeWhile (fun x => x != c)).length)
  else none

/-- The order `operator<` of `std::string` induces, as `a <= b`: lexicographic on the
bytes read as unsigned values. -/
def str_le : Str → Str → Bool
  | [], _ => true
  | _ :: _, [] => false
  | a :: as, b :: bs =>
    if a.toNat < b.toNat then true
    else if b.toNat < a.toNat then false
    else str_le as bs

/-- Insertion of a string into a list kept in ascending order. -/
def insert_sorted (x : Str) : List Str → List Str
  | [] => [x]
  | y :: ys => if str_le x y then x :: y :: ys else y :: insert_sorted x ys

/-- The C++ `std::sort(out.begin(), out.end())` on a vector of strings: the ascending
arrangement of its elements. -/
def sort_strings (l : List Str) : List Str := l.foldr insert_sorted []

/-- Source `LineReader::expand_home_in_token` (tedit.cpp:832). -/
def expand_home_in_token (ls : Listing) (tok : Str) : Str :=
  if tok.isEmpty then tok
  else if tok = ['~'] then ls.home
  else if tok.length ≥ 2 ∧ tok.head? = some '~' ∧ (tok.drop 1).head? = some '/' then
    ls.home ++ tok.drop 1
  else tok

/-- Source `LineReader::complete_dirs_only` (tedit.cpp:841). -/
def complete_dirs_only (ls : Listing) (token : Str) : List Str :=
  let t := expand_home_in_token ls token
  let pos := find_last_of '/' t
  let dir : Str := match pos with
    | some k => t.take k
    | none => ['.']
  let base : Str := match pos with
    | some k => t.drop (k + 1)
    | none => t
  let out : List Str := (ls.entries dir).filterMap (fun e =>
    if starts_with base e.name && e.is_dir then
      some ((if dir = ['.'] then e.name else dir ++ ['/'] ++ e.name) ++ ['/'])
    else none)
  sort_strings out

/-- Source `LineReader::complete_fs` (tedit.cpp:858). -/
def complete_fs (ls : Listing) (token : Str) : List Str :=
  let pos := find_last_of '/' token
  let dir : Str := match pos with
    | some k => token.take k
    | none => ['.']
  let base : Str := match pos with
    | some k => token.drop (k + 1)
    | none => token
  let out : List Str := (ls.entries dir).filterMap (fun e =>
    if starts_with base e.name then
      let cand : Str := if dir = ['.'] then e.name else dir ++ ['/'] ++ e.name
      some (if e.is_dir then cand ++ ['/'] else cand)
    else none)
  sort_strings out

namespace LineReader

/-- Source `LineReader::complete` (tedit.cpp:874). -/
def complete (lr : LineReader) (ls : Listing) (buf : Str) : List Str :=
  let toks := split_words buf
  let at_start : Bool := toks.isEmpty
  let fresh : Bool := !buf.isEmpty && (match buf.getLast? with
    | some c => isspace c
    | none => false)
  if at_start then lr.commands
  else if toks.length = 1 ∧ !fresh then
    let pref : Str := toks.headD []
    lr.commands.filter (fun c => starts_with pref c)
  else
    let first : Str := toks.headD []
    if first = "cd".toList then
      if toks.length = 1 ∧ fresh then complete_dirs_only ls []
      else
        let last : Str := if fresh then [] else toks.getLastD []
        complete_dirs_only ls last
    else
      let last : Str := if fresh then [] else toks.getLastD []
      complete_fs ls last

/-- Source `LineReader::remember` (tedit.cpp:901): the history afterwards. -/
def remember (lr : LineReader) (s : Str) : LineReader :=
  if s.isEmpty then lr
  else if lr.history.isEmpty ∨ lr.history.getLast? ≠ some s then
    if lr.history.length < HIST_MAX then { lr with history := lr.history ++ [s] }
    else { lr with history := lr.history.drop 1 ++ [s] }
  else lr

end LineReader

/-- The local variables of `LineReader::read` that the loop updates (tedit.cpp:942):
`buf`, `cursor` (a `size_t`) and `hist_idx` (an `int`). -/
structure LineState where
  buf : Str
  cursor : Nat
  hist_idx : Int
deriving DecidableEq

/-- Which `::read` of the loop body is made next: the one at the top of the loop
(tedit.cpp:953), the one after an ESC byte (tedit.cpp:978), or the one after ESC `[`
(tedit.cpp:981). -/
inductive Pending where
  | key
  | esc1
  | esc2
deriving DecidableEq

/-- Where `LineReader::read` stands after one `::read`: it has returned a string, or
the loop goes on. -/
inductive Progress where
  | returned : Str → Progress
  | running : Pending → LineState → Progress
deriving DecidableEq

/-- The Backspace branch (tedit.cpp:957). -/
def backspace_step (st : LineState) : LineState :=
  if st.cursor > 0 then
    { st with buf := st.buf.eraseIdx (st.cursor - 1), cursor := st.cursor - 1 }
  else st

/-- The Tab branch (tedit.cpp:960-974) for the candidates `opts` that `complete(buf)`
returned; listing several candidates only draws. -/
def tab_step (opts : List Str) (st : LineState) : LineState :=
  match opts with
  | [] => st
  | [only] =>
    let pre : Str := match find_last_of ' ' st.buf with
      | none => []
      | some lastsp => st.buf.take (lastsp + 1)
    { st with buf := pre ++ only, cursor := (pre ++ only).length }
  | _ :: _ :: _ => st

/-- The branch for ESC `[` followed by the byte `k` (tedit.cpp:982-988). -/
def arrow_step (lr : LineReader) (st : LineState) (k : Char) : LineState :=
  if k = 'A' then
    if st.hist_idx > 0 then
      let h : Str := lr.history.getD (st.hist_idx - 1).toNat []
      { buf := h, cursor := h.length, hist_idx := st.hist_idx - 1 }
    else st
  else if k = 'B' then
    if st.hist_idx < (lr.history.length : Int) - 1 then
      let h : Str := lr.history.getD (st.hist_idx + 1).toNat []
      { buf := h, cursor := h.length, hist_idx := st.hist_idx + 1 }
    else { buf := [], cursor := 0, hist_idx := (lr.history.length : Int) }
  else if k = 'C' then
    if st.cursor < st.buf.length then { st with cursor := st.cursor + 1 } else st
  else if k = 'D' then
    if st.cursor > 0 then { st with cursor := st.cursor - 1 } else st
  else st

/-- The last branch (tedit.cpp:994): `buf.insert(buf.begin()+cursor,c); cursor++;`. -/
def insert_step (st : LineState) (c : Char) : LineState :=
  { st with buf := st.buf.take st.cursor ++ c :: st.buf.drop st.cursor,
            cursor := st.cursor + 1 }

namespace LineReader

/-- The body of the loop of `LineReader::read` (tedit.cpp:952-997), cut at its three
`::read` calls: what happens when the call that is due delivers the byte `some c`, or
returns zero or less (`none`). What the body draws is not part of the model. -/
def on_read (lr : LineReader) (ls : Listing) (p : Pending) (st : LineState)
    (r : Option Char) : Progress :=
  match p, r with
  | Pending.key, none => Progress.returned []
  | Pending.key, some c =>
    if c = CR ∨ c = NL then Progress.returned st.buf
    else if c = DEL ∨ c = BS then Progress.running Pending.key (backspace_step st)
    else if c = TAB then
      Progress.running Pending.key (tab_step (lr.complete ls st.buf) st)
    else if c = ESC then Progress.running Pending.esc1 st
    else if c.toNat = 1 then Progress.running Pending.key { st with cursor := 0 }
    else if c.toNat = 5 then
      Progress.running Pending.key { st with cursor := st.buf.length }
    else Progress.running Pending.key (insert_step st c)
  | Pending.esc1, none => Progress.running Pending.key st
  | Pending.esc1, some c =>
    if c = '[' then Progress.running Pending.esc2 st else Progress.running Pending.key st
  | Pending.esc2, none => Progress.running Pending.key st
  | Pending.esc2, some k => Progress.running Pending.key (arrow_step lr st k)

/-- The loop of `LineReader::read` on the outcomes `keys` of the successive `::read`
calls; once they are used up the input is at its end and `::read` returns 0, which at
the top of the loop is `return string()`. -/
def read_loop (lr : LineReader) (ls : Listing) : Pending → LineState → List (Option Char) → Str
  | _, _, [] => []
  | p, st, r :: more =>
    match lr.on_read ls p st r with
    | Progress.returned s => s
    | Progress.running p1 st1 => read_loop lr ls p1 st1 more

/-- The values the loop variables take, in order, after each `::read` that does not
end the call. -/
def read_states (lr : LineReader) (ls : Listing) :
    Pending → LineState → List (Option Char) → List LineState
  | _, _, [] => []
  | p, st, r :: more =>
    match lr.on_read ls p st r with
    | Progress.returned _ => []
    | Progress.running p1 st1 => st1 :: read_states lr ls p1 st1 more

/-- The loop variables as initialised (tedit.cpp:942): empty buffer, cursor 0, and
`hist_idx=(int)history.size()`. -/
def start (lr : LineReader) : LineState :=
  { buf := [], cursor := 0, hist_idx := (lr.history.length : Int) }

end LineReader

/-- The settings of `struct termios` that `read` changes, and all the others. -/
structure Termios where
  echo : Bool
  icanon : Bool
  vmin : Nat
  vtime : Nat
  others : Nat
deriving DecidableEq

/-- The mode `read` asks for (tedit.cpp:925-927): `ECHO` and `ICANON` off, `VMIN` 1,
`VTIME` 0. -/
def raw_of (t : Termios) : Termios :=
  { t with echo := false, icanon := false, vmin := 1, vtime := 0 }

/-- A zero-initialised `struct termios` (`struct termios orig{}`). -/
def Termios.zero : Termios :=
  { echo := false, icanon := false, vmin := 0, vtime := 0, others := 0 }

/-- The local `struct TermiosGuard` of `read` (tedit.cpp:933). -/
structure TermiosGuard where
  active : Bool
  o : Termios
deriving DecidableEq

/-- The destructor `~TermiosGuard()` (tedit.cpp:937) acting on the current mode:
`if(active) tcsetattr(STDIN_FILENO,TCSAFLUSH,&o);`, the call taken to succeed. -/
def TermiosGuard.release (g : TermiosGuard) (cur : Termios) : Termios :=
  if g.active then g.o else cur

/-- Outside inputs of one call of `LineReader::read`. -/
structure Console where
  /-- What `isatty(STDIN_FILENO)` answers. -/
  tty : Bool
  /-- Whether `tcgetattr` succeeds. -/
  tcgetattr_ok : Bool
  /-- Whether the `tcsetattr` that switches to the byte-at-a-time mode succeeds. -/
  tcsetattr_ok : Bool
  /-- The outcome of each `::read(STDIN_FILENO,&c,1)` in turn: `some c` for a byte,
  `none` for a call that returns zero or less. -/
  keys : List (Option Char)

/-- What a call of `LineReader::read` leaves: the string returned, the terminal mode
and `std::cin`. -/
structure ReadResult where
  line : Str
  mode : Termios
  cin : IStream

namespace LineReader

/-- Source `LineReader::read` (tedit.cpp:909). Without a terminal one line is taken from
`std::cin`. With one, `orig` is what `tcgetattr` stores (it stays zero-initialised when
the call fails), the mode is switched when `tcsetattr` succeeds (a failed `tcsetattr`
changes nothing), the loop runs, and when the function is left, by `break` or by
`return string()`, the destructor of `guard` runs. -/
def read (lr : LineReader) (ls : Listing) (con : Console) (mode : Termios) (cin : IStream) :
    ReadResult :=
  if !con.tty then
    let r := cin.getline []
    if r.2.fail then { line := [], mode := mode, cin := r.2 }
    else { line := r.1, mode := mode, cin := r.2 }
  else
    let orig : Termios := if con.tcgetattr_ok then mode else Termios.zero
    let have_orig : Bool := con.tcgetattr_ok && con.tcsetattr_ok
    let during : Termios := if have_orig then raw_of orig else mode
    let guard : TermiosGuard := { active := have_orig, o := orig }
    let line : Str := lr.read_loop ls Pending.key lr.start con.keys
    { line := line, mode := guard.release during, cin := cin }

end LineReader

/-- The command names `Editor::Editor` gives the line reader (tedit.cpp:1030). -/
def editor_commands : List Str :=
  ["help", "open", "info", "write", "w", "wq", "saveas", "quit", "q", "print", "p", "r",
   "append", "a", "insert", "i", "delete", "d", "move", "m", "join", "find", "findi",
   "findre", "repl", "replg", "read", "undo", "u", "redo", "set", "filter", "ls", "pwd",
   "number", "goto", "n", "N", "new", "bnext", "bprev", "lsb", "theme", "highlight",
   "alias", "diff", "cd", "clear", "version", "lua", "luafile", "plugins",
   "reload-plugins"].map String.toList

/-- The reading of "the buffer with its last whitespace-delimited token replaced by
`c`": the buffer up to and including its last white-space byte (all of it when it ends
in white space, none of it when it holds no white space), followed by `c`. -/
def replace_last_token (b c : Str) : Str :=
  (b.reverse.dropWhile (fun x => !isspace x)).reverse ++ c

/-! ## Persisted configuration (`save_config`, `load_config`) -/

/-- Source `Editor::esc` (tedit.cpp:1064): a backslash before every backslash and tab. -/
def esc (s : Str) : Str :=
  s.flatMap (fun ch => if ch = BSL ∨ ch = TAB then [BSL, ch] else [ch])

/-- The loop of `Editor::unesc`, `e` being its flag. -/
def unesc_from (e : Bool) : Str → Str
  | [] => []
  | ch :: cs =>
    if e then ch :: unesc_from false cs
    else if ch = BSL then unesc_from true cs
    else ch :: unesc_from false cs

/-- Source `Editor::unesc` (tedit.cpp:1065). -/
def unesc (s : Str) : Str := unesc_from false s

/-- Source `Editor::parse_bool_string` (tedit.cpp:1058). -/
def parse_bool_string (v : Str) : Option Bool :=
  let s := lower (trim_copy v)
  if s = "1".toList ∨ s = "on".toList ∨ s = "true".toList ∨ s = "yes".toList then some true
  else if s = "0".toList ∨ s = "off".toList ∨ s = "false".toList ∨ s = "no".toList then
    some false
  else none

/-- The lines the last loop of `Editor::save_config` writes (tedit.cpp:1128), for the
entries of the alias map in the order it iterates them. -/
def alias_lines (aliases : List (Str × Str)) : Str :=
  (aliases.map (fun kv =>
    "alias\t".toList ++ esc kv.1 ++ [TAB] ++ esc kv.2 ++ [NL])).flatten

/-- The C++ `line.find(ch, start)`: the first index not below `start` that holds the
byte, if any. -/
def find_char_from (c : Char) (start : Nat) (s : Str) : Option Nat :=
  match findChar c (s.drop start) with
  | none => none
  | some k => some (k + start)

/-- The assignment `m[k] = v` on a `std::map<string,string>` kept as the list of its
entries in key order. -/
def map_set (k v : Str) : List (Str × Str) → List (Str × Str)
  | [] => [(k, v)]
  | kv :: m =>
    if k = kv.1 then (k, v) :: m
    else if str_le k kv.1 then (k, v) :: kv :: m
    else kv :: map_set k v m

/-- The body of the loop of `Editor::load_config` (tedit.cpp:1135-1160) for one line.
Of the `key=value` settings only those kept in the buffer are modelled. -/
def load_config_line (line : Str) (e : Editor) : Editor :=
  if line.isEmpty then e
  else if starts_with "alias\t".toList line then
    match find_char_from TAB 6 line with
    | none => e
    | some p1 =>
      match find_char_from TAB (p1 + 1) line with
      | none => { e with aliases := map_set (unesc (line.drop (p1 + 1))) [] e.aliases }
      | some p2 =>
        let frm : Str := unesc ((line.drop (p1 + 1)).take (p2 - (p1 + 1)))
        let to_ : Str := unesc (line.drop (p2 + 1))
        { e with aliases := map_set frm to_ e.aliases }
  else
    match findChar '=' line with
    | none => e
    | some eq =>
      let key : Str := lower (trim_copy (line.take eq))
      let val : Str := trim_copy (line.drop (eq + 1))
      if key = "highlight".toList then
        match parse_bool_string val with
        | some b => { e with buf := { e.buf with highlight := b } }
        | none => e
      else if key = "number".toList then
        match parse_bool_string val with
        | some b => { e with buf := { e.buf with number := b } }
        | none => e
      else if key = "backup".toList then
        match parse_bool_string val with
        | some b => { e with buf := { e.buf with backup := b } }
        | none => e
      else e

/-- Source `Editor::load_config` (tedit.cpp:1130) on a configuration file that holds
`text`. -/
def load_config (text : Str) (e : Editor) : Editor :=
  (getlines_from [] text).foldl (fun acc line => load_config_line line acc) e

/-! ## Readings of the specification used for comparison -/

/-- A list of strings is sorted lexicographically: every element is at most every
later one. -/
def sorted_strings (l : List Str) : Prop := l.Pairwise (fun a b => str_le a b = true)

/-- Path candidates as the specification words them: the entries of the directory part
of the token whose name begins with the last path segment, each prefixed by the text of
the token up to and including its last `/` (nothing when the token has no `/`) and
followed by `/` when it is a directory, sorted. The directory part is the directory the
text before the last `/` names: the root directory `/` when the last `/` is the first
byte of the token, and the working directory `.` when the token has no `/`. -/
def path_candidates_as_specified (ls : Listing) (token : Str) : List Str :=
  let dirpart : Str := match find_last_of '/' token with
    | some k => if k = 0 then ['/'] else token.take k
    | none => ['.']
  let seg : Str := match find_last_of '/' token with
    | some k => token.drop (k + 1)
    | none => token
  let pre : Str := match find_last_of '/' token with
    | some k => token.take k ++ ['/']
    | none => []
  sort_strings (((ls.entries dirpart).filter (fun e => starts_with seg e.name)).map
    (fun e => pre ++ e.name ++ (if e.is_dir then ['/'] else [])))

/-- The value of a non-empty run of the decimal digits `0` to `9`, most significant
digit first; there is none for the empty string and for a string with any other
byte. -/
def digits_value (ds : Str) : Option Nat :=
  if ds ≠ [] ∧ ds.all (fun c => decide (48 ≤ c.toNat) && decide (c.toNat ≤ 57)) then
    some (ds.foldl (fun a c => 10 * a + (c.toNat - 48)) 0)
  else none

/-- The value of a decimal number: a run of decimal digits, which may have a sign `-` or
`+` in front. -/
def decimal_value (t : Str) : Option Int :=
  match t with
  | [] => none
  | c :: ds =>
    if c = '-' then (digits_value ds).map (fun v => -(v : Int))
    else if c = '+' then (digits_value ds).map (fun v => (v : Int))
    else (digits_value (c :: ds)).map (fun v => (v : Int))

/-- A bound of a range as the specification words it: `$` denotes the line count `n`,
a decimal number above zero denotes itself, and anything else (zero, a negative number,
text that is not a decimal number) is rejected. -/
def bound_as_specified (n : Nat) (t : Str) : Option Nat :=
  if t = ['$'] then some n
  else match decimal_value t with
    | some v => if 0 < v then some v.toNat else none
    | none => none

/-- A bound as the specification words it, with one more ground for rejection: a number
above `LONG_MAX`. -/
def bound_within_long (n : Nat) (t : Str) : Option Nat :=
  match bound_as_specified n t with
  | some a => if (a : Int) ≤ LONG_MAX then some a else none
  | none => none

/-- The range an argument denotes, given what each bound denotes, as the specification
words it, white space set aside: nothing denotes `1..n`; `a-b` denotes `a..min(b,n)`,
rejected when `a` is above `min(b,n)`; a rejected bound rejects the range. Where the
specification is silent the code is followed: the bounds are what stands before and
after the first `-`, a single bound `a` denotes `a..a`, rejected above `n`, and a bound
missing beside the `-` stands for 1 on the left and `n` on the right. -/
def range_of_bounds (bound : Str → Option Nat) (arg : Str) (n : Nat) : Option (Nat × Nat) :=
  let s := arg.filter (fun c => !isspace c)
  if s.isEmpty then some (1, n)
  else
    match findChar '-' s with
    | none =>
      match bound s with
      | some a => if a ≤ n then some (a, a) else none
      | none => none
    | some dash =>
      let lo? : Option Nat :=
        if (s.take dash).isEmpty then some 1 else bound (s.take dash)
      let hi? : Option Nat :=
        if (s.drop (dash + 1)).isEmpty then some n else bound (s.drop (dash + 1))
      match lo?, hi? with
      | some lo, some hi => if lo ≤ min hi n then some (lo, min hi n) else none
      | _, _ => none

/-- The range an argument denotes as the specification words it. -/
def range_as_specified (arg : Str) (n : Nat) : Option (Nat × Nat) :=
  range_of_bounds (bound_as_specified n) arg n

/-- The buffer after `move from to` when the line is to end at 1-based position `to`:
the line taken out and put back so that `to - 1` lines precede it. -/
def move_to_position (lines : List Str) (frm to_ : Nat) : List Str :=
  insert_at (lines.eraseIdx (frm - 1)) (to_ - 1) [lines.getD (frm - 1) []]

/-! ## Concrete states used to exercise the theorems -/

/-- A buffer holding the given lines, otherwise as default-constructed. -/
def buffer_of (ls : List String) : Buffer :=
  { Buffer.fresh with lines := ls.map String.toList }

/-- The snapshots of the one-line documents `"from"`, `"from+1"`, ... (`count` of them). -/
def numbered_snaps (start count : Nat) : List Snap :=
  (List.range count).map (fun i => { lines := [to_string (start + i)] })

/-- The one-line buffers `"from"`, `"from+1"`, ... (`count` of them). -/
def numbered_buffers (start count : Nat) : List Buffer :=
  (List.range count).map (fun i => { Buffer.fresh with lines := [to_string (start + i)] })

/-- The empty file system. -/
def empty_fs : FS := fun _ => none

/-- A run of `atomic_save` in which every call succeeds and `mkstemp` picks `aB3dE9`. -/
def no_faults : SaveFaults :=
  { backup_open_src := true, backup_open_dst := true, backup_short := none,
    mkstemp := some "aB3dE9".toList, fchmod := true, fdopen := true, write_fail := none,
    fflush := true, fsync := true, fclose := true, rename := true, doas_rc := 0,
    doas_moved := false,
    strerror := [] }

/-- An environment without hooks, in which no call fails. -/
def demo_env : Env :=
  { home := "/home/u".toList, hash_hex := fun p => to_string p.length,
    faults := no_faults, hook := fun _ fs => fs, filter_out := none }

/-- A world with an empty file system and nothing on standard input. -/
def demo_world : World := { fs := empty_fs, stdin := [] }

/-- An editor on the one-line document `cur`, three snapshots `u0 u1 u2` on the undo
stack and one snapshot `r0` on the redo stack. -/
def demo_editor : Editor :=
  { Editor.init with
    buf := buffer_of ["cur"],
    undo := { st := [{ lines := ["u0".toList] }, { lines := ["u1".toList] },
                     { lines := ["u2".toList] }] },
    redo := { st := [{ lines := ["r0".toList] }] } }

/-- A run of `atomic_save` in which `rename` fails and the privileged move exits with
status 1; every other call succeeds. -/
def rename_faults : SaveFaults := { no_faults with rename := false, doas_rc := 1 }

/-- A run of `atomic_save` in which `rename` fails and the privileged command line moves
the file but exits with status 1, its `sync` having failed; every other call
succeeds. -/
def sync_faults : SaveFaults :=
  { no_faults with rename := false, doas_rc := 1, doas_moved := true }

/-- A run of `atomic_save` in which the write of the second line fails. -/
def write_faults : SaveFaults := { no_faults with write_fail := some 1 }

/-- A file system holding one file `f` with the contents `old` and mode 0644. -/
def fs_with_f : FS := empty_fs.put "f".toList { mode := 420, data := "old\n".toList }

/-- An environment in which a save fails at the `rename` step. -/
def failing_env : Env := { demo_env with faults := rename_faults }

/-- A dirty, unnamed editor buffer of three lines. -/
def three_line_editor : Editor :=
  { Editor.init with buf := { buffer_of ["one", "two", "three"] with dirty := true } }

/-- A document whose only line holds the three bytes `a`, NUL, `b`. -/
def nul_doc : Buffer := { Buffer.fresh with lines := [['a', NUL, 'b']] }

/-- A line reader with the editor's command names and the history `first`, `second`. -/
def demo_reader : LineReader :=
  { history := ["first".toList, "second".toList], commands := editor_commands }

/-- A working directory holding the files `alpha.txt` and `README` and the directory
`src`; no other directory can be listed. -/
def demo_listing : Listing :=
  { home := "/home/u".toList,
    entries := fun d =>
      if d = ".".toList then
        [{ name := "alpha.txt".toList, is_dir := false },
         { name := "README".toList, is_dir := false },
         { name := "src".toList, is_dir := true }]
      else [] }

/-- A root directory `/` holding the directory `etc` and the file `init`; no other path,
the empty one included, can be listed. -/
def root_listing : Listing :=
  { home := "/home/u".toList,
    entries := fun d =>
      if d = "/".toList then
        [{ name := "etc".toList, is_dir := true },
         { name := "init".toList, is_dir := false }]
      else [] }

/-- A cooked terminal mode: echo and line buffering on. -/
def cooked : Termios := { echo := true, icanon := true, vmin := 1, vtime := 0, others := 7 }

/-- A terminal on which the keys `h`, `i`, Enter are typed. -/
def demo_console : Console :=
  { tty := true, tcgetattr_ok := true, tcsetattr_ok := true,
    keys := [some 'h', some 'i', some CR] }

/-- The byte `\v` (0x0b), which `isspace` counts as white space. -/
def VT : Char := Char.ofNat 11

/-- Standard input that is not a terminal. -/
def piped_console : Console :=
  { tty := false, tcgetattr_ok := false, tcsetattr_ok := false, keys := [] }

/-- An editor on five lines of which the first, third and fifth hold `foo`, after a
search for `foo` that has been stepped to line 3. -/
def search_editor : Editor :=
  { Editor.init with
    buf := buffer_of ["foo 1", "bar", "foo 3", "baz", "foo 5"],
    last_search := "foo".toList, last_icase := false, last_index := 3 }

/-- An editor with the active buffer `A` and the other buffers `B`, `C`. -/
def three_buffers : Editor :=
  { Editor.init with
    buf := { Buffer.fresh with path := "A".toList },
    others := [{ Buffer.fresh with path := "B".toList },
               { Buffer.fresh with path := "C".toList }] }

/-- The alias map after the command `alias dd delete 1-$`. -/
def dd_alias : List (Str × Str) := [("dd".toList, "delete 1-$".toList)]

/-- An editor on the four lines `a`, `b`, `c`, `d`. -/
def four_line_editor : Editor :=
  { Editor.init with buf := buffer_of ["a", "b", "c", "d"] }

/-- A working directory holding the files `alphabet.txt`, `beta` and `alpha.txt`, listed
in that order, and a directory `src` holding `main.cpp` and the directory `mod`. -/
def alpha_listing : Listing :=
  { home := "/home/u".toList,
    entries := fun d =>
      if d = ".".toList then
        [{ name := "alphabet.txt".toList, is_dir := false },
         { name := "beta".toList, is_dir := false },
         { name := "alpha.txt".toList, is_dir := false }]
      else if d = "src".toList then
        [{ name := "mod".toList, is_dir := true },
         { name := "main.cpp".toList, is_dir := false }]
      else [] }

/-! # Theorems -/

/-! ## The undo stack -/

theorem Stack.push_st_of_lt (s : Stack) (b : Buffer) (h : s.st.length < UNDO_MAX) :
    (s.push b).st = s.st ++ [{ lines := b.lines }] := by
  have hne : s.st.length ≠ UNDO_MAX := Nat.ne_of_lt h
  simp [Stack.push, hne]

theorem Stack.push_eq_of_lt (s : Stack) (b : Buffer) (h : s.st.length < UNDO_MAX) :
    s.push b = { st := s.st ++ [{ lines := b.lines }] } := by
  show Stack.mk (s.push b).st = _
  rw [Stack.push_st_of_lt s b h]

theorem Stack.push_st_of_eq (s : Stack) (b : Buffer) (h : s.st.length = UNDO_MAX) :
    (s.push b).st = s.st.drop 1 ++ [{ lines := b.lines }] := by
  simp [Stack.push, h]

theorem Stack.push_length_le (s : Stack) (b : Buffer) (h : s.st.length ≤ UNDO_MAX) :
    (s.push b).st.length ≤ UNDO_MAX := by
  have hU : UNDO_MAX = 200 := rfl
  by_cases he : s.st.length = UNDO_MAX
  · rw [Stack.push_st_of_eq s b he, List.length_append, List.length_drop, he, hU]
    simp
  · have hlt : s.st.length < UNDO_MAX := lt_of_le_of_ne h he
    rw [Stack.push_st_of_lt s b hlt, List.length_append]
    simp only [List.length_singleton]
    omega

theorem Stack.pop_snoc (pre : List Snap) (x : Snap) :
    Stack.pop { st := pre ++ [x] } = some (x, { st := pre }) := by
  simp [Stack.pop]

theorem Stack.pop_nil (s : Stack) (h : s.st = []) : s.pop = none := by
  simp [Stack.pop, h]

/-- Pushing a list of buffers keeps the last `UNDO_MAX` snapshots of what was there
followed by what was pushed. -/
theorem Stack.foldl_push_st (bs : List Buffer) :
    ∀ s : Stack, s.st.length ≤ UNDO_MAX →
      (bs.foldl Stack.push s).st =
        (s.st ++ bs.map (fun d => ({ lines := d.lines } : Snap))).drop
          ((s.st ++ bs.map (fun d => ({ lines := d.lines } : Snap))).length - UNDO_MAX) := by
  induction bs with
  | nil =>
    intro s hs
    have h0 : s.st.length - UNDO_MAX = 0 := by omega
    simp [h0]
  | cons b bs ih =>
    intro s hs
    have hU : UNDO_MAX = 200 := rfl
    rw [List.foldl_cons, ih (s.push b) (Stack.push_length_le s b hs)]
    by_cases he : s.st.length = UNDO_MAX
    · rw [Stack.push_st_of_eq s b he]
      have h1 : (s.st ++ List.map (fun d => ({ lines := d.lines } : Snap)) (b :: bs)).length
          - UNDO_MAX = 1 + bs.length := by
        simp only [List.length_append, List.length_map, List.length_cons]
        omega
      have h2 : (List.drop 1 s.st ++ [({ lines := b.lines } : Snap)]
          ++ List.map (fun d => ({ lines := d.lines } : Snap)) bs).length - UNDO_MAX
          = bs.length := by
        simp only [List.length_append, List.length_map, List.length_cons, List.length_drop,
          List.length_nil]
        omega
      have h3 : 1 ≤ s.st.length := by omega
      rw [h1, h2, ← List.drop_drop, List.drop_append_of_le_length h3]
      simp
    · have hlt : s.st.length < UNDO_MAX := lt_of_le_of_ne hs he
      rw [Stack.push_st_of_lt s b hlt]
      simp

/-- C2: `Stack::push` on a stack of exactly 200 snapshots drops the entry at index 0
and appends a snapshot of the buffer's lines (the size stays 200); on a stack of fewer
than 200 it appends (the size grows by one); hence pushing 201 buffers onto an empty
stack leaves the snapshots of the last 200, in order. -/
theorem stack_push_fifo (s : Stack) (b : Buffer) (bs : List Buffer) :
    (s.st.length = 200 →
        (s.push b).st = s.st.drop 1 ++ [{ lines := b.lines }] ∧
        (s.push b).st.length = 200) ∧
    (s.st.length < 200 →
        (s.push b).st = s.st ++ [{ lines := b.lines }] ∧
        (s.push b).st.length = s.st.length + 1) ∧
    (bs.length = 201 →
        (bs.foldl Stack.push { st := [] }).st
          = (bs.drop 1).map (fun d => ({ lines := d.lines } : Snap)) ∧
        (bs.foldl Stack.push { st := [] }).st.length = 200) := by
  have hU : UNDO_MAX = 200 := rfl
  refine ⟨?_, ?_, ?_⟩
  · intro h
    have he : s.st.length = UNDO_MAX := by rw [hU]; exact h
    rw [Stack.push_st_of_eq s b he]
    refine ⟨rfl, ?_⟩
    rw [List.length_append, List.length_drop, h]
    rfl
  · intro h
    have hlt : s.st.length < UNDO_MAX := by rw [hU]; exact h
    rw [Stack.push_st_of_lt s b hlt]
    refine ⟨rfl, ?_⟩
    rw [List.length_append]
    rfl
  · intro h
    have h0 : ([] : List Snap).length ≤ UNDO_MAX := Nat.zero_le _
    have key := Stack.foldl_push_st bs { st := [] } h0
    have hlen : (([] : List Snap) ++ bs.map (fun d => ({ lines := d.lines } : Snap))).length
        - UNDO_MAX = 1 := by
      simp only [List.nil_append, List.length_map, h, hU]
    rw [hlen] at key
    rw [key]
    simp only [List.nil_append, List.map_drop, List.length_drop, List.length_map, h, true_and]

/-- C2 at concrete inputs: a full stack `0..199` receiving the buffer `"new"`, a stack
`0..4` receiving it, and the 201 buffers `0..200` pushed onto an empty stack. -/
theorem stack_push_fifo_witness :
    ((Stack.mk (numbered_snaps 0 200)).push (buffer_of ["new"])).st
        = numbered_snaps 1 199 ++ [{ lines := ["new".toList] }] ∧
    ((Stack.mk (numbered_snaps 0 5)).push (buffer_of ["new"])).st
        = numbered_snaps 0 5 ++ [{ lines := ["new".toList] }] ∧
    ((numbered_buffers 0 201).foldl Stack.push { st := [] }).st = numbered_snaps 1 200 := by
  have h200 : (Stack.mk (numbered_snaps 0 200)).st.length = 200 := by
    simp [numbered_snaps]
  have h5 : (Stack.mk (numbered_snaps 0 5)).st.length < 200 := by
    simp [numbered_snaps]
  have h201 : (numbered_buffers 0 201).length = 201 := by
    simp [numbered_buffers]
  have t1 := (stack_push_fifo (Stack.mk (numbered_snaps 0 200)) (buffer_of ["new"])
    (numbered_buffers 0 201)).1 h200
  have t2 := (stack_push_fifo (Stack.mk (numbered_snaps 0 5)) (buffer_of ["new"])
    (numbered_buffers 0 201)).2.1 h5
  have t3 := (stack_push_fifo (Stack.mk (numbered_snaps 0 200)) (buffer_of ["new"])
    (numbered_buffers 0 201)).2.2 h201
  refine ⟨?_, ?_, ?_⟩
  · rw [t1.1]; rfl
  · rw [t2.1]; rfl
  · rw [t3.1]; rfl

/-! ## Undo and redo -/

theorem handle_cmd_undo (env : Env) (rest : Str) (e : Editor) (w : World) :
    handle_cmd env "undo".toList rest e w
      = some { ed := cmd_undo rest e, world := w, keep := true } := rfl

theorem handle_cmd_u (env : Env) (rest : Str) (e : Editor) (w : World) :
    handle_cmd env "u".toList rest e w
      = some { ed := cmd_undo rest e, world := w, keep := true } := rfl

theorem handle_cmd_redo (env : Env) (rest : Str) (e : Editor) (w : World) :
    handle_cmd env "redo".toList rest e w
      = some { ed := cmd_redo e, world := w, keep := true } := rfl

theorem undo_loop_empty (k : Nat) (e : Editor) (h : e.undo.st = []) : undo_loop k e = e := by
  cases k with
  | zero => rfl
  | succ k => simp [undo_loop, Stack.pop_nil e.undo h]

/-- One turn of the undo loop on a non-empty undo stack. -/
theorem undo_loop_succ_snoc (k : Nat) (e : Editor) (pre : List Snap) (x : Snap)
    (h : e.undo.st = pre ++ [x]) :
    undo_loop (k + 1) e =
      undo_loop k { e with
        undo := { st := pre }, redo := e.redo.push e.buf,
        buf := { e.buf with lines := x.lines, dirty := true } } := by
  have hp : e.undo.pop = some (x, { st := pre }) := by
    have : e.undo = { st := pre ++ [x] } := by
      cases hu : e.undo with
      | mk st => rw [hu] at h; simp at h; rw [h]
    rw [this]; exact Stack.pop_snoc pre x
  simp [undo_loop, hp]

/-- The undo loop run exactly as many times as there are snapshots above `pre` on the
undo stack (`a` the lowest of them, `t` those above it), when the redo stack has room. -/
theorem undo_loop_pops (t : List Snap) :
    ∀ (e : Editor) (pre : List Snap) (a : Snap),
      e.undo.st = pre ++ a :: t →
      e.redo.st.length + (t.length + 1) ≤ UNDO_MAX →
      undo_loop (t.length + 1) e =
        { e with
          undo := { st := pre },
          redo := { st := e.redo.st ++ ({ lines := e.buf.lines } : Snap) :: t.reverse },
          buf := { e.buf with lines := a.lines, dirty := true } } := by
  induction t using List.reverseRecOn with
  | nil =>
    intro e pre a hu hcap
    have hu1 : e.undo.st = pre ++ [a] := hu
    have hlt : e.redo.st.length < UNDO_MAX := by simp at hcap; omega
    show undo_loop (0 + 1) e = _
    rw [undo_loop_succ_snoc 0 e pre a hu1]
    simp [undo_loop, Stack.push_eq_of_lt e.redo e.buf hlt]
  | append_singleton t y ih =>
    intro e pre a hu hcap
    have hu1 : e.undo.st = (pre ++ a :: t) ++ [y] := by
      rw [hu]; simp
    have hlt : e.redo.st.length < UNDO_MAX := by simp at hcap; omega
    have hlen : (t ++ [y]).length + 1 = (t.length + 1) + 1 := by simp
    rw [hlen, undo_loop_succ_snoc (t.length + 1) e (pre ++ a :: t) y hu1]
    have hcap1 : (e.redo.push e.buf).st.length + (t.length + 1) ≤ UNDO_MAX := by
      rw [Stack.push_st_of_lt e.redo e.buf hlt]
      simp at hcap ⊢; omega
    rw [ih _ pre a rfl hcap1]
    simp [Stack.push_eq_of_lt e.redo e.buf hlt]

/-- The undo loop stops when the stack is exhausted: asking for more pops than there
are snapshots is asking for as many as there are. -/
theorem undo_loop_min (K : Nat) :
    ∀ e : Editor, undo_loop K e = undo_loop (min K e.undo.st.length) e := by
  induction K with
  | zero => intro e; simp [undo_loop]
  | succ K ih =>
    intro e
    rcases List.eq_nil_or_concat e.undo.st with h | ⟨pre, x, h⟩
    · rw [undo_loop_empty _ e h, undo_loop_empty _ e h]
    · have h1 : e.undo.st = pre ++ [x] := by rw [h]; simp
      have hm : min (K + 1) e.undo.st.length = min K pre.length + 1 := by
        rw [h1]; simp; omega
      rw [hm, undo_loop_succ_snoc K e pre x h1, undo_loop_succ_snoc _ e pre x h1]
      exact ih _

theorem parse_long_some_nonempty (rest : Str) (k : Int) (h : parse_long rest = some k) :
    rest.isEmpty = false := by
  cases rest with
  | nil => simp [parse_long] at h
  | cons c cs => rfl

/-- C4: `undo <k>` with `k >= 1`, an undo stack `u0..u(n-1)` and a redo stack `R` with
room for `m = min(k,n)` more entries pops exactly `m` snapshots: the undo stack becomes
`u0..u(n-m-1)`; if `m >= 1` the lines become those of `u(n-m)`, the redo stack becomes
`R` followed by the old lines and `u(n-1), ..., u(n-m+1)`, and the buffer is dirty; the
command returns to the command loop. -/
theorem undo_k_semantics (env : Env) (w : World) (e : Editor) (rest : Str) (k : Int)
    (hparse : parse_long rest = some k) (hk : 1 ≤ k)
    (hcap : e.redo.st.length + min k.toNat e.undo.st.length ≤ 200) :
    ∃ o : Outcome,
      handle_cmd env "undo".toList rest e w = some o ∧ o.keep = true ∧
      o.ed.undo.st = e.undo.st.take (e.undo.st.length - min k.toNat e.undo.st.length) ∧
      o.ed.undo.st.length + min k.toNat e.undo.st.length = e.undo.st.length ∧
      (1 ≤ min k.toNat e.undo.st.length →
        (e.undo.st.get? (e.undo.st.length - min k.toNat e.undo.st.length)).map Snap.lines
            = some o.ed.buf.lines ∧
        o.ed.redo.st = e.redo.st ++ ({ lines := e.buf.lines } : Snap) ::
            (e.undo.st.drop (e.undo.st.length - min k.toNat e.undo.st.length + 1)).reverse ∧
        o.ed.buf.dirty = true) := by
  refine ⟨_, handle_cmd_undo env rest e w, rfl, ?_⟩
  have hne := parse_long_some_nonempty rest k hparse
  have hcmd : cmd_undo rest e = undo_loop (min k.toNat e.undo.st.length) e := by
    simp only [cmd_undo, hne, hparse, Option.getD_some]
    exact undo_loop_min _ e
  show (cmd_undo rest e).undo.st = _ ∧ (cmd_undo rest e).undo.st.length + _ = _ ∧
    (_ → _ = some (cmd_undo rest e).buf.lines ∧ (cmd_undo rest e).redo.st = _ ∧
      (cmd_undo rest e).buf.dirty = true)
  rw [hcmd]
  have hK : 1 ≤ k.toNat := by omega
  generalize hm : min k.toNat e.undo.st.length = m at hcap ⊢
  have hmn : m ≤ e.undo.st.length := by rw [← hm]; exact Nat.min_le_right _ _
  cases m with
  | zero =>
    refine ⟨?_, ?_, ?_⟩
    · simp [undo_loop]
    · simp [undo_loop]
    · intro h; omega
  | succ j =>
    have hlt : e.undo.st.length - (j + 1) < e.undo.st.length := by omega
    have hsplit : e.undo.st = e.undo.st.take (e.undo.st.length - (j + 1)) ++
        e.undo.st[e.undo.st.length - (j + 1)] ::
          e.undo.st.drop (e.undo.st.length - (j + 1) + 1) := by
      rw [← List.drop_eq_getElem_cons hlt, List.take_append_drop]
    have htl : (e.undo.st.drop (e.undo.st.length - (j + 1) + 1)).length = j := by
      rw [List.length_drop]; omega
    have hcap1 : e.redo.st.length +
        ((e.undo.st.drop (e.undo.st.length - (j + 1) + 1)).length + 1) ≤ UNDO_MAX := by
      rw [htl]; exact hcap
    have key := undo_loop_pops _ e _ _ hsplit hcap1
    rw [htl] at key
    rw [key]
    refine ⟨rfl, ?_, ?_⟩
    · show (e.undo.st.take (e.undo.st.length - (j + 1))).length + (j + 1) = _
      rw [List.length_take]; omega
    · intro _
      refine ⟨?_, rfl, rfl⟩
      rw [List.get?_eq_getElem?, List.getElem?_eq_getElem hlt]
      rfl

/-- C4 at a concrete input: `undo 2` on the undo stack `u0 u1 u2`, redo stack `r0` and
current document `cur`. -/
theorem undo_k_semantics_witness :
    parse_long "2".toList = some 2 ∧
    ∃ o : Outcome,
      handle_cmd demo_env "undo".toList "2".toList demo_editor demo_world = some o ∧
      o.keep = true ∧
      o.ed.undo.st = demo_editor.undo.st.take
        (demo_editor.undo.st.length - min (2 : Int).toNat demo_editor.undo.st.length) ∧
      o.ed.undo.st.length + min (2 : Int).toNat demo_editor.undo.st.length
        = demo_editor.undo.st.length ∧
      (1 ≤ min (2 : Int).toNat demo_editor.undo.st.length →
        (demo_editor.undo.st.get?
            (demo_editor.undo.st.length - min (2 : Int).toNat demo_editor.undo.st.length)).map
            Snap.lines = some o.ed.buf.lines ∧
        o.ed.redo.st = demo_editor.redo.st ++ ({ lines := demo_editor.buf.lines } : Snap) ::
            (demo_editor.undo.st.drop (demo_editor.undo.st.length
              - min (2 : Int).toNat demo_editor.undo.st.length + 1)).reverse ∧
        o.ed.buf.dirty = true) :=
  ⟨by rfl, undo_k_semantics demo_env demo_world demo_editor "2".toList 2 (by rfl)
    (by decide) (by decide)⟩

/-- C1: after `push_undo()` and any mutation of the buffer, the command `undo` restores
exactly the lines the buffer had before the mutation, and a `redo` issued right after
restores exactly the mutated lines. -/
theorem undo_redo_round_trip (env : Env) (w : World) (e : Editor) (mutate : Buffer → Buffer) :
    ∃ o1 o2 : Outcome,
      handle_cmd env "undo".toList [] { e.push_undo with buf := mutate e.push_undo.buf } w
        = some o1 ∧
      o1.ed.buf.lines = e.buf.lines ∧
      handle_cmd env "redo".toList [] o1.ed o1.world = some o2 ∧
      o2.ed.buf.lines = (mutate e.buf).lines := by
  refine ⟨_, _, handle_cmd_undo env [] _ w, ?_, handle_cmd_redo env [] _ _, ?_⟩
  · show (undo_loop (0 + 1) _).buf.lines = _
    rw [undo_loop_succ_snoc 0 _ (if e.undo.st.length = UNDO_MAX then e.undo.st.drop 1
      else e.undo.st) { lines := e.buf.lines } rfl]
    rfl
  · show (cmd_redo (undo_loop (0 + 1) _)).buf.lines = _
    rw [undo_loop_succ_snoc 0 _ (if e.undo.st.length = UNDO_MAX then e.undo.st.drop 1
      else e.undo.st) { lines := e.buf.lines } rfl]
    have hpop : (Stack.push (Stack.clear e.redo) (mutate e.buf)).pop
        = some ({ lines := (mutate e.buf).lines }, { st := [] }) := by
      simp [Stack.push, Stack.clear, Stack.pop, UNDO_MAX]
    simp [undo_loop, cmd_redo, Editor.push_undo, hpop]

/-- C5: with an empty undo stack, `undo` (or `u`) with any argument leaves the whole
editor, hence lines, dirty flag and both stacks, unchanged and returns `true` to the
command loop; with an empty redo stack `redo` does the same. -/
theorem undo_redo_underflow (env : Env) (w : World) (e : Editor) (rest : Str) :
    (e.undo.st = [] →
      handle_cmd env "undo".toList rest e w = some { ed := e, world := w, keep := true } ∧
      handle_cmd env "u".toList rest e w = some { ed := e, world := w, keep := true }) ∧
    (e.redo.st = [] →
      handle_cmd env "redo".toList rest e w = some { ed := e, world := w, keep := true }) := by
  constructor
  · intro h
    have hc : cmd_undo rest e = e := undo_loop_empty _ e h
    rw [handle_cmd_undo, handle_cmd_u, hc]
    exact ⟨rfl, rfl⟩
  · intro h
    have hc : cmd_redo e = e := by simp [cmd_redo, Stack.pop_nil e.redo h]
    rw [handle_cmd_redo, hc]

/-- C5 at a concrete input: `undo 3` and `redo` on the editor as constructed. -/
theorem undo_redo_underflow_witness :
    Editor.init.undo.st = [] ∧ Editor.init.redo.st = [] ∧
    handle_cmd demo_env "undo".toList "3".toList Editor.init demo_world
      = some { ed := Editor.init, world := demo_world, keep := true } ∧
    handle_cmd demo_env "redo".toList [] Editor.init demo_world
      = some { ed := Editor.init, world := demo_world, keep := true } :=
  ⟨rfl, rfl,
   ((undo_redo_underflow demo_env demo_world Editor.init "3".toList).1 rfl).1,
   (undo_redo_underflow demo_env demo_world Editor.init []).2 rfl⟩

/-! ## Edits invalidate the redo stack -/

theorem cmd_append_cases (e : Editor) (w : World) : Performed e (cmd_append e w).1 :=
  ⟨rfl, rfl⟩

theorem cmd_insert_cases (rest : Str) (e : Editor) (w : World) :
    cmd_insert rest e w = (e, w) ∨ Performed e (cmd_insert rest e w).1 := by
  unfold cmd_insert
  split
  · left; rfl
  · split
    · left; rfl
    · right; exact ⟨rfl, rfl⟩

theorem cmd_delete_cases (rest : Str) (e : Editor) :
    cmd_delete rest e = e ∨ Performed e (cmd_delete rest e) := by
  unfold cmd_delete
  split
  · left; rfl
  · split
    · left; rfl
    · right; exact ⟨rfl, rfl⟩

theorem cmd_move_cases (rest : Str) (e : Editor) :
    cmd_move rest e = e ∨ Performed e (cmd_move rest e) := by
  unfold cmd_move
  simp only
  split
  · left; rfl
  · split
    · left; rfl
    · right; exact ⟨rfl, rfl⟩

theorem cmd_join_cases (rest : Str) (e : Editor) :
    cmd_join rest e = e ∨ Performed e (cmd_join rest e) := by
  unfold cmd_join
  split
  · left; rfl
  · split
    · left; rfl
    · right; exact ⟨rfl, rfl⟩

theorem cmd_repl_cases (lc rest : Str) (e : Editor) :
    cmd_repl lc rest e = e ∨ Performed e (cmd_repl lc rest e) := by
  unfold cmd_repl Editor.repl
  simp only
  split
  · left; rfl
  · right; exact ⟨rfl, rfl⟩

theorem cmd_read_cases (rest : Str) (e : Editor) (w : World) :
    cmd_read rest e w = e ∨ Performed e (cmd_read rest e w) := by
  unfold cmd_read
  simp only
  split
  · left; rfl
  · split
    · left; rfl
    · right; exact ⟨rfl, rfl⟩

theorem cmd_filter_cases (env : Env) (rest : Str) (e : Editor) :
    cmd_filter env rest e = e ∨ Performed e (cmd_filter env rest e) := by
  unfold cmd_filter
  simp only
  split
  · left; rfl
  · split
    · left; rfl
    · right
      split
      · exact ⟨rfl, rfl⟩
      · exact ⟨rfl, rfl⟩

theorem cmd_redo_of_empty (e : Editor) (h : e.redo.st = []) : cmd_redo e = e := by
  simp [cmd_redo, Stack.pop_nil e.redo h]

theorem sh_escape_foldl (s : Str) :
    ∀ r : Str,
      s.foldl (fun r c => if c = SQ then r ++ [SQ, BSL, SQ, SQ] else r ++ [c]) r
        = r ++ quote_body s := by
  induction s with
  | nil => intro r; simp [quote_body]
  | cons c s ih =>
    intro r
    rw [List.foldl_cons, ih]
    by_cases hc : c = SQ
    · simp [quote_body, hc]
    · simp [quote_body, hc]

/-- What `sh_escape` builds: a quote, the body, a quote. -/
theorem sh_escape_eq (s : Str) : sh_escape s = SQ :: (quote_body s ++ [SQ]) := by
  unfold sh_escape
  simp only
  rw [sh_escape_foldl]
  simp

theorem quote_body_cons_sq (s : Str) :
    quote_body (SQ :: s) = SQ :: BSL :: SQ :: SQ :: quote_body s := by
  simp [quote_body]

theorem quote_body_cons_other (c : Char) (s : Str) (h : c ≠ SQ) :
    quote_body (c :: s) = c :: quote_body s := by
  simp [quote_body, h]

/-- Inside single quotes, the shell reads the body of an escaped string back as the
string itself, and the quote that follows ends the quoted part. -/
theorem sh_tokens_quoted_body (s : Str) :
    ∀ (w rest : Str),
      sh_tokens ShMode.quoted (some w) (quote_body s ++ SQ :: rest)
        = sh_tokens ShMode.plain (some (w ++ s)) rest := by
  induction s with
  | nil =>
    intro w rest
    simp [quote_body, sh_tokens]
  | cons c s ih =>
    intro w rest
    by_cases hc : c = SQ
    · subst hc
      rw [quote_body_cons_sq]
      have hb : BSL ≠ SQ := by decide
      have hn : SQ ≠ NL := by decide
      show sh_tokens ShMode.quoted (some w)
        (SQ :: BSL :: SQ :: SQ :: (quote_body s ++ SQ :: rest)) = _
      simp only [sh_tokens, if_true, if_neg hb, if_neg hn, sh_push, Option.getD_some]
      refine (ih _ _).trans ?_
      simp
    · rw [quote_body_cons_other c s hc]
      show sh_tokens ShMode.quoted (some w) (c :: (quote_body s ++ SQ :: rest)) = _
      simp only [sh_tokens, if_neg hc, sh_push, Option.getD_some]
      refine (ih _ _).trans ?_
      simp

/-- Outside quotes, an escaped string followed by `rest` adds exactly the string to
the word in progress. -/
theorem sh_tokens_escape (s : Str) (cur : Option Str) (rest : Str) :
    sh_tokens ShMode.plain cur (sh_escape s ++ rest)
      = sh_tokens ShMode.plain (some (cur.getD [] ++ s)) rest := by
  rw [sh_escape_eq]
  show sh_tokens ShMode.plain cur (SQ :: ((quote_body s ++ [SQ]) ++ rest)) = _
  rw [List.append_assoc]
  simp only [sh_tokens, if_true]
  exact sh_tokens_quoted_body s _ rest

/-- C9: `sh_escape(s)` is a single quote, then `s` with every single quote replaced by
the four characters quote, backslash, quote, quote, then a single quote; a POSIX shell
reads it back as exactly one word, equal to `s`. For `it's.txt` the escaped text is
`'it'\''s.txt'`. -/
theorem sh_escape_round_trip (s : Str) :
    sh_escape s = [SQ] ++ quote_body s ++ [SQ] ∧
    posix_words (sh_escape s) = some [Tok.word s] ∧
    sh_escape "it's.txt".toList = "'it'\\''s.txt'".toList ∧
    posix_words "'it'\\''s.txt'".toList = some [Tok.word "it's.txt".toList] := by
  refine ⟨?_, ?_, by rfl, by rfl⟩
  · rw [sh_escape_eq]; simp
  · have h := sh_tokens_escape s none []
    rw [List.append_nil] at h
    unfold posix_words
    rw [h]
    simp [sh_tokens, sh_flush]

/-- The fixed text `doas sh -c ` in front of a command line contributes the three
words `doas`, `sh` and `-c`. -/
theorem sh_tokens_doas_head (rest : Str) :
    sh_tokens ShMode.plain none ("doas sh -c ".toList ++ rest)
      = (sh_tokens ShMode.plain none rest).map (fun ts =>
          Tok.word "doas".toList :: Tok.word "sh".toList :: Tok.word "-c".toList :: ts) := by
  cases h : sh_tokens ShMode.plain none rest with
  | none =>
    show sh_tokens ShMode.plain none ('d' :: 'o' :: 'a' :: 's' :: ' ' :: 's' :: 'h' :: ' '
      :: '-' :: 'c' :: ' ' :: rest) = _
    simp [sh_tokens, sh_literal, sh_push, sh_flush, SQ, BSL, h]
  | some ts =>
    show sh_tokens ShMode.plain none ('d' :: 'o' :: 'a' :: 's' :: ' ' :: 's' :: 'h' :: ' '
      :: '-' :: 'c' :: ' ' :: rest) = _
    simp [sh_tokens, sh_literal, sh_push, sh_flush, SQ, BSL, h]

/-- The fixed text ` && sync` after a word in progress ends that word and contributes
the operator `&&` and the word `sync`. -/
theorem sh_tokens_sync_tail (d : Str) :
    sh_tokens ShMode.plain (some d) " && sync".toList
      = some [Tok.word d, Tok.op "&&".toList, Tok.word "sync".toList] := by
  show sh_tokens ShMode.plain (some d) [' ', '&', '&', ' ', 's', 'y', 'n', 'c'] = _
  simp [sh_tokens, sh_literal, sh_push, sh_flush, SQ, BSL]

/-- An unquoted space ends the word in progress. -/
theorem sh_tokens_space (cur : Option Str) (rest : Str) :
    sh_tokens ShMode.plain cur (' ' :: rest)
      = (sh_tokens ShMode.plain none rest).map (fun ts => sh_flush cur ++ ts) := by
  simp [sh_tokens, SQ, BSL]

/-- The words of the inner command line `mv <tmp> <dest> && sync`. -/
theorem posix_words_doas_inner (t d : Str) :
    posix_words (doas_inner t d)
      = some [Tok.word "mv".toList, Tok.word t, Tok.word d, Tok.op "&&".toList,
              Tok.word "sync".toList] := by
  unfold posix_words doas_inner
  have h2 : sh_tokens ShMode.plain none (sh_escape d ++ " && sync".toList)
      = some [Tok.word d, Tok.op "&&".toList, Tok.word "sync".toList] := by
    rw [sh_tokens_escape]
    exact sh_tokens_sync_tail _
  have h1 : sh_tokens ShMode.plain none
      (sh_escape t ++ (' ' :: (sh_escape d ++ " && sync".toList)))
      = some [Tok.word t, Tok.word d, Tok.op "&&".toList, Tok.word "sync".toList] := by
    rw [sh_tokens_escape, sh_tokens_space, h2]
    rfl
  have h3 : "mv ".toList ++ sh_escape t ++ " ".toList ++ sh_escape d ++ " && sync".toList
      = 'm' :: 'v' :: ' ' :: (sh_escape t ++ (' ' :: (sh_escape d ++ " && sync".toList))) := by
    show 'm' :: 'v' :: ' ' :: (sh_escape t) ++ [' '] ++ sh_escape d ++ " && sync".toList = _
    simp only [List.cons_append, List.append_assoc, List.nil_append]
  rw [h3]
  have hm : sh_tokens ShMode.plain none
      ('m' :: 'v' :: ' ' :: (sh_escape t ++ (' ' :: (sh_escape d ++ " && sync".toList))))
      = sh_tokens ShMode.plain (some ['m', 'v'])
          (' ' :: (sh_escape t ++ (' ' :: (sh_escape d ++ " && sync".toList)))) := by
    simp [sh_tokens, sh_literal, sh_push, SQ, BSL]
  rw [hm, sh_tokens_space, h1]
  rfl

/-- The words of the outer command line `doas sh -c <inner>`. -/
theorem posix_words_doas_cmd (t d : Str) :
    posix_words (doas_cmd t d)
      = some [Tok.word "doas".toList, Tok.word "sh".toList, Tok.word "-c".toList,
              Tok.word (doas_inner t d)] := by
  unfold posix_words doas_cmd
  rw [sh_tokens_doas_head]
  have h := sh_tokens_escape (doas_inner t d) none []
  rw [List.append_nil] at h
  rw [h]
  simp [sh_tokens, sh_flush]

/-- C10: for every temporary path `t` and destination `d`, the command line built by
`doas_move_into_place_secure` is read by a POSIX shell as exactly the four words `doas`,
`sh`, `-c` and the inner command line, and the inner command line is read as exactly
`mv`, `t`, `d`, the operator `&&` and `sync`: `t` and `d` arrive as single words,
byte for byte, at both levels. -/
theorem doas_cmd_fully_escaped (t d : Str) :
    posix_words (doas_cmd t d)
      = some [Tok.word "doas".toList, Tok.word "sh".toList, Tok.word "-c".toList,
              Tok.word (doas_inner t d)] ∧
    posix_words (doas_inner t d)
      = some [Tok.word "mv".toList, Tok.word t, Tok.word d, Tok.op "&&".toList,
              Tok.word "sync".toList] :=
  ⟨posix_words_doas_cmd t d, posix_words_doas_inner t d⟩

/-! ## The privileged move -/

theorem c_str_cons (c : Char) (s : Str) (h : c ≠ NUL) : c_str (c :: s) = c :: c_str s := by
  simp [c_str, h]

theorem c_str_nul (s : Str) : c_str (NUL :: s) = [] := by
  simp [c_str]

theorem c_str_of_no_nul (s : Str) (h : NUL ∉ s) : c_str s = s := by
  unfold c_str
  rw [List.takeWhile_eq_self_iff]
  intro c hc
  have : c ≠ NUL := fun hn => h (hn ▸ hc)
  simpa using this

/-- A command line cut inside a single-quoted part is not read by the shell: when the
escaped string holds a NUL, what `c_str` leaves ends inside the quotes. -/
theorem sh_tokens_quoted_cut (s : Str) :
    ∀ (w rest : Str), NUL ∈ s →
      sh_tokens ShMode.quoted (some w) (c_str (quote_body s ++ rest)) = none := by
  induction s with
  | nil => intro w rest h; simp at h
  | cons c s ih =>
    intro w rest h
    by_cases hn : c = NUL
    · subst hn
      have hq : NUL ≠ SQ := by decide
      rw [quote_body_cons_other NUL s hq]
      show sh_tokens ShMode.quoted (some w) (c_str (NUL :: (quote_body s ++ rest))) = none
      rw [c_str_nul]
      rfl
    · have hs : NUL ∈ s := by
        rcases List.mem_cons.mp h with h1 | h1
        · exact absurd h1.symm hn
        · exact h1
      by_cases hc : c = SQ
      · subst hc
        rw [quote_body_cons_sq]
        show sh_tokens ShMode.quoted (some w)
          (c_str (SQ :: BSL :: SQ :: SQ :: (quote_body s ++ rest))) = none
        have h1 : SQ ≠ NUL := by decide
        have h2 : BSL ≠ NUL := by decide
        rw [c_str_cons _ _ h1, c_str_cons _ _ h2, c_str_cons _ _ h1, c_str_cons _ _ h1]
        have hb : BSL ≠ SQ := by decide
        have hnl : SQ ≠ NL := by decide
        simp only [sh_tokens, if_true, if_neg hb, if_neg hnl, sh_push, Option.getD_some]
        exact ih _ rest hs
      · rw [quote_body_cons_other c s hc]
        show sh_tokens ShMode.quoted (some w) (c_str (c :: (quote_body s ++ rest))) = none
        rw [c_str_cons _ _ hn]
        simp only [sh_tokens, if_neg hc, sh_push, Option.getD_some]
        exact ih _ rest hs

theorem nul_not_mem_sh_escape (s : Str) (h : NUL ∉ s) : NUL ∉ sh_escape s := by
  rw [sh_escape_eq]
  intro hm
  have h1 : NUL ≠ SQ := by decide
  have h2 : NUL ≠ BSL := by decide
  simp only [List.mem_cons, List.mem_append, List.mem_singleton, quote_body,
    List.mem_flatMap, List.mem_nil_iff, or_false] at hm
  rcases hm with hm | hm | hm
  · exact h1 hm
  · obtain ⟨c, hc, hcm⟩ := hm
    by_cases hq : c = SQ
    · rw [if_pos hq] at hcm
      simp only [List.mem_cons, List.mem_singleton, List.mem_nil_iff, or_false] at hcm
      rcases hcm with h' | h' | h' | h'
      · exact h1 h'
      · exact h2 h'
      · exact h1 h'
      · exact h1 h'
    · rw [if_neg hq] at hcm
      simp only [List.mem_singleton] at hcm
      exact h (hcm ▸ hc)
  · exact h1 hm

/-- What the shell makes of the command line of the privileged move: it reads the
operands `t` and `d` back, unless a NUL in one of them cuts the line short, in which
case it cannot read the line at all. -/
theorem parse_doas_mv_doas_cmd (t d : Str) :
    parse_doas_mv (c_str (doas_cmd t d)) = none ∨
    parse_doas_mv (c_str (doas_cmd t d)) = some (t, d) := by
  by_cases hn : NUL ∈ doas_inner t d
  · left
    have hcut : posix_words (c_str (doas_cmd t d)) = none := by
      unfold posix_words doas_cmd
      rw [sh_escape_eq]
      show sh_tokens ShMode.plain none (c_str ('d' :: 'o' :: 'a' :: 's' :: ' ' :: 's' :: 'h'
        :: ' ' :: '-' :: 'c' :: ' ' :: SQ :: (quote_body (doas_inner t d) ++ [SQ]))) = none
      have e : ∀ c : Char, c ≠ NUL → ∀ x : Str, c_str (c :: x) = c :: c_str x :=
        fun c h x => c_str_cons c x h
      rw [e 'd' (by decide), e 'o' (by decide), e 'a' (by decide), e 's' (by decide),
        e ' ' (by decide), e 's' (by decide), e 'h' (by decide), e ' ' (by decide),
        e '-' (by decide), e 'c' (by decide), e ' ' (by decide), e SQ (by decide)]
      have hq := sh_tokens_quoted_cut (doas_inner t d) [] [SQ] hn
      have hd := sh_tokens_doas_head (SQ :: c_str (quote_body (doas_inner t d) ++ [SQ]))
      have hin : sh_tokens ShMode.plain none
          (SQ :: c_str (quote_body (doas_inner t d) ++ [SQ])) = none := by
        simp only [sh_tokens, if_true]
        exact hq
      rw [hin] at hd
      exact hd
    unfold parse_doas_mv
    rw [hcut]
    rfl
  · right
    have hfull : c_str (doas_cmd t d) = doas_cmd t d := by
      apply c_str_of_no_nul
      unfold doas_cmd
      intro hm
      rcases List.mem_append.mp hm with h1 | h1
      · revert h1; decide
      · exact nul_not_mem_sh_escape _ hn h1
    unfold parse_doas_mv
    rw [hfull, posix_words_doas_cmd]
    show as_mv_sync (posix_words (doas_inner t d)) = some (t, d)
    rw [posix_words_doas_inner]
    rfl

/-- A command line that reports a non-zero status has moved nothing, unless the move
was done and `sync` failed after it. -/
theorem run_shell_cmd_fail (o : SaveFaults) (cmd : Str) (fs : FS) (hmv : o.doas_moved = false)
    (h : (run_shell_cmd o cmd fs).1 ≠ 0) : (run_shell_cmd o cmd fs).2 = fs := by
  unfold run_shell_cmd at h ⊢
  cases hp : parse_doas_mv (c_str cmd) with
  | none => rfl
  | some ab =>
    rw [hp] at h
    simp only at h ⊢
    by_cases h1 : (fs ab.1).isNone = true
    · rw [if_pos h1]
    · rw [if_neg h1] at h ⊢
      by_cases h2 : o.doas_rc = 0
      · rw [if_pos h2] at h; simp at h
      · rw [if_neg h2, hmv]
        rfl

theorem run_shell_cmd_doas_ok (o : SaveFaults) (t d : Str) (fs : FS)
    (h : (run_shell_cmd o (doas_cmd t d) fs).1 = 0) :
    (run_shell_cmd o (doas_cmd t d) fs).2 = fs.rename t d := by
  unfold run_shell_cmd at h ⊢
  rcases parse_doas_mv_doas_cmd t d with hp | hp
  · rw [hp] at h; simp at h
  · rw [hp] at h ⊢
    simp only at h ⊢
    by_cases h1 : (fs t).isNone = true
    · rw [if_pos h1] at h; simp at h
    · rw [if_neg h1] at h ⊢
      by_cases h2 : o.doas_rc = 0
      · rw [if_pos h2]
      · rw [if_neg h2] at h
        by_cases h3 : o.doas_moved = true
        · rw [if_pos h3] at h; exact absurd h h2
        · rw [if_neg h3] at h; exact absurd h h2

/-- A failed privileged move has moved nothing, unless the move was done and `sync`
failed after it. -/
theorem doas_move_fail (o : SaveFaults) (tmp dest : Str) (fs : FS) (hmv : o.doas_moved = false)
    (h : (doas_move_into_place_secure o tmp dest fs).ok = false) :
    (doas_move_into_place_secure o tmp dest fs).fs = fs := by
  unfold doas_move_into_place_secure at h ⊢
  simp only at h ⊢
  split
  · rename_i hrc; exact run_shell_cmd_fail o _ fs hmv hrc
  · rename_i hrc; rw [if_neg hrc] at h; simp at h

/-- A successful privileged move has renamed the temporary file onto the destination. -/
theorem doas_move_ok (o : SaveFaults) (tmp dest : Str) (fs : FS)
    (h : (doas_move_into_place_secure o tmp dest fs).ok = true) :
    (doas_move_into_place_secure o tmp dest fs).fs = fs.rename tmp dest := by
  unfold doas_move_into_place_secure at h ⊢
  simp only at h ⊢
  split
  · rename_i hrc; rw [if_pos hrc] at h; simp at h
  · rename_i hrc
    exact run_shell_cmd_doas_ok o tmp dest fs (by simpa using hrc)

/-! ## The save pipeline -/

theorem FS.put_same (fs : FS) (p : Str) (f : File) : (fs.put p f) p = some f := by
  simp [FS.put]

theorem FS.put_other (fs : FS) (p q : Str) (f : File) (h : q ≠ p) : (fs.put p f) q = fs q := by
  simp [FS.put, h]

theorem FS.unlink_same (fs : FS) (p : Str) : (fs.unlink p) p = none := by
  simp [FS.unlink]

theorem FS.unlink_other (fs : FS) (p q : Str) (h : q ≠ p) : (fs.unlink p) q = fs q := by
  simp [FS.unlink, h]

theorem FS.rename_dst (fs : FS) (src dst : Str) (f : File) (h : fs src = some f) :
    (fs.rename src dst) dst = some f := by
  simp [FS.rename, h, FS.put]

/-- The temporary file never has the name of the backup file. -/
theorem tmp_name_ne_backup (path sfx : Str) : tmp_name path sfx ≠ path ++ ['~'] := by
  intro h
  have h0 : path ++ (".tmp.".toList ++ sfx) = path ++ ['~'] := by
    rw [← List.append_assoc]; exact h
  have h1 := List.append_cancel_left h0
  have h2 := congrArg List.length h1
  simp at h2

/-- The temporary file never has the name of the target. -/
theorem tmp_name_ne_path (path sfx : Str) : tmp_name path sfx ≠ path := by
  intro h
  have h2 := congrArg List.length h
  simp [tmp_name] at h2

theorem backup_ne_path (path : Str) : path ≠ path ++ ['~'] := by
  intro h
  have h2 := congrArg List.length h
  simp at h2

/-- The backup copy writes to the backup file only. -/
theorem safe_backup_copy_other (o : SaveFaults) (src dst : Str) (fs : FS) (p : Str)
    (h : p ≠ dst) : (safe_backup_copy o src dst fs) p = fs p := by
  unfold safe_backup_copy
  cases fs src with
  | none => rfl
  | some f =>
    simp only
    split
    · rfl
    · split
      · rfl
      · exact FS.put_other _ _ _ _ h

/-- Writing the lines touches the temporary file only. -/
theorem atomic_save_to_fd_other (o : SaveFaults) (tmp : Str) (b : Buffer) (fs : FS) (p : Str)
    (h : p ≠ tmp) : (atomic_save_to_fd o tmp b fs).fs p = fs p := by
  unfold atomic_save_to_fd
  simp only
  split
  · exact FS.put_other _ _ _ _ h
  · split
    · exact FS.put_other _ _ _ _ h
    · split
      · exact FS.put_other _ _ _ _ h
      · split
        · exact FS.put_other _ _ _ _ h
        · exact FS.put_other _ _ _ _ h

/-- When the writes succeed, the temporary file holds what `fputs`/`fputc` were given. -/
theorem atomic_save_to_fd_ok (o : SaveFaults) (tmp : Str) (b : Buffer) (fs : FS)
    (h : (atomic_save_to_fd o tmp b fs).ok = true) :
    ∃ m : Nat, (atomic_save_to_fd o tmp b fs).fs tmp
      = some { mode := m, data := fputs_lines b.lines } := by
  unfold atomic_save_to_fd at h ⊢
  simp only at h ⊢
  split
  · rename_i i hi
    rw [hi] at h
    simp at h
  · rename_i hi
    rw [hi] at h
    simp only at h
    split
    · rename_i hf; rw [if_pos hf] at h; simp at h
    · rename_i hf
      rw [if_neg hf] at h
      split
      · rename_i hs; rw [if_pos hs] at h; simp at h
      · rename_i hs
        rw [if_neg hs] at h
        split
        · rename_i hc; rw [if_pos hc] at h; simp at h
        · exact ⟨_, FS.put_same _ _ _⟩

theorem backup_step_other (o : SaveFaults) (path : Str) (backup : Bool) (fs : FS) (p : Str)
    (h : p ≠ path ++ ['~']) :
    (if backup && (fs path).isSome then safe_backup_copy o path (path ++ ['~']) fs else fs) p
      = fs p := by
  split
  · exact safe_backup_copy_other o path _ fs p h
  · rfl

theorem mkstemp_some (o : SaveFaults) (path : Str) (fs : FS) (tmp : Str)
    (h : mkstemp o path fs = some tmp) :
    ∃ sfx, o.mkstemp = some sfx ∧ tmp = tmp_name path sfx ∧ fs tmp = none := by
  unfold mkstemp at h
  cases hm : o.mkstemp with
  | none => rw [hm] at h; simp at h
  | some sfx =>
    rw [hm] at h
    simp only at h
    split at h
    · simp at h
    · rename_i hn
      have ht : tmp_name path sfx = tmp := by simpa using h
      refine ⟨sfx, rfl, ht.symm, ?_⟩
      rw [← ht]
      cases hf : fs (tmp_name path sfx) with
      | none => rfl
      | some f => rw [hf] at hn; simp at hn

/-- A failed run of the steps after `mkstemp` removes the temporary file and changes
no other file, unless it fails in the privileged move after the move was done. -/
theorem atomic_save_tmp_fail (o : SaveFaults) (path tmp : Str) (mode : Nat) (b : Buffer)
    (fs1 : FS) (hmv : o.rename = true ∨ o.doas_moved = false)
    (hfail : (atomic_save_tmp o path tmp mode b fs1).ok = false) :
    (atomic_save_tmp o path tmp mode b fs1).fs tmp = none ∧
    ∀ p, p ≠ tmp → (atomic_save_tmp o path tmp mode b fs1).fs p = fs1 p := by
  unfold atomic_save_tmp at hfail ⊢
  simp only at hfail ⊢
  generalize hfs3 : (if o.fchmod = true
    then (fs1.put tmp { mode := 384, data := [] }).put tmp { mode := mode, data := [] }
    else fs1.put tmp { mode := 384, data := [] }) = fs3 at hfail ⊢
  have h3 : ∀ p, p ≠ tmp → fs3 p = fs1 p := by
    intro p hp
    rw [← hfs3]
    split
    · rw [FS.put_other _ _ _ _ hp, FS.put_other _ _ _ _ hp]
    · rw [FS.put_other _ _ _ _ hp]
  have hw : ∀ p, p ≠ tmp → (atomic_save_to_fd o tmp b fs3).fs p = fs1 p := by
    intro p hp
    rw [atomic_save_to_fd_other o tmp b fs3 p hp, h3 p hp]
  generalize atomic_save_to_fd o tmp b fs3 = w at hfail hw ⊢
  by_cases hfd : (!o.fdopen) = true
  · rw [if_pos hfd]
    exact ⟨FS.unlink_same _ _, fun p hp => (FS.unlink_other _ _ _ hp).trans (h3 p hp)⟩
  · rw [if_neg hfd] at hfail ⊢
    by_cases hwok : (!w.ok) = true
    · rw [if_pos hwok]
      exact ⟨FS.unlink_same _ _, fun p hp => (FS.unlink_other _ _ _ hp).trans (hw p hp)⟩
    · rw [if_neg hwok] at hfail ⊢
      by_cases hren : o.rename = true
      · rw [if_pos hren] at hfail
        simp at hfail
      · rw [if_neg hren] at hfail ⊢
        have hd := doas_move_fail o tmp path w.fs (hmv.resolve_left hren)
        by_cases hdok : (!(doas_move_into_place_secure o tmp path w.fs).ok) = true
        · rw [if_pos hdok]
          have hd1 := hd (by simpa using hdok)
          rw [hd1]
          exact ⟨FS.unlink_same _ _, fun p hp => (FS.unlink_other _ _ _ hp).trans (hw p hp)⟩
        · rw [if_neg hdok] at hfail
          simp at hfail

/-- A failed `atomic_save` whose failure is not that of a privileged command line which
had already moved the file (that is, `rename` succeeded or the command line moved
nothing): whichever of `mkstemp`, `fdopen`, the writes, `fflush`, `fsync`, `fclose`,
`rename` and the privileged move failed, the target path holds exactly what it held
before the call (nothing if it held nothing), the temporary file the call created is
gone, and no file other than the backup `path~` differs from before. -/
theorem atomic_save_failure_unmoved (o : SaveFaults) (path : Str) (b : Buffer)
    (backup : Bool) (fs : FS) (hmv : o.rename = true ∨ o.doas_moved = false)
    (hfail : (atomic_save o path b backup fs).ok = false) :
    (atomic_save o path b backup fs).fs path = fs path ∧
    (∀ sfx, o.mkstemp = some sfx → fs (tmp_name path sfx) = none →
      (atomic_save o path b backup fs).fs (tmp_name path sfx) = none) ∧
    (∀ p, p ≠ path ++ ['~'] → (atomic_save o path b backup fs).fs p = fs p) := by
  have frame : ∀ p, p ≠ path ++ ['~'] → (atomic_save o path b backup fs).fs p = fs p := by
    intro p hp
    unfold atomic_save at hfail ⊢
    simp only at hfail ⊢
    generalize hfs1 : (if (backup && (fs path).isSome) = true
      then safe_backup_copy o path (path ++ ['~']) fs else fs) = fs1 at hfail ⊢
    have h1 : ∀ q, q ≠ path ++ ['~'] → fs1 q = fs q := by
      intro q hq; rw [← hfs1]; exact backup_step_other o path backup fs q hq
    cases hmk : mkstemp o path fs1 with
    | none => exact h1 p hp
    | some tmp =>
      rw [hmk] at hfail
      simp only at hfail ⊢
      obtain ⟨sfx, _, htmp, hnone⟩ := mkstemp_some o path fs1 tmp hmk
      have hres := atomic_save_tmp_fail o path tmp _ b fs1 hmv hfail
      by_cases hpt : p = tmp
      · rw [hpt, hres.1]
        have hne : tmp ≠ path ++ ['~'] := by rw [htmp]; exact tmp_name_ne_backup path sfx
        rw [← h1 tmp hne, hnone]
      · rw [hres.2 p hpt]; exact h1 p hp
  refine ⟨frame path (backup_ne_path path), ?_, frame⟩
  intro sfx _ hnone
  rw [frame _ (tmp_name_ne_backup path sfx), hnone]

/-- C7, the code at the failing input: a save of the three lines `one`, `two`, `three`
over the file `f`, which holds `old`, in a run where `rename` fails and the privileged
command line `mv TMP f && sync` moves the file and then exits with status 1 because
`sync` failed. `atomic_save` returns failure with the message of a failed move, yet
the target holds the three new lines, not `old`; the temporary file is gone (it is
the target now). A save in which the command line moves nothing leaves `old`. -/
theorem atomic_save_fails_after_move :
    fs_with_f "f".toList = some { mode := 420, data := "old\n".toList } ∧
    (atomic_save sync_faults "f".toList three_line_editor.buf false fs_with_f).ok = false ∧
    (atomic_save sync_faults "f".toList three_line_editor.buf false fs_with_f).err
      = "rename:  ; doas move failed (exit 1)".toList ∧
    (atomic_save sync_faults "f".toList three_line_editor.buf false fs_with_f).fs "f".toList
      = some { mode := 420, data := "one\ntwo\nthree\n".toList } ∧
    (atomic_save sync_faults "f".toList three_line_editor.buf false fs_with_f).fs "f".toList
      ≠ fs_with_f "f".toList ∧
    (atomic_save sync_faults "f".toList three_line_editor.buf false fs_with_f).fs
      "f.tmp.aB3dE9".toList = none ∧
    (atomic_save rename_faults "f".toList three_line_editor.buf false fs_with_f).ok = false ∧
    (atomic_save rename_faults "f".toList three_line_editor.buf false fs_with_f).fs "f".toList
      = fs_with_f "f".toList := by
  refine ⟨by rfl, by rfl, by rfl, by rfl, ?_, by rfl, by rfl, by rfl⟩
  have h1 : (atomic_save sync_faults "f".toList three_line_editor.buf false fs_with_f).fs
      "f".toList = some { mode := 420, data := "one\ntwo\nthree\n".toList } := by rfl
  have h2 : fs_with_f "f".toList = some { mode := 420, data := "old\n".toList } := by rfl
  rw [h1, h2]
  decide

/-- A successful run of the steps after `mkstemp` leaves at the target what `fputs` and
`fputc` were handed for the lines of the buffer. -/
theorem atomic_save_tmp_ok (o : SaveFaults) (path tmp : Str) (mode : Nat) (b : Buffer)
    (fs1 : FS) (hok : (atomic_save_tmp o path tmp mode b fs1).ok = true) :
    ∃ m : Nat, (atomic_save_tmp o path tmp mode b fs1).fs path
      = some { mode := m, data := fputs_lines b.lines } := by
  unfold atomic_save_tmp at hok ⊢
  simp only at hok ⊢
  generalize (if o.fchmod = true
    then (fs1.put tmp { mode := 384, data := [] }).put tmp { mode := mode, data := [] }
    else fs1.put tmp { mode := 384, data := [] }) = fs3 at hok ⊢
  have hw := atomic_save_to_fd_ok o tmp b fs3
  generalize atomic_save_to_fd o tmp b fs3 = w at hok hw ⊢
  by_cases hfd : (!o.fdopen) = true
  · rw [if_pos hfd] at hok; simp at hok
  · rw [if_neg hfd] at hok ⊢
    by_cases hwok : (!w.ok) = true
    · rw [if_pos hwok] at hok; simp at hok
    · rw [if_neg hwok] at hok ⊢
      obtain ⟨m, hm⟩ := hw (by simpa using hwok)
      by_cases hren : o.rename = true
      · rw [if_pos hren]
        exact ⟨m, FS.rename_dst _ _ _ _ hm⟩
      · rw [if_neg hren] at hok ⊢
        by_cases hdok : (!(doas_move_into_place_secure o tmp path w.fs).ok) = true
        · rw [if_pos hdok] at hok; simp at hok
        · rw [if_neg hdok]
          refine ⟨m, ?_⟩
          show (doas_move_into_place_secure o tmp path w.fs).fs path = _
          rw [doas_move_ok o tmp path w.fs (by simpa using hdok)]
          exact FS.rename_dst _ _ _ _ hm

/-- A successful `atomic_save` leaves at the target, for each line in order, the bytes
of the line up to its first NUL followed by a newline. -/
theorem atomic_save_ok_contents (o : SaveFaults) (path : Str) (b : Buffer) (backup : Bool)
    (fs : FS) (hok : (atomic_save o path b backup fs).ok = true) :
    ∃ m : Nat, (atomic_save o path b backup fs).fs path
      = some { mode := m, data := fputs_lines b.lines } := by
  unfold atomic_save at hok ⊢
  simp only at hok ⊢
  cases hmk : mkstemp o path (if (backup && (fs path).isSome) = true
      then safe_backup_copy o path (path ++ ['~']) fs else fs) with
  | none => rw [hmk] at hok; simp at hok
  | some tmp =>
    rw [hmk] at hok
    exact atomic_save_tmp_ok o path tmp _ b _ hok

/-- For lines without a NUL byte, the bytes written are every line followed by one
newline, and nothing else. -/
theorem fputs_lines_of_no_nul (ls : List Str) (h : ∀ l ∈ ls, NUL ∉ l) :
    fputs_lines ls = (ls.map (fun l => l ++ [NL])).flatten := by
  unfold fputs_lines
  congr 1
  apply List.map_congr_left
  intro l hl
  rw [c_str_of_no_nul l (h l hl)]

/-- C8, the code at the failing input: saving the one-line document whose line is the
three bytes `a`, NUL, `b` succeeds and leaves the two bytes `a`, newline at the target,
not the four bytes `a`, NUL, `b`, newline of the line followed by a newline. -/
theorem atomic_save_truncates_at_nul :
    (atomic_save no_faults "f".toList nul_doc false empty_fs).ok = true ∧
    ((atomic_save no_faults "f".toList nul_doc false empty_fs).fs "f".toList).map File.data
      = some ['a', NL] ∧
    (nul_doc.lines.map (fun l => l ++ [NL])).flatten = ['a', NUL, 'b', NL] ∧
    ((atomic_save no_faults "f".toList nul_doc false empty_fs).fs "f".toList).map File.data
      ≠ some ((nul_doc.lines.map (fun l => l ++ [NL])).flatten) := by
  refine ⟨by rfl, by rfl, by rfl, ?_⟩
  decide

/-- C6: `Editor::save` fails exactly when there is no file name or `atomic_save`
reports failure, and then the editor, hence the document's lines, path and dirty flag,
is exactly what it was; when it succeeds the dirty flag is false, the path is the
target and the lines are unchanged. -/
theorem save_all_or_nothing (env : Env) (maybe : Str) (e : Editor) (w : World) :
    ((e.save env maybe w).1 = false ↔
      ((if maybe.isEmpty then e.buf.path else maybe) = [] ∨
       (atomic_save env.faults (if maybe.isEmpty then e.buf.path else maybe) e.buf
          e.buf.backup w.fs).ok = false)) ∧
    ((e.save env maybe w).1 = false → (e.save env maybe w).2.1 = e) ∧
    ((e.save env maybe w).1 = true →
      (e.save env maybe w).2.1.buf.dirty = false ∧
      (e.save env maybe w).2.1.buf.path = (if maybe.isEmpty then e.buf.path else maybe) ∧
      (e.save env maybe w).2.1.buf.lines = e.buf.lines) := by
  unfold Editor.save
  simp only
  generalize (if maybe.isEmpty = true then e.buf.path else maybe) = target
  by_cases ht : target.isEmpty = true
  · have ht1 : target = [] := by simpa using ht
    rw [if_pos ht]
    refine ⟨⟨fun _ => Or.inl ht1, fun _ => rfl⟩, fun _ => rfl, fun h => ?_⟩
    simp at h
  · have ht1 : target ≠ [] := by simpa using ht
    rw [if_neg ht]
    by_cases hok : (atomic_save env.faults target e.buf e.buf.backup w.fs).ok = true
    · have hno : ¬ ((!(atomic_save env.faults target e.buf e.buf.backup w.fs).ok) = true) := by
        simp [hok]
      rw [if_neg hno]
      refine ⟨⟨fun h => by simp at h, fun h => ?_⟩, fun h => by simp at h, fun _ => ?_⟩
      · rcases h with h | h
        · exact absurd h ht1
        · rw [hok] at h; simp at h
      · refine ⟨rfl, ?_, ?_⟩
        · by_cases hp : target = e.buf.path
          · simp [hp]
          · simp [hp]
        · by_cases hp : target = e.buf.path
          · simp [hp]
          · simp [hp]
    · have hfalse : (atomic_save env.faults target e.buf e.buf.backup w.fs).ok = false := by
        simpa using hok
      have hyes : (!(atomic_save env.faults target e.buf e.buf.backup w.fs).ok) = true := by
        simp [hfalse]
      rw [if_pos hyes]
      exact ⟨⟨fun _ => Or.inr hfalse, fun _ => rfl⟩, fun _ => rfl, fun h => by simp at h⟩

/-- C6 at concrete inputs: `write f` of a dirty unnamed three-line buffer succeeds when
no call fails (clean, named `f`, same lines) and leaves the editor untouched when the
`rename` step fails; `write` without any file name fails and changes nothing. -/
theorem save_all_or_nothing_witness :
    (three_line_editor.save demo_env "f".toList demo_world).1 = true ∧
    (three_line_editor.save demo_env "f".toList demo_world).2.1.buf.dirty = false ∧
    (three_line_editor.save demo_env "f".toList demo_world).2.1.buf.path = "f".toList ∧
    (three_line_editor.save demo_env "f".toList demo_world).2.1.buf.lines
      = three_line_editor.buf.lines ∧
    (three_line_editor.save failing_env "f".toList demo_world).1 = false ∧
    (three_line_editor.save failing_env "f".toList demo_world).2.1 = three_line_editor ∧
    (three_line_editor.save demo_env [] demo_world).1 = false ∧
    (three_line_editor.save demo_env [] demo_world).2.1 = three_line_editor :=
  ⟨by rfl,
   ((save_all_or_nothing demo_env "f".toList three_line_editor demo_world).2.2 (by rfl)).1,
   ((save_all_or_nothing demo_env "f".toList three_line_editor demo_world).2.2 (by rfl)).2.1,
   ((save_all_or_nothing demo_env "f".toList three_line_editor demo_world).2.2 (by rfl)).2.2,
   by rfl,
   (save_all_or_nothing failing_env "f".toList three_line_editor demo_world).2.1 (by rfl),
   by rfl,
   (save_all_or_nothing demo_env [] three_line_editor demo_world).2.1 (by rfl)⟩


/-! ## The line-input loop -/

/-- The cursor lies inside the buffer or at its end. -/
theorem backspace_step_inv (st : LineState) (h : st.cursor ≤ st.buf.length) :
    (backspace_step st).cursor ≤ (backspace_step st).buf.length := by
  unfold backspace_step
  split
  · rename_i hc
    simp only [List.length_eraseIdx]
    split <;> omega
  · exact h

theorem tab_step_inv (opts : List Str) (st : LineState) (h : st.cursor ≤ st.buf.length) :
    (tab_step opts st).cursor ≤ (tab_step opts st).buf.length := by
  unfold tab_step
  split
  · exact h
  · exact Nat.le_refl _
  · exact h

theorem arrow_step_inv (lr : LineReader) (st : LineState) (k : Char)
    (h : st.cursor ≤ st.buf.length) :
    (arrow_step lr st k).cursor ≤ (arrow_step lr st k).buf.length := by
  unfold arrow_step
  split
  · split
    · exact Nat.le_refl _
    · exact h
  · split
    · split
      · exact Nat.le_refl _
      · exact Nat.le_refl _
    · split
      · split
        · rename_i hlt; exact hlt
        · exact h
      · split
        · split
          · show st.cursor - 1 ≤ st.buf.length
            omega
          · exact h
        · exact h

theorem insert_step_inv (st : LineState) (c : Char) (h : st.cursor ≤ st.buf.length) :
    (insert_step st c).cursor ≤ (insert_step st c).buf.length := by
  unfold insert_step
  simp only [List.length_append, List.length_cons, List.length_take, List.length_drop]
  omega

/-- One `::read` keeps the cursor inside the buffer, whatever it delivers. -/
theorem LineReader.on_read_inv (lr : LineReader) (ls : Listing) (p p1 : Pending)
    (st st1 : LineState) (r : Option Char) (h : st.cursor ≤ st.buf.length)
    (hstep : lr.on_read ls p st r = Progress.running p1 st1) :
    st1.cursor ≤ st1.buf.length := by
  unfold LineReader.on_read at hstep
  cases p <;> cases r <;> simp only at hstep
  · cases hstep
  · split at hstep
    · cases hstep
    · split at hstep
      · cases hstep; exact backspace_step_inv st h
      · split at hstep
        · cases hstep; exact tab_step_inv _ st h
        · split at hstep
          · cases hstep; exact h
          · split at hstep
            · cases hstep; exact Nat.zero_le _
            · split at hstep
              · cases hstep; exact Nat.le_refl _
              · cases hstep; exact insert_step_inv st _ h
  · cases hstep; exact h
  · split at hstep <;> (cases hstep; exact h)
  · cases hstep; exact h
  · cases hstep; exact arrow_step_inv lr st _ h

theorem LineReader.read_states_inv (lr : LineReader) (ls : Listing)
    (keys : List (Option Char)) :
    ∀ (p : Pending) (st : LineState), st.cursor ≤ st.buf.length →
      ∀ s ∈ lr.read_states ls p st keys, s.cursor ≤ s.buf.length := by
  induction keys with
  | nil => intro p st _ s hs; simp [LineReader.read_states] at hs
  | cons r more ih =>
    intro p st h s hs
    unfold LineReader.read_states at hs
    cases hstep : lr.on_read ls p st r with
    | returned x => rw [hstep] at hs; simp at hs
    | running p1 st1 =>
      rw [hstep] at hs
      have h1 := lr.on_read_inv ls p p1 st st1 r h hstep
      rcases List.mem_cons.mp hs with he | hm
      · rw [he]; exact h1
      · exact ih p1 st1 h1 s hm

/-- C11: starting from the empty buffer with cursor 0, after every `::read` of the
loop (every byte, every part of an escape sequence, every failed read that lets the loop
go on), for every sequence of read outcomes, every history, every command list and
every directory listing behind Tab completion, the cursor satisfies
`0 <= cursor <= buf.size()`. -/
theorem cursor_invariant (lr : LineReader) (ls : Listing) (keys : List (Option Char)) :
    ∀ s ∈ lr.read_states ls Pending.key lr.start keys,
      0 ≤ s.cursor ∧ s.cursor ≤ s.buf.length := by
  intro s hs
  refine ⟨Nat.zero_le _, ?_⟩
  exact lr.read_states_inv ls keys Pending.key lr.start (Nat.le_refl _) s hs

/-- C11 at a concrete input: after the keys `a`, Left arrow and Backspace the loop
stands at the buffer `a` with cursor 0. -/
theorem cursor_invariant_witness :
    ({ buf := ['a'], cursor := 0, hist_idx := 2 } : LineState)
      ∈ demo_reader.read_states demo_listing Pending.key demo_reader.start
          [some 'a', some ESC, some '[', some 'D', some DEL] ∧
    0 ≤ ({ buf := ['a'], cursor := 0, hist_idx := 2 } : LineState).cursor ∧
    ({ buf := ['a'], cursor := 0, hist_idx := 2 } : LineState).cursor
      ≤ ({ buf := ['a'], cursor := 0, hist_idx := 2 } : LineState).buf.length :=
  ⟨by decide,
   cursor_invariant demo_reader demo_listing
     [some 'a', some ESC, some '[', some 'D', some DEL]
     { buf := ['a'], cursor := 0, hist_idx := 2 } (by decide)⟩

/-- A printable byte is none of the bytes the earlier branches of the loop test for. -/
theorem on_read_printable (lr : LineReader) (ls : Listing) (st : LineState) (x : Char)
    (h1 : 32 ≤ x.toNat) (h2 : x.toNat ≤ 126) :
    lr.on_read ls Pending.key st (some x) = Progress.running Pending.key (insert_step st x) := by
  have e : ∀ n : Nat, x = Char.ofNat n → (Char.ofNat n).toNat = x.toNat := by
    intro n hn; rw [hn]
  have hcr : x ≠ CR := fun h => by have := e 13 h; revert this; simp only [Char.reduceToNat]; omega
  have hnl : x ≠ NL := fun h => by have := e 10 h; revert this; simp only [Char.reduceToNat]; omega
  have hdel : x ≠ DEL := fun h => by
    have := e 127 h; revert this; simp only [Char.reduceToNat]; omega
  have hbs : x ≠ BS := fun h => by have := e 8 h; revert this; simp only [Char.reduceToNat]; omega
  have htab : x ≠ TAB := fun h => by have := e 9 h; revert this; simp only [Char.reduceToNat]; omega
  have hesc : x ≠ ESC := fun h => by have := e 27 h; revert this; simp only [Char.reduceToNat]; omega
  have h1' : x.toNat ≠ 1 := by omega
  have h5 : x.toNat ≠ 5 := by omega
  simp [LineReader.on_read, hcr, hnl, hdel, hbs, htab, hesc, h1', h5]

/-- C12: a printable byte `x` received at the top of the loop, with buffer `b` and
cursor `c <= |b|`, makes the buffer `b[0..c)`, `x`, `b[c..)`, of length `|b|+1`, and
the cursor `c+1`; the history index is unchanged and the loop goes on. -/
theorem insert_transition (lr : LineReader) (ls : Listing) (st : LineState) (x : Char)
    (hx : 32 ≤ x.toNat ∧ x.toNat ≤ 126) (hc : st.cursor ≤ st.buf.length) :
    ∃ st1 : LineState,
      lr.on_read ls Pending.key st (some x) = Progress.running Pending.key st1 ∧
      st1.buf = st.buf.take st.cursor ++ [x] ++ st.buf.drop st.cursor ∧
      st1.buf.length = st.buf.length + 1 ∧
      st1.cursor = st.cursor + 1 ∧
      st1.hist_idx = st.hist_idx := by
  refine ⟨insert_step st x, on_read_printable lr ls st x hx.1 hx.2, ?_, ?_, rfl, rfl⟩
  · simp [insert_step]
  · simp only [insert_step, List.length_append, List.length_cons, List.length_take,
      List.length_drop]
    omega

/-- C12 at a concrete input: `e` typed into `hllo` at cursor 1. -/
theorem insert_transition_witness :
    ∃ st1 : LineState,
      demo_reader.on_read demo_listing Pending.key
        { buf := "hllo".toList, cursor := 1, hist_idx := 2 } (some 'e')
        = Progress.running Pending.key st1 ∧
      st1.buf = "hllo".toList.take 1 ++ ['e'] ++ "hllo".toList.drop 1 ∧
      st1.buf.length = "hllo".toList.length + 1 ∧
      st1.cursor = 1 + 1 ∧
      st1.hist_idx = 2 :=
  insert_transition demo_reader demo_listing
    { buf := "hllo".toList, cursor := 1, hist_idx := 2 } 'e' (by decide) (by decide)

/-- C13: a Backspace or Delete byte (8 or 127) received at the top of the loop with
cursor `c > 0` removes exactly the character at index `c-1` (the buffer becomes
`b[0..c-1)` followed by `b[c..)`, one shorter when `c <= |b|`) and sets the cursor to
`c-1`; with cursor 0 it leaves buffer, cursor and history index as they were. -/
theorem backspace_transition (lr : LineReader) (ls : Listing) (st : LineState) (c : Char)
    (hc : c = DEL ∨ c = BS) :
    (0 < st.cursor →
      lr.on_read ls Pending.key st (some c)
        = Progress.running Pending.key
            { buf := st.buf.take (st.cursor - 1) ++ st.buf.drop st.cursor,
              cursor := st.cursor - 1, hist_idx := st.hist_idx } ∧
      (st.cursor ≤ st.buf.length →
        (st.buf.take (st.cursor - 1) ++ st.buf.drop st.cursor).length + 1
          = st.buf.length)) ∧
    (st.cursor = 0 →
      lr.on_read ls Pending.key st (some c) = Progress.running Pending.key st) := by
  have hcr : c ≠ CR := by rcases hc with h | h <;> (rw [h]; decide)
  have hnl : c ≠ NL := by rcases hc with h | h <;> (rw [h]; decide)
  have hstep : lr.on_read ls Pending.key st (some c)
      = Progress.running Pending.key (backspace_step st) := by
    simp [LineReader.on_read, hcr, hnl, hc]
  constructor
  · intro hpos
    constructor
    · rw [hstep]
      have he : st.cursor - 1 + 1 = st.cursor := by omega
      simp only [backspace_step, if_pos hpos, List.eraseIdx_eq_take_drop_succ, he]
    · intro hle
      simp only [List.length_append, List.length_take, List.length_drop]
      omega
  · intro h0
    rw [hstep]
    have hnp : ¬ st.cursor > 0 := by omega
    simp only [backspace_step, if_neg hnp]

/-- C13 at concrete inputs: DEL with the cursor after `x` in `hexllo`, and Backspace at
cursor 0. -/
theorem backspace_transition_witness :
    demo_reader.on_read demo_listing Pending.key
        { buf := "hexllo".toList, cursor := 3, hist_idx := 2 } (some DEL)
      = Progress.running Pending.key { buf := "hello".toList, cursor := 2, hist_idx := 2 } ∧
    demo_reader.on_read demo_listing Pending.key
        { buf := "hello".toList, cursor := 0, hist_idx := 2 } (some BS)
      = Progress.running Pending.key { buf := "hello".toList, cursor := 0, hist_idx := 2 } :=
  ⟨((backspace_transition demo_reader demo_listing
      { buf := "hexllo".toList, cursor := 3, hist_idx := 2 } DEL (Or.inl rfl)).1
        (by decide)).1,
   (backspace_transition demo_reader demo_listing
      { buf := "hello".toList, cursor := 0, hist_idx := 2 } BS (Or.inr rfl)).2 rfl⟩

/-- Printable bytes typed with the cursor at the end are appended to the buffer, and
the Enter byte that follows returns the buffer. -/
theorem LineReader.read_loop_typed (lr : LineReader) (ls : Listing) (w : Str) :
    ∀ (pre : Str) (hi : Int) (e : Char) (more : List (Option Char)),
      (∀ x ∈ w, 32 ≤ x.toNat ∧ x.toNat ≤ 126) → (e = CR ∨ e = NL) →
      lr.read_loop ls Pending.key { buf := pre, cursor := pre.length, hist_idx := hi }
        (w.map some ++ some e :: more) = pre ++ w := by
  induction w with
  | nil =>
    intro pre hi e more _ he
    simp [LineReader.read_loop, LineReader.on_read, he]
  | cons x w ih =>
    intro pre hi e more hw he
    have hx := hw x (List.mem_cons_self x w)
    have hw1 : ∀ y ∈ w, 32 ≤ y.toNat ∧ y.toNat ≤ 126 :=
      fun y hy => hw y (List.mem_cons_of_mem x hy)
    show lr.read_loop ls Pending.key _ (some x :: (w.map some ++ some e :: more)) = _
    unfold LineReader.read_loop
    rw [on_read_printable lr ls _ x hx.1 hx.2]
    have hst : insert_step { buf := pre, cursor := pre.length, hist_idx := hi } x
        = { buf := pre ++ [x], cursor := (pre ++ [x]).length, hist_idx := hi } := by
      simp [insert_step]
    simp only [hst]
    rw [ih (pre ++ [x]) hi e more hw1 he]
    simp

/-- C14: on a terminal, for every sequence `w` of printable bytes (spaces included,
leading or trailing) followed by an Enter byte, CR or LF, `LineReader::read` returns
exactly `w`: neither the Enter byte nor anything after it, and nothing trimmed. -/
theorem enter_returns_buffer (lr : LineReader) (ls : Listing) (con : Console)
    (mode : Termios) (cin : IStream) (w : Str) (e : Char) (more : List (Option Char))
    (htty : con.tty = true) (hw : ∀ x ∈ w, 32 ≤ x.toNat ∧ x.toNat ≤ 126)
    (he : e = CR ∨ e = NL) (hk : con.keys = w.map some ++ some e :: more) :
    (lr.read ls con mode cin).line = w := by
  unfold LineReader.read
  simp only [htty, Bool.not_true, Bool.false_eq_true, if_false]
  rw [hk]
  have h := lr.read_loop_typed ls w [] (lr.history.length : Int) e more hw he
  simpa [LineReader.start] using h

/-- C14 at a concrete input: the keys space, `h`, `i`, space, CR, and then `x`. -/
theorem enter_returns_buffer_witness :
    (demo_reader.read demo_listing
        { demo_console with keys := " hi ".toList.map some ++ some CR :: [some 'x'] }
        cooked (IStream.ofStr [])).line = " hi ".toList :=
  enter_returns_buffer demo_reader demo_listing
    { demo_console with keys := " hi ".toList.map some ++ some CR :: [some 'x'] }
    cooked (IStream.ofStr []) " hi ".toList CR [some 'x'] rfl (by decide) (Or.inl rfl) rfl

/-- C16: whatever the read outcomes, and whether or not the terminal could be switched,
the terminal mode after `LineReader::read` is the mode before it: every way out of the
loop, `break` on Enter as well as `return string()` on a failed read, runs the
destructor of the guard, which sets the saved mode again when the mode was changed. -/
theorem terminal_mode_restored (lr : LineReader) (ls : Listing) (con : Console)
    (mode : Termios) (cin : IStream) :
    (lr.read ls con mode cin).mode = mode := by
  unfold LineReader.read
  by_cases htty : con.tty = true
  · simp only [htty, Bool.not_true, Bool.false_eq_true, if_false, TermiosGuard.release]
    by_cases hg : con.tcgetattr_ok = true
    · by_cases hs : con.tcsetattr_ok = true
      · simp [hg, hs]
      · simp [hg, hs]
    · simp [hg]
  · have hf : con.tty = false := by simpa using htty
    simp only [hf, Bool.not_false, if_true]
    split <;> rfl

/-! ## History -/

/-- C17: `remember(s)` leaves the history unchanged when `s` is empty or equals the
last entry; otherwise it appends `s`, first dropping the oldest entry when the history
already holds 800 entries, so that a history of at most 800 entries stays so. `remember`
of `a` twice on an empty history stores one entry, of `a` then `b` two. The command list
is never touched. -/
theorem remember_spec (lr : LineReader) (s a b : Str) :
    ((s = [] ∨ lr.history.getLast? = some s) → lr.remember s = lr) ∧
    (s ≠ [] → lr.history.getLast? ≠ some s →
      (lr.history.length < 800 → (lr.remember s).history = lr.history ++ [s]) ∧
      (lr.history.length = 800 →
        (lr.remember s).history = lr.history.drop 1 ++ [s] ∧
        (lr.remember s).history.length = 800)) ∧
    (lr.history.length ≤ 800 → (lr.remember s).history.length ≤ 800) ∧
    (lr.remember s).commands = lr.commands ∧
    (a ≠ [] → lr.history = [] → ((lr.remember a).remember a).history = [a]) ∧
    (a ≠ [] → b ≠ [] → a ≠ b → lr.history = [] →
      ((lr.remember a).remember b).history = [a, b]) := by
  have hH : HIST_MAX = 800 := rfl
  have hne : ∀ t : Str, t ≠ [] → t.isEmpty = false := by
    intro t ht; cases t with
    | nil => exact absurd rfl ht
    | cons c cs => rfl
  have happ : ∀ (l : LineReader) (t : Str), t ≠ [] → l.history.getLast? ≠ some t →
      l.history.length < 800 → l.remember t = { l with history := l.history ++ [t] } := by
    intro l t ht hl hlen
    unfold LineReader.remember
    simp [hne t ht, hl, hH, hlen]
  refine ⟨?_, ?_, ?_, ?_, ?_, ?_⟩
  · intro h
    unfold LineReader.remember
    rcases h with h | h
    · simp [h]
    · by_cases hs : s.isEmpty = true
      · simp [hs]
      · have hnonempty : lr.history.isEmpty = false := by
          cases hh : lr.history with
          | nil => rw [hh] at h; simp at h
          | cons x xs => rfl
        simp [hs, h, hnonempty]
  · intro hs hl
    constructor
    · intro hlen
      rw [happ lr s hs hl hlen]
    · intro hlen
      have hnot : ¬ lr.history.length < HIST_MAX := by rw [hH]; omega
      have hr : (lr.remember s).history = lr.history.drop 1 ++ [s] := by
        unfold LineReader.remember
        simp [hne s hs, hl, hnot]
      refine ⟨hr, ?_⟩
      rw [hr, List.length_append, List.length_drop, hlen]
      rfl
  · intro hlen
    unfold LineReader.remember
    split
    · exact hlen
    · split
      · split
        · rename_i hlt
          rw [hH] at hlt
          simp only [List.length_append, List.length_singleton]
          omega
        · simp only [List.length_append, List.length_drop, List.length_singleton]
          omega
      · exact hlen
  · unfold LineReader.remember
    split
    · rfl
    · split
      · split <;> rfl
      · rfl
  · intro ha hh
    have h1 : lr.remember a = { lr with history := [a] } := by
      rw [happ lr a ha (by rw [hh]; simp) (by rw [hh]; simp), hh]
      rfl
    rw [h1]
    have h2 := (show ({ lr with history := [a] } : LineReader).history.getLast? = some a
      from rfl)
    unfold LineReader.remember
    simp [hne a ha]
  · intro ha hb hab hh
    have h1 : lr.remember a = { lr with history := [a] } := by
      rw [happ lr a ha (by rw [hh]; simp) (by rw [hh]; simp), hh]
      rfl
    rw [h1]
    rw [happ _ b hb (by simp; exact hab) (by simp)]
    rfl

/-- C17 at concrete inputs: a repeated line, a new line, and a new line arriving at a
history of 800 entries. -/
theorem remember_spec_witness :
    demo_reader.remember "second".toList = demo_reader ∧
    (demo_reader.remember "third".toList).history
      = ["first".toList, "second".toList, "third".toList] ∧
    (({ demo_reader with history := List.replicate 800 "x".toList }).remember
        "y".toList).history = List.replicate 799 "x".toList ++ ["y".toList] ∧
    (({ demo_reader with history := [] }).remember "a".toList).remember "a".toList
      = { demo_reader with history := ["a".toList] } := by
  have t1 := (remember_spec demo_reader "second".toList "a".toList "b".toList).1
    (Or.inr rfl)
  have t2 := ((remember_spec demo_reader "third".toList "a".toList "b".toList).2.1
    (by decide) (by decide)).1 (by decide)
  have hlast : (List.replicate 800 "x".toList).getLast? ≠ some "y".toList := by
    rw [List.getLast?_replicate]; decide
  have hlen : (List.replicate 800 "x".toList).length = 800 := List.length_replicate _ _
  have t3 := ((remember_spec { demo_reader with history := List.replicate 800 "x".toList }
    "y".toList "a".toList "b".toList).2.1 (by decide) hlast).2 hlen
  refine ⟨t1, t2, ?_, by rfl⟩
  rw [t3.1]
  rfl

/-- C18: with history `h` and browse index `i` in `[0, |h|]`, the bytes ESC `[` lead to
the arrow branch, where Up (`A`) with `i > 0` sets the index to `i-1`, the buffer to
`h[i-1]` and the cursor to its length, and with `i = 0` changes nothing; Down (`B`)
with `i+1 < |h|` sets the index to `i+1`, the buffer to `h[i+1]` and the cursor to its
length, and otherwise gives index `|h|`, the empty buffer and cursor 0. After Up or Down
the index is again in `[0, |h|]`. -/
theorem history_navigation (lr : LineReader) (ls : Listing) (st : LineState) (i : Nat)
    (hi : st.hist_idx = (i : Int)) (hle : i ≤ lr.history.length) :
    lr.on_read ls Pending.key st (some ESC) = Progress.running Pending.esc1 st ∧
    lr.on_read ls Pending.esc1 st (some '[') = Progress.running Pending.esc2 st ∧
    (0 < i → ∃ e : Str, lr.history.get? (i - 1) = some e ∧
      lr.on_read ls Pending.esc2 st (some 'A')
        = Progress.running Pending.key
            { buf := e, cursor := e.length, hist_idx := (i : Int) - 1 }) ∧
    (i = 0 → lr.on_read ls Pending.esc2 st (some 'A') = Progress.running Pending.key st) ∧
    (i + 1 < lr.history.length → ∃ e : Str, lr.history.get? (i + 1) = some e ∧
      lr.on_read ls Pending.esc2 st (some 'B')
        = Progress.running Pending.key
            { buf := e, cursor := e.length, hist_idx := (i : Int) + 1 }) ∧
    (¬ (i + 1 < lr.history.length) →
      lr.on_read ls Pending.esc2 st (some 'B')
        = Progress.running Pending.key
            { buf := [], cursor := 0, hist_idx := (lr.history.length : Int) }) ∧
    (∀ (k : Char) (st1 : LineState), k = 'A' ∨ k = 'B' →
      lr.on_read ls Pending.esc2 st (some k) = Progress.running Pending.key st1 →
      0 ≤ st1.hist_idx ∧ st1.hist_idx ≤ (lr.history.length : Int)) := by
  have hup_pos : 0 < i → lr.on_read ls Pending.esc2 st (some 'A')
      = Progress.running Pending.key
          { buf := lr.history.getD (i - 1) [], cursor := (lr.history.getD (i - 1) []).length,
            hist_idx := (i : Int) - 1 } := by
    intro hpos
    have h1 : (i : Int) > 0 := by omega
    have h2 : ((i : Int) - 1).toNat = i - 1 := by omega
    simp only [LineReader.on_read, arrow_step, if_true, hi, if_pos h1, h2]
  have hup_zero : i = 0 → lr.on_read ls Pending.esc2 st (some 'A')
      = Progress.running Pending.key st := by
    intro h0
    have h1 : ¬ st.hist_idx > 0 := by omega
    simp only [LineReader.on_read, arrow_step, if_true, if_neg h1]
  have hBA : ('B' : Char) ≠ 'A' := by decide
  have hdown_in : i + 1 < lr.history.length → lr.on_read ls Pending.esc2 st (some 'B')
      = Progress.running Pending.key
          { buf := lr.history.getD (i + 1) [], cursor := (lr.history.getD (i + 1) []).length,
            hist_idx := (i : Int) + 1 } := by
    intro hlt
    have h1 : (i : Int) < (lr.history.length : Int) - 1 := by omega
    have h2 : ((i : Int) + 1).toNat = i + 1 := by omega
    simp only [LineReader.on_read, arrow_step, if_neg hBA, if_true, hi, if_pos h1, h2]
  have hdown_out : ¬ (i + 1 < lr.history.length) → lr.on_read ls Pending.esc2 st (some 'B')
      = Progress.running Pending.key
          { buf := [], cursor := 0, hist_idx := (lr.history.length : Int) } := by
    intro hge
    have h1 : ¬ st.hist_idx < (lr.history.length : Int) - 1 := by omega
    simp only [LineReader.on_read, arrow_step, if_neg hBA, if_true, if_neg h1]
  have hEsc : lr.on_read ls Pending.key st (some ESC) = Progress.running Pending.esc1 st := by
    have a1 : ESC ≠ CR := by decide
    have a2 : ESC ≠ NL := by decide
    have a3 : ESC ≠ DEL := by decide
    have a4 : ESC ≠ BS := by decide
    have a5 : ESC ≠ TAB := by decide
    simp [LineReader.on_read, a1, a2, a3, a4, a5]
  refine ⟨hEsc, by simp [LineReader.on_read], ?_, hup_zero, ?_, hdown_out, ?_⟩
  · intro hpos
    have hlt : i - 1 < lr.history.length := by omega
    refine ⟨lr.history[i - 1], ?_, ?_⟩
    · rw [List.get?_eq_getElem?, List.getElem?_eq_getElem hlt]
    · rw [hup_pos hpos, List.getD_eq_getElem _ _ hlt]
  · intro hlt
    refine ⟨lr.history[i + 1], ?_, ?_⟩
    · rw [List.get?_eq_getElem?, List.getElem?_eq_getElem hlt]
    · rw [hdown_in hlt, List.getD_eq_getElem _ _ hlt]
  · intro k st1 hk hstep
    rcases hk with hk | hk <;> subst hk
    · by_cases hpos : 0 < i
      · rw [hup_pos hpos] at hstep
        cases hstep
        show (0 : Int) ≤ (i : Int) - 1 ∧ (i : Int) - 1 ≤ (lr.history.length : Int)
        omega
      · rw [hup_zero (by omega)] at hstep
        cases hstep
        rw [hi]
        omega
    · by_cases hlt : i + 1 < lr.history.length
      · rw [hdown_in hlt] at hstep
        cases hstep
        show (0 : Int) ≤ (i : Int) + 1 ∧ (i : Int) + 1 ≤ (lr.history.length : Int)
        omega
      · rw [hdown_out hlt] at hstep
        cases hstep
        show (0 : Int) ≤ (lr.history.length : Int) ∧
          (lr.history.length : Int) ≤ (lr.history.length : Int)
        omega

/-- C18 at concrete inputs: with the history `first`, `second` and index 2 (the fresh
line), Up recalls `second`; from index 1, Down gives the empty fresh line again. -/
theorem history_navigation_witness :
    demo_reader.on_read demo_listing Pending.esc2
        { buf := "x".toList, cursor := 1, hist_idx := 2 } (some 'A')
      = Progress.running Pending.key
          { buf := "second".toList, cursor := 6, hist_idx := 1 } ∧
    demo_reader.on_read demo_listing Pending.esc2
        { buf := "second".toList, cursor := 6, hist_idx := 1 } (some 'B')
      = Progress.running Pending.key { buf := [], cursor := 0, hist_idx := 2 } := by
  obtain ⟨e, he, hstep⟩ := (history_navigation demo_reader demo_listing
    { buf := "x".toList, cursor := 1, hist_idx := 2 } 2 rfl (by decide)).2.2.1 (by decide)
  have hdown := (history_navigation demo_reader demo_listing
    { buf := "second".toList, cursor := 6, hist_idx := 1 } 1 rfl (by decide)).2.2.2.2.2.1
      (by decide)
  refine ⟨?_, hdown⟩
  have he1 : e = "second".toList := by
    have : demo_reader.history.get? (2 - 1) = some "second".toList := rfl
    rw [this] at he
    exact (Option.some.inj he).symm
  rw [hstep, he1]
  rfl

/-! ## End of input -/

/-- Without an Enter byte among the read outcomes the loop never returns the buffer. -/
theorem LineReader.read_loop_no_enter (lr : LineReader) (ls : Listing)
    (keys : List (Option Char)) :
    ∀ (p : Pending) (st : LineState),
      (∀ r ∈ keys, r ≠ some CR ∧ r ≠ some NL) → lr.read_loop ls p st keys = [] := by
  induction keys with
  | nil => intro p st _; rfl
  | cons r more ih =>
    intro p st h
    have hr := h r (List.mem_cons_self r more)
    have hmore : ∀ x ∈ more, x ≠ some CR ∧ x ≠ some NL :=
      fun x hx => h x (List.mem_cons_of_mem r hx)
    unfold LineReader.read_loop
    cases hstep : lr.on_read ls p st r with
    | running p1 st1 => exact ih p1 st1 hmore
    | returned x =>
      show x = []
      unfold LineReader.on_read at hstep
      cases p <;> cases r <;> simp only at hstep
      · cases hstep; rfl
      · rename_i c
        have hc1 : c ≠ CR := fun hc => hr.1 (by rw [hc])
        have hc2 : c ≠ NL := fun hc => hr.2 (by rw [hc])
        have hne : ¬ (c = CR ∨ c = NL) := fun hc => hc.elim hc1 hc2
        rw [if_neg hne] at hstep
        repeat' split at hstep
        all_goals cases hstep
      · cases hstep
      · split at hstep <;> cases hstep
      · cases hstep
      · cases hstep

/-- C15, as amended: on a terminal, for every sequence of read outcomes without an
Enter byte (CR or LF), `LineReader::read` returns the empty string, whatever was typed;
when standard input is not a terminal and ends before a newline, it returns the bytes
read up to the end of input, so the empty string only when none was left (or when
`std::cin` had already failed). -/
theorem eof_returns_empty_amended (lr : LineReader) (ls : Listing) (con : Console)
    (mode : Termios) (cin : IStream) :
    (con.tty = true → (∀ r ∈ con.keys, r ≠ some CR ∧ r ≠ some NL) →
      (lr.read ls con mode cin).line = []) ∧
    (con.tty = false → cin.good = true → NL ∉ cin.rest →
      (lr.read ls con mode cin).line = cin.rest) ∧
    (con.tty = false → cin.good = false → (lr.read ls con mode cin).line = []) := by
  refine ⟨?_, ?_, ?_⟩
  · intro htty hkeys
    unfold LineReader.read
    simp only [htty, Bool.not_true, Bool.false_eq_true, if_false]
    exact lr.read_loop_no_enter ls con.keys _ _ hkeys
  · intro htty hgood hnl
    unfold LineReader.read
    simp only [htty, Bool.not_false, if_true]
    have htake : cin.rest.takeWhile (fun c => c != NL) = cin.rest := by
      rw [List.takeWhile_eq_self_iff]
      intro c hc
      have : c ≠ NL := fun h => hnl (h ▸ hc)
      simpa using this
    have hdrop : cin.rest.dropWhile (fun c => c != NL) = [] := by
      rw [List.dropWhile_eq_nil_iff]
      intro c hc
      have : c ≠ NL := fun h => hnl (h ▸ hc)
      simpa using this
    have hg : (!cin.good) = false := by simp [hgood]
    simp only [IStream.getline, hg, Bool.false_eq_true, if_false, htake, hdrop]
    cases hrest : cin.rest with
    | nil => simp
    | cons c cs => simp
  · intro htty hbad
    unfold LineReader.read
    simp only [htty, Bool.not_false, if_true]
    have hg : (!cin.good) = true := by simp [hbad]
    simp [IStream.getline, hg]

/-- C15 as amended, at concrete inputs: `abc` typed on a terminal that then reaches its
end gives the empty string; `abc` piped without a newline gives `abc`. -/
theorem eof_returns_empty_amended_witness :
    (demo_reader.read demo_listing
        { demo_console with keys := [some 'a', some 'b', some 'c'] } cooked
        (IStream.ofStr [])).line = [] ∧
    (demo_reader.read demo_listing piped_console cooked (IStream.ofStr "abc".toList)).line
      = "abc".toList ∧
    (demo_reader.read demo_listing piped_console cooked (IStream.ofStr [])).line = [] :=
  ⟨(eof_returns_empty_amended demo_reader demo_listing
      { demo_console with keys := [some 'a', some 'b', some 'c'] } cooked
      (IStream.ofStr [])).1 rfl (by decide),
   (eof_returns_empty_amended demo_reader demo_listing piped_console cooked
      (IStream.ofStr "abc".toList)).2.1 rfl rfl (by decide),
   (eof_returns_empty_amended demo_reader demo_listing piped_console cooked
      (IStream.ofStr [])).2.1 rfl rfl (by decide)⟩

/-- C15, the claim as stated fails: standard input that is not a terminal and holds
the three bytes `abc`, with no Enter byte (neither CR nor LF) before its end, makes
`LineReader::read` return `abc`, not the empty string. -/
theorem eof_returns_empty_counterexample :
    CR ∉ "abc".toList ∧ NL ∉ "abc".toList ∧
    (demo_reader.read demo_listing piped_console cooked (IStream.ofStr "abc".toList)).line
      = "abc".toList ∧
    (demo_reader.read demo_listing piped_console cooked (IStream.ofStr "abc".toList)).line
      ≠ [] := by
  refine ⟨by decide, by decide, by rfl, ?_⟩
  decide

/-! ## Completion -/

theorem split_words_from_ws (buf : Str) (h : ∀ c ∈ buf, isspace c = true) :
    split_words_from [] buf = [] := by
  induction buf with
  | nil => rfl
  | cons c cs ih =>
    have hc := h c (List.mem_cons_self c cs)
    have hcs : ∀ x ∈ cs, isspace x = true := fun x hx => h x (List.mem_cons_of_mem c hx)
    simp [split_words_from, hc, ih hcs]

theorem split_words_from_lead (lead t : Str) (h : ∀ c ∈ lead, isspace c = true) :
    split_words_from [] (lead ++ t) = split_words_from [] t := by
  induction lead with
  | nil => rfl
  | cons c cs ih =>
    have hc := h c (List.mem_cons_self c cs)
    have hcs : ∀ x ∈ cs, isspace x = true := fun x hx => h x (List.mem_cons_of_mem c hx)
    show split_words_from [] (c :: (cs ++ t)) = _
    simp [split_words_from, hc, ih hcs]

theorem split_words_from_token (t : Str) :
    ∀ cur : Str, (∀ c ∈ t, isspace c = false) → (cur ≠ [] ∨ t ≠ []) →
      split_words_from cur t = [cur.reverse ++ t] := by
  induction t with
  | nil =>
    intro cur _ hne
    have hcur : cur ≠ [] := by
      rcases hne with h | h
      · exact h
      · exact absurd rfl h
    have : cur.isEmpty = false := by
      cases cur with
      | nil => exact absurd rfl hcur
      | cons a as => rfl
    simp [split_words_from, this]
  | cons c cs ih =>
    intro cur h _
    have hc := h c (List.mem_cons_self c cs)
    have hcs : ∀ x ∈ cs, isspace x = false := fun x hx => h x (List.mem_cons_of_mem c hx)
    have hstep := ih (c :: cur) hcs (Or.inl (List.cons_ne_nil c cur))
    simp [split_words_from, hc, hstep]

/-- The test `c.rfind(pref,0)==0` holds exactly when `c` begins with `pref`. -/
theorem starts_with_iff (t c : Str) : starts_with t c = true ↔ ∃ r : Str, c = t ++ r := by
  unfold starts_with
  constructor
  · intro h
    have h1 : c.take t.length = t := by simpa using h
    refine ⟨c.drop t.length, ?_⟩
    conv_lhs => rw [← List.take_append_drop t.length c]
    rw [h1]
  · rintro ⟨r, hr⟩
    rw [hr]
    simp

/-- C20: for a buffer with no token (empty or only white space) `complete` returns
the full list of command names; for a buffer that is one token `t` with nothing after
it, `complete` returns, in the order of the command list, exactly the command names
that begin with `t`: every name returned begins with `t`, and every command name that
begins with `t` is returned. -/
theorem command_completion (lr : LineReader) (ls : Listing) (buf : Str) :
    ((∀ c ∈ buf, isspace c = true) → lr.complete ls buf = lr.commands) ∧
    (∀ lead t : Str, buf = lead ++ t → (∀ c ∈ lead, isspace c = true) → t ≠ [] →
      (∀ c ∈ t, isspace c = false) →
      lr.complete ls buf = lr.commands.filter (fun c => starts_with t c) ∧
      ∀ c : Str, c ∈ lr.complete ls buf ↔ (c ∈ lr.commands ∧ ∃ r : Str, c = t ++ r)) := by
  constructor
  · intro h
    unfold LineReader.complete
    simp [split_words, split_words_from_ws buf h]
  · intro lead t hbuf hlead hne ht
    have htoks : split_words buf = [t] := by
      unfold split_words
      rw [hbuf, split_words_from_lead lead t hlead,
        split_words_from_token t [] ht (Or.inr hne)]
      rfl
    have hlast : buf.getLast? = t.getLast? := by
      rw [hbuf]
      exact List.getLast?_append_of_ne_nil lead hne
    have hfresh : (match buf.getLast? with
        | some c => isspace c
        | none => false) = false := by
      rw [hlast]
      cases hl : t.getLast? with
      | none => rfl
      | some c => exact ht c (List.mem_of_getLast?_eq_some hl)
    have hres : lr.complete ls buf = lr.commands.filter (fun c => starts_with t c) := by
      unfold LineReader.complete
      simp [htoks, hfresh]
    refine ⟨hres, ?_⟩
    intro c
    rw [hres, List.mem_filter, starts_with_iff]

/-- C20 at concrete inputs, with the command names of the editor: two spaces give all
the names, `he` gives `help`, and `re` (after a space) gives the names that begin with
`re`, in the order of the list. -/
theorem command_completion_witness :
    demo_reader.complete demo_listing "  ".toList = editor_commands ∧
    demo_reader.complete demo_listing "he".toList = ["help".toList] ∧
    demo_reader.complete demo_listing " re".toList
      = ["repl".toList, "replg".toList, "read".toList, "redo".toList,
         "reload-plugins".toList] := by
  have t1 := (command_completion demo_reader demo_listing "  ".toList).1 (by decide)
  have t2 := ((command_completion demo_reader demo_listing "he".toList).2 []
    "he".toList rfl (by decide) (by decide) (by decide)).1
  have t3 := ((command_completion demo_reader demo_listing " re".toList).2 " ".toList
    "re".toList rfl (by decide) (by decide) (by decide)).1
  refine ⟨t1, ?_, ?_⟩
  · rw [t2]; rfl
  · rw [t3]; rfl

/-- The Tab branch hands the candidates of `complete(buf)` to the replacement step. -/
theorem on_read_tab (lr : LineReader) (ls : Listing) (st : LineState) :
    lr.on_read ls Pending.key st (some TAB)
      = Progress.running Pending.key (tab_step (lr.complete ls st.buf) st) := by
  have a1 : TAB ≠ CR := by decide
  have a2 : TAB ≠ NL := by decide
  have a3 : TAB ≠ DEL := by decide
  have a4 : TAB ≠ BS := by decide
  simp [LineReader.on_read, a1, a2, a3, a4]

/-- What Tab does with no candidate and with one: nothing, and the buffer up to and
including its last space byte (0x20) followed by the candidate, cursor at the end. -/
theorem tab_step_cases (st : LineState) (c : Str) :
    tab_step [] st = st ∧
    (tab_step [c] st).buf =
      (match find_last_of ' ' st.buf with
        | none => []
        | some k => st.buf.take (k + 1)) ++ c ∧
    (tab_step [c] st).cursor = (tab_step [c] st).buf.length ∧
    (tab_step [c] st).hist_idx = st.hist_idx :=
  ⟨rfl, rfl, rfl, rfl⟩

/-- C19, the code at the failing input: in the directory of `demo_listing`, with the
buffer `open`, `\v`, `RE` (two tokens for `complete`, which finds the one candidate
`README`), Tab makes the buffer `README`: the text before the last token is lost,
where replacing the last white-space-delimited token gives `open`, `\v`, `README`. -/
theorem tab_drops_text_before_token :
    split_words ("open".toList ++ VT :: "RE".toList) = ["open".toList, "RE".toList] ∧
    demo_reader.complete demo_listing ("open".toList ++ VT :: "RE".toList)
      = ["README".toList] ∧
    demo_reader.on_read demo_listing Pending.key
        { buf := "open".toList ++ VT :: "RE".toList, cursor := 7, hist_idx := 2 } (some TAB)
      = Progress.running Pending.key
          { buf := "README".toList, cursor := 6, hist_idx := 2 } ∧
    replace_last_token ("open".toList ++ VT :: "RE".toList) "README".toList
      = "open".toList ++ VT :: "README".toList ∧
    "README".toList ≠ "open".toList ++ VT :: "README".toList := by
  refine ⟨by rfl, by rfl, by rfl, by rfl, by decide⟩

/-! ## Candidate order (C21, C22) -/

/-- The order on strings is total. -/
theorem str_le_total : ∀ a b : Str, str_le a b = false → str_le b a = true := by
  intro a
  induction a with
  | nil => intro b h; simp [str_le] at h
  | cons x xs ih =>
    intro b h
    cases b with
    | nil => simp [str_le]
    | cons y ys =>
      simp only [str_le] at h ⊢
      by_cases h1 : x.toNat < y.toNat
      · simp [h1] at h
      · by_cases h2 : y.toNat < x.toNat
        · simp [h2]
        · simp only [h1, h2, if_false] at h ⊢
          exact ih ys h

/-- The order on strings is transitive. -/
theorem str_le_trans : ∀ a b c : Str, str_le a b = true → str_le b c = true →
    str_le a c = true := by
  intro a
  induction a with
  | nil => intro b c _ _; simp [str_le]
  | cons x xs ih =>
    intro b c hab hbc
    cases b with
    | nil => simp [str_le] at hab
    | cons y ys =>
      cases c with
      | nil => simp [str_le] at hbc
      | cons z zs =>
        simp only [str_le] at hab hbc ⊢
        by_cases h1 : x.toNat < y.toNat
        · by_cases h3 : y.toNat < z.toNat
          · have : x.toNat < z.toNat := by omega
            simp [this]
          · by_cases h4 : z.toNat < y.toNat
            · simp [h3, h4] at hbc
            · have : x.toNat < z.toNat := by omega
              simp [this]
        · by_cases h2 : y.toNat < x.toNat
          · simp [h1, h2] at hab
          · simp only [h1, h2, if_false] at hab
            by_cases h3 : y.toNat < z.toNat
            · have : x.toNat < z.toNat := by omega
              simp [this]
            · by_cases h4 : z.toNat < y.toNat
              · simp [h3, h4] at hbc
              · simp only [h3, h4, if_false] at hbc
                have h5 : ¬ x.toNat < z.toNat := by omega
                have h6 : ¬ z.toNat < x.toNat := by omega
                simp only [h5, h6, if_false]
                exact ih ys zs hab hbc

/-- Insertion keeps the elements. -/
theorem insert_sorted_perm (x : Str) : ∀ l : List Str, (insert_sorted x l).Perm (x :: l) := by
  intro l
  induction l with
  | nil => exact List.Perm.refl _
  | cons y ys ih =>
    simp only [insert_sorted]
    split
    · exact List.Perm.refl _
    · exact (List.Perm.cons y ih).trans (List.Perm.swap x y ys)

/-- Insertion into a sorted list gives a sorted list. -/
theorem insert_sorted_sorted (x : Str) : ∀ l : List Str, sorted_strings l →
    sorted_strings (insert_sorted x l) := by
  intro l
  induction l with
  | nil => intro _; simp [insert_sorted, sorted_strings]
  | cons y ys ih =>
    intro h
    unfold sorted_strings at h ih ⊢
    rw [List.pairwise_cons] at h
    simp only [insert_sorted]
    by_cases hxy : str_le x y = true
    · rw [if_pos hxy, List.pairwise_cons]
      refine ⟨?_, List.pairwise_cons.2 h⟩
      intro z hz
      rcases List.mem_cons.1 hz with hz | hz
      · rw [hz]; exact hxy
      · exact str_le_trans x y z hxy (h.1 z hz)
    · rw [if_neg hxy, List.pairwise_cons]
      refine ⟨?_, ih h.2⟩
      intro z hz
      rcases List.mem_cons.1 ((insert_sorted_perm x ys).subset hz) with hz | hz
      · rw [hz]; exact str_le_total x y (by simpa using hxy)
      · exact h.1 z hz

/-- What `std::sort` leaves is sorted. -/
theorem sort_strings_sorted (l : List Str) : sorted_strings (sort_strings l) := by
  induction l with
  | nil => simp [sort_strings, sorted_strings]
  | cons x xs ih => exact insert_sorted_sorted x _ ih

/-- What `std::sort` leaves holds the same elements, each as often as before. -/
theorem sort_strings_perm (l : List Str) : (sort_strings l).Perm l := by
  induction l with
  | nil => exact List.Perm.refl _
  | cons x xs ih => exact (insert_sorted_perm x _).trans (List.Perm.cons x ih)

/-- The candidates of `complete_dirs_only` are sorted. -/
theorem complete_dirs_only_sorted (ls : Listing) (t : Str) :
    sorted_strings (complete_dirs_only ls t) := sort_strings_sorted _

/-- The candidates of `complete_fs` are sorted. -/
theorem complete_fs_sorted (ls : Listing) (t : Str) :
    sorted_strings (complete_fs ls t) := sort_strings_sorted _

/-- Outside the command-name context `complete` returns what one of the two directory
completions returns. -/
theorem complete_path_context (lr : LineReader) (ls : Listing) (buf : Str)
    (h0 : (split_words buf).isEmpty = false)
    (h1 : ¬ ((split_words buf).length = 1 ∧ (!(!buf.isEmpty && (match buf.getLast? with
      | some c => isspace c
      | none => false))) = true)) :
    ∃ t, lr.complete ls buf = complete_dirs_only ls t ∨ lr.complete ls buf = complete_fs ls t := by
  unfold LineReader.complete
  simp only [h0, Bool.false_eq_true, if_false]
  split
  · next h => exact absurd h h1
  · split
    · split
      · exact ⟨_, Or.inl rfl⟩
      · exact ⟨_, Or.inl rfl⟩
    · exact ⟨_, Or.inr rfl⟩

/-- C21, the code at an input where the claim fails: on the empty buffer `complete`
returns the editor's command list as it was built, `help` first, then `open`, then
`info`, which is not in lexicographic order (`open` sorts after `info`). -/
theorem complete_commands_unsorted :
    demo_reader.complete demo_listing [] = editor_commands ∧
    ¬ sorted_strings (demo_reader.complete demo_listing []) ∧
    demo_reader.complete demo_listing "re".toList
      = ["repl", "replg", "read", "redo", "reload-plugins"].map String.toList ∧
    ¬ sorted_strings (demo_reader.complete demo_listing "re".toList) := by
  refine ⟨by rfl, ?_, by rfl, ?_⟩
  · intro h
    have h1 : demo_reader.complete demo_listing [] = editor_commands := by rfl
    rw [h1] at h
    unfold sorted_strings editor_commands at h
    simp only [List.map_cons, List.pairwise_cons] at h
    have := h.2.1 "info".toList (by simp)
    revert this
    decide
  · intro h
    have h1 : demo_reader.complete demo_listing "re".toList
      = ["repl", "replg", "read", "redo", "reload-plugins"].map String.toList := by rfl
    rw [h1] at h
    unfold sorted_strings at h
    simp only [List.map_cons, List.pairwise_cons] at h
    have := h.1 "read".toList (by simp)
    revert this
    decide

/-- A buffer that ends in white space is "fresh" for `complete`. -/
theorem fresh_of_last (buf : Str) (c : Char) (h : buf.getLast? = some c)
    (hc : isspace c = true) :
    (!buf.isEmpty && (match buf.getLast? with
      | some c => isspace c
      | none => false)) = true := by
  rw [h]
  cases buf with
  | nil => simp at h
  | cons x xs => simpa using hc

/-- A `filterMap` that keeps the images of the elements passing a test. -/
theorem filterMap_ite {α β : Type} (p : α → Bool) (f : α → β) (l : List α) :
    l.filterMap (fun e => if p e = true then some (f e) else none) = (l.filter p).map f := by
  induction l with
  | nil => rfl
  | cons x xs ih =>
    by_cases hx : p x = true
    · simp [List.filterMap_cons, List.filter_cons, hx, ih]
    · simp [List.filterMap_cons, List.filter_cons, hx, ih]

/-- The loop of `complete_fs` keeps, for each entry whose name begins with `base`, its
name with the directory in front (unless that is `.`) and `/` behind for a directory. -/
theorem complete_fs_loop (dir base : Str) (l : List DirEntry) :
    l.filterMap (fun e =>
      if starts_with base e.name then
        let cand : Str := if dir = ['.'] then e.name else dir ++ ['/'] ++ e.name
        some (if e.is_dir then cand ++ ['/'] else cand)
      else none)
    = (l.filter (fun e => starts_with base e.name)).map
        (fun e => (if dir = ['.'] then [] else dir ++ ['/']) ++ e.name
          ++ (if e.is_dir then ['/'] else [])) := by
  rw [← filterMap_ite]
  apply List.filterMap_congr
  intro e _
  by_cases h1 : starts_with base e.name = true
  · simp only [h1, if_true]
    by_cases h2 : dir = ['.']
    · by_cases h3 : e.is_dir = true <;> simp [h2, h3]
    · by_cases h3 : e.is_dir = true <;> simp [h2, h3]
  · simp [h1]

/-- Source `complete_fs` as a sorted image of the matching entries. -/
theorem complete_fs_eq (ls : Listing) (t : Str) :
    complete_fs ls t =
      sort_strings (((ls.entries (match find_last_of '/' t with
          | some k => t.take k
          | none => ['.'])).filter
        (fun e => starts_with (match find_last_of '/' t with
          | some k => t.drop (k + 1)
          | none => t) e.name)).map
        (fun e => (if (match find_last_of '/' t with
            | some k => t.take k
            | none => ['.']) = ['.'] then [] else (match find_last_of '/' t with
            | some k => t.take k
            | none => ['.']) ++ ['/']) ++ e.name ++ (if e.is_dir then ['/'] else []))) := by
  unfold complete_fs
  exact congrArg sort_strings (complete_fs_loop _ _ _)

/-- C21 (amended): in a path context, that is for a buffer that holds a first word
followed by white space or by further words, the candidate list `complete` returns is
sorted lexicographically; in the command-name context (no word, or one word with
nothing after it) the candidates are command names in the order of the command list. -/
theorem complete_sorted_in_path_context (lr : LineReader) (ls : Listing) (buf : Str) :
    (∀ (first : Str) (rest : List Str), split_words buf = first :: rest →
      (rest ≠ [] ∨ ∃ c, buf.getLast? = some c ∧ isspace c = true) →
      sorted_strings (lr.complete ls buf)) ∧
    ((split_words buf = [] ∨
      ((split_words buf).length = 1 ∧ ∀ c, buf.getLast? = some c → isspace c = false)) →
      (lr.complete ls buf).Sublist lr.commands) := by
  constructor
  · intro first rest htoks hctx
    have h0 : (split_words buf).isEmpty = false := by rw [htoks]; rfl
    have h1 : ¬ ((split_words buf).length = 1 ∧ (!(!buf.isEmpty && (match buf.getLast? with
        | some c => isspace c
        | none => false))) = true) := by
      rintro ⟨hl, hf⟩
      rcases hctx with hr | ⟨c, hc, hs⟩
      · rw [htoks] at hl
        cases rest with
        | nil => exact hr rfl
        | cons y ys => simp at hl
      · rw [fresh_of_last buf c hc hs] at hf
        simp at hf
    obtain ⟨t, ht | ht⟩ := complete_path_context lr ls buf h0 h1
    · rw [ht]; exact complete_dirs_only_sorted ls t
    · rw [ht]; exact complete_fs_sorted ls t
  · intro h
    unfold LineReader.complete
    rcases h with h | ⟨hl, hf⟩
    · simp [h]
    · have h0 : (split_words buf).isEmpty = false := by
        cases hs : split_words buf with
        | nil => rw [hs] at hl; simp at hl
        | cons y ys => rfl
      simp only [h0, Bool.false_eq_true, if_false, hl, true_and]
      cases hb : buf.getLast? with
      | none => simp
      | some c => simp [hf c hb]

/-- C21 (amended) at concrete inputs: after `open` and a space, after `cd` and a
space, and after `open src/m` the candidates are sorted; after `re` they are names of
the command list in its order. -/
theorem complete_sorted_in_path_context_witness :
    sorted_strings (demo_reader.complete alpha_listing "open ".toList) ∧
    sorted_strings (demo_reader.complete alpha_listing "cd ".toList) ∧
    sorted_strings (demo_reader.complete alpha_listing "open src/m".toList) ∧
    (demo_reader.complete alpha_listing "re".toList).Sublist demo_reader.commands :=
  ⟨(complete_sorted_in_path_context demo_reader alpha_listing "open ".toList).1
      "open".toList [] (by rfl) (Or.inr ⟨' ', by rfl, by decide⟩),
   (complete_sorted_in_path_context demo_reader alpha_listing "cd ".toList).1
      "cd".toList [] (by rfl) (Or.inr ⟨' ', by rfl, by decide⟩),
   (complete_sorted_in_path_context demo_reader alpha_listing "open src/m".toList).1
      "open".toList ["src/m".toList] (by rfl) (Or.inl (by simp)),
   (complete_sorted_in_path_context demo_reader alpha_listing "re".toList).2
      (Or.inr ⟨by rfl, by intro c hc; cases hc; decide⟩)⟩

/-- C22, the code at an input where the claim fails: for the token `./al`, whose
directory part is `.`, the candidate is the bare name `alpha.txt`, not the name
prefixed by the directory part, `./alpha.txt`. -/
theorem path_completion_dot_counterexample :
    demo_reader.complete demo_listing "open ./al".toList = ["alpha.txt".toList] ∧
    path_candidates_as_specified demo_listing "./al".toList = ["./alpha.txt".toList] ∧
    demo_reader.complete demo_listing "open ./al".toList
      ≠ path_candidates_as_specified demo_listing "./al".toList := by
  refine ⟨by rfl, by rfl, ?_⟩
  have h1 : demo_reader.complete demo_listing "open ./al".toList = ["alpha.txt".toList] := by
    rfl
  have h2 : path_candidates_as_specified demo_listing "./al".toList
      = ["./alpha.txt".toList] := by rfl
  rw [h1, h2]
  decide

/-- C22 (amended): for a buffer whose first word is not `cd` and that ends in a
further word `t` whose last `/`, if it has one, is not its first byte, `complete`
returns, sorted lexicographically, exactly the entries of the directory part of `t`
(the text before its last `/`; the directory `.` if `t` has no `/`) whose name begins
with the last path segment of `t`, each followed by `/` when it is a directory and each
prefixed by the directory part and `/`, except that nothing is prefixed when the
directory part is `.` (also when `.` is written in the token). Whenever the directory
part written in the token is not `.`, this is the list the specification describes. -/
theorem path_completion (lr : LineReader) (ls : Listing) (buf first t : Str)
    (mid : List Str) (htoks : split_words buf = first :: (mid ++ [t]))
    (hcd : first ≠ "cd".toList)
    (hlast : ∀ c, buf.getLast? = some c → isspace c = false) :
    (find_last_of '/' t = none →
      lr.complete ls buf = sort_strings (((ls.entries ['.']).filter
        (fun e => starts_with t e.name)).map
        (fun e => e.name ++ (if e.is_dir then ['/'] else [])))) ∧
    (∀ k, find_last_of '/' t = some k → 0 < k →
      lr.complete ls buf = sort_strings (((ls.entries (t.take k)).filter
        (fun e => starts_with (t.drop (k + 1)) e.name)).map
        (fun e => (if t.take k = ['.'] then [] else t.take k ++ ['/']) ++ e.name
          ++ (if e.is_dir then ['/'] else [])))) ∧
    sorted_strings (lr.complete ls buf) ∧
    ((∀ k, find_last_of '/' t = some k → 0 < k ∧ t.take k ≠ ['.']) →
      lr.complete ls buf = path_candidates_as_specified ls t) := by
  have hc : lr.complete ls buf = complete_fs ls t := by
    unfold LineReader.complete
    have h0 : (split_words buf).isEmpty = false := by rw [htoks]; rfl
    have hl : (split_words buf).length ≠ 1 := by rw [htoks]; simp
    have hh : (split_words buf).headD [] = first := by rw [htoks]; rfl
    have hg : (split_words buf).getLastD [] = t := by
      rw [htoks, ← List.cons_append, List.getLastD_eq_getLast?,
        List.getLast?_append_of_ne_nil _ (by simp)]
      rfl
    simp only [h0, Bool.false_eq_true, if_false, hl, false_and, hh, hcd, hg]
    cases hb : buf.getLast? with
    | none => simp
    | some c => simp [hlast c hb]
  rw [hc]
  refine ⟨?_, ?_, complete_fs_sorted ls t, ?_⟩
  · intro h
    rw [complete_fs_eq, h]
    simp
  · intro k h _
    rw [complete_fs_eq, h]
  · intro h
    rw [complete_fs_eq]
    unfold path_candidates_as_specified
    cases hk : find_last_of '/' t with
    | none => simp
    | some k =>
      have hk0 : k ≠ 0 := Nat.pos_iff_ne_zero.1 (h k hk).1
      simp [(h k hk).2, hk0]

/-- C22 (amended) at concrete inputs: with the files `alphabet.txt`, `beta` and
`alpha.txt` in the working directory and the buffer `open alp` the candidates are
`alpha.txt`, `alphabet.txt`; with the buffer `open src/m` they are `src/main.cpp` and
`src/mod/`. -/
theorem path_completion_witness :
    demo_reader.complete alpha_listing "open alp".toList
      = ["alpha.txt".toList, "alphabet.txt".toList] ∧
    demo_reader.complete alpha_listing "open src/m".toList
      = ["src/main.cpp".toList, "src/mod/".toList] ∧
    demo_reader.complete alpha_listing "open src/m".toList
      = path_candidates_as_specified alpha_listing "src/m".toList := by
  have a := path_completion demo_reader alpha_listing "open alp".toList "open".toList
    "alp".toList [] (by rfl) (by decide) (by intro c hc; cases hc; decide)
  have b := path_completion demo_reader alpha_listing "open src/m".toList "open".toList
    "src/m".toList [] (by rfl) (by decide) (by intro c hc; cases hc; decide)
  refine ⟨(a.1 (by rfl)).trans (by rfl), (b.2.1 3 (by rfl) (by decide)).trans (by rfl),
    b.2.2.2 ?_⟩
  intro k hk
  have h3 : find_last_of '/' "src/m".toList = some 3 := by rfl
  rw [h3] at hk
  cases hk
  decide

/-- The code on a token whose last `/` is its first byte: for `/et` the directory
`complete_fs` lists is `token.substr(0, 0)`, the empty path, which names no directory,
so no candidate is found although the root directory holds `etc`. -/
theorem complete_fs_lists_empty_path :
    find_last_of '/' "/et".toList = some 0 ∧
    demo_reader.complete root_listing "open /et".toList = [] ∧
    path_candidates_as_specified root_listing "/et".toList = ["/etc/".toList] := by
  refine ⟨by rfl, by rfl, by rfl⟩

/-! ## Persisted aliases (C23) -/

/-- C23, the code at the failing input: for the alias map that holds `dd` with the
expansion `delete 1-$`, `save_config` writes the line `alias`, tab, `dd`, tab,
`delete 1-$`; in `load_config` the search `line.find(TAB, 6)` starts behind the tab
that follows `alias`, so it finds the tab that ends the name, takes the expansion for
the name, and the map read back holds `delete 1-$` with an empty expansion and no
entry `dd`. -/
theorem load_config_drops_alias_name :
    alias_lines dd_alias = "alias\tdd\tdelete 1-$\n".toList ∧
    find_char_from TAB 6 "alias\tdd\tdelete 1-$".toList = some 8 ∧
    find_char_from TAB 9 "alias\tdd\tdelete 1-$".toList = none ∧
    (load_config (alias_lines dd_alias) Editor.init).aliases
      = [("delete 1-$".toList, [])] ∧
    (load_config (alias_lines dd_alias) Editor.init).aliases ≠ dd_alias ∧
    (load_config (alias_lines dd_alias) Editor.init).aliases.lookup "dd".toList = none := by
  refine ⟨by rfl, by rfl, by rfl, by rfl, ?_, by rfl⟩
  have h : (load_config (alias_lines dd_alias) Editor.init).aliases
      = [("delete 1-$".toList, [])] := by rfl
  rw [h]
  decide

/-! ## Ranged write (C25) -/

/-- C25, the code at the failing input: on the three-line buffer `one`, `two`,
`three` the command `write 1-2 out` is taken by the branch `write|w`, which saves the
whole buffer under the name `1-2 out`: afterwards that file holds all three lines, no
file `out` exists, and the buffer carries the path `1-2 out` with its dirty flag
cleared. The branch for `write [range] <path>` further down, which is never reached,
would have left the two lines `one`, `two` in `out` and the buffer as it was. -/
theorem write_range_saves_whole_buffer :
    (handle demo_env "write 1-2 out".toList three_line_editor demo_world).map
        (fun o => (o.world.fs "1-2 out".toList, o.world.fs "out".toList, o.ed.buf.path,
          o.ed.buf.dirty, o.keep))
      = some (some { mode := 420, data := "one\ntwo\nthree\n".toList }, none,
          "1-2 out".toList, false, true) ∧
    three_line_editor.buf.path = [] ∧ three_line_editor.buf.dirty = true ∧
    (cmd_write_range demo_env "1-2 out".toList three_line_editor demo_world).world.fs
        "out".toList = some { mode := 420, data := "one\ntwo\n".toList } ∧
    (cmd_write_range demo_env "1-2 out".toList three_line_editor demo_world).ed
      = three_line_editor := by
  refine ⟨by rfl, by rfl, by rfl, by rfl, by rfl⟩

/-! ## Match navigation (C26) -/

/-- C26, the code at the failing input: the command word is lower-cased before it is
compared, so `N` runs the branch of `n`. With matches on lines 1, 3 and 5 and the last
index 3, the command `N` moves to line 5, the next match, where the previous match is
line 1, which is what `next_match(true)` computes. -/
theorem upper_n_moves_to_next_match :
    search_plain_allhits search_editor.buf search_editor.last_search
      search_editor.last_icase = [1, 3, 5] ∧
    search_editor.last_index = 3 ∧
    (handle demo_env "n".toList search_editor demo_world).map (fun o => o.ed.last_index)
      = some 5 ∧
    (handle demo_env "N".toList search_editor demo_world).map (fun o => o.ed.last_index)
      = some 5 ∧
    (search_editor.next_match true).last_index = 1 ∧
    (∀ (env : Env) (rest : Str) (e : Editor) (w : World),
      (handle_cmd env (lower "N".toList) rest e w).map (fun o => o.ed)
        = some (e.next_match false)) := by
  refine ⟨by rfl, by rfl, by rfl, by rfl, by rfl, ?_⟩
  intro env rest e w
  rfl

/-! ## Buffer cycling (C28) -/

/-- C28, the code at the failing input: with the active buffer `A` and the other
buffers `B`, `C`, `bnext` makes `C` active and leaves `A`, `B`; `bprev` then makes `B`
active and leaves `C`, `A`, where the state before `bnext` had `A` active and `B`, `C`
as the others. On every state `bprev` computes what `bnext` computes, so it is its
inverse only where `bnext` is its own inverse. -/
theorem bprev_repeats_bnext :
    (three_buffers.bnext.buf.path, three_buffers.bnext.others.map (fun b => b.path))
      = ("C".toList, ["A".toList, "B".toList]) ∧
    (three_buffers.bnext.bprev.buf.path,
       three_buffers.bnext.bprev.others.map (fun b => b.path))
      = ("B".toList, ["C".toList, "A".toList]) ∧
    three_buffers.bnext.bprev ≠ three_buffers ∧
    (∀ e : Editor, e.bprev = e.bnext) := by
  refine ⟨by rfl, by rfl, by decide, ?_⟩
  intro e
  unfold Editor.bprev Editor.bnext
  cases h : e.others with
  | nil => rfl
  | cons b bs =>
    simp only [List.isEmpty_cons, Bool.false_eq_true, if_false]
    have h1 : (e.buf :: b :: bs).getLastD e.buf = (b :: bs).getLastD e.buf := by
      simp [List.getLastD_eq_getLast?, List.getLast?_cons_cons]
    have h2 : (e.buf :: b :: bs).dropLast = e.buf :: (b :: bs).dropLast := by
      simp [List.dropLast]
    rw [h1, h2]

/-! ## Recovery snapshot (C24) -/

/-- Applying `getline` to a line without newline, a newline and more text delivers the
line first. -/
theorem getlines_from_line (l : Str) (h : NL ∉ l) : ∀ (cur rest : Str),
    getlines_from cur (l ++ NL :: rest) = (cur.reverse ++ l) :: getlines_from [] rest := by
  induction l with
  | nil =>
    intro cur rest
    simp [getlines_from]
  | cons c cs ih =>
    intro cur rest
    have hc : c ≠ NL := fun hn => h (by rw [hn]; exact List.mem_cons_self _ _)
    have hcs : NL ∉ cs := fun hn => h (List.mem_cons_of_mem _ hn)
    rw [List.cons_append]
    simp only [getlines_from, hc, if_false]
    rw [ih hcs]
    simp

/-- Reading with `getline` the text "each line followed by a newline" gives the lines
back when no line holds a newline. -/
theorem getlines_from_text (ls : List Str) (h : ∀ l ∈ ls, NL ∉ l) :
    getlines_from [] ((ls.map (fun L => L ++ [NL])).flatten) = ls := by
  induction ls with
  | nil => rfl
  | cons l rest ih =>
    have h1 : NL ∉ l := h l (List.mem_cons_self _ _)
    have h2 : ∀ x ∈ rest, NL ∉ x := fun x hx => h x (List.mem_cons_of_mem _ hx)
    simp only [List.map_cons, List.flatten_cons, List.append_assoc, List.singleton_append]
    rw [getlines_from_line l h1, ih h2]
    rfl

/-- Source `rstrip_newline` leaves a line alone that does not end in `\n` or `\r`. -/
theorem rstrip_newline_id (l : Str) (h1 : l.getLast? ≠ some NL) (h2 : l.getLast? ≠ some CR) :
    rstrip_newline l = l := by
  unfold rstrip_newline
  rcases List.eq_nil_or_concat l with h | ⟨xs, c, h⟩
  · rw [h]; rfl
  · rw [h, List.concat_eq_append] at h1 h2 ⊢
    rw [List.getLast?_concat] at h1 h2
    have c1 : c ≠ NL := fun hc => h1 (by rw [hc])
    have c2 : c ≠ CR := fun hc => h2 (by rw [hc])
    have n1 : c.toNat ≠ 10 := fun hc => c1 (by rw [← Char.ofNat_toNat c, hc]; rfl)
    have n2 : c.toNat ≠ 13 := fun hc => c2 (by rw [← Char.ofNat_toNat c, hc]; rfl)
    simp [List.dropWhile_cons, n1, n2]

/-- Reading back the snapshot text gives the lines of the document when no line holds a
newline or ends in a carriage return. -/
theorem read_lines_autosave_text (ls : List Str) (h : ∀ l ∈ ls, NL ∉ l ∧ l.getLast? ≠ some CR) :
    read_lines ((ls.map (fun L => L ++ [NL])).flatten) = ls := by
  unfold read_lines
  rw [getlines_from_text ls (fun l hl => (h l hl).1)]
  conv_rhs => rw [← List.map_id ls]
  apply List.map_congr_left
  intro l hl
  refine rstrip_newline_id l ?_ (h l hl).2
  intro hn
  exact (h l hl).1 (List.mem_of_getLast?_eq_some hn)

/-- C24, the code at an input where the claim fails: the one-line document whose line
is `a` followed by a carriage return holds no newline; its snapshot is the three bytes
`a`, `\r`, `\n`, and `maybe_recover` reads the line `a` back, because `rstrip_newline`
also drops a trailing carriage return. -/
theorem recover_drops_carriage_return :
    (∀ l ∈ [['a', CR]], NL ∉ l) ∧
    autosave_text { Buffer.fresh with lines := [['a', CR]], dirty := true } = ['a', CR, NL] ∧
    (maybe_recover demo_env { Buffer.fresh with lines := [['a', CR]], dirty := true }
        (autosave_if_needed demo_env true true
          { Buffer.fresh with lines := [['a', CR]], dirty := true } empty_fs)).2.lines
      = [['a']] ∧
    (load_file "f".toList Buffer.fresh
        (empty_fs.put "f".toList { mode := 420, data := ['a', CR, NL] })).lines = [['a']] ∧
    [['a']] ≠ [['a', CR]] := by
  refine ⟨by decide, by rfl, by rfl, by rfl, by decide⟩

/-- C24 (amended): for every document whose lines hold no newline and do not end in a
carriage return, the text "each line followed by a newline" reads back as the same
lines: `maybe_recover` returns them from the snapshot `autosave_if_needed` writes for
the dirty document, `load_file` returns them from a file that holds the text, and, when
in addition no line holds a NUL, `load_file` returns them from the file a successful
`atomic_save` leaves. -/
theorem recovery_round_trip (env : Env) (b : Buffer) (fs : FS)
    (h : ∀ l ∈ b.lines, NL ∉ l ∧ l.getLast? ≠ some CR) :
    read_lines (autosave_text b) = b.lines ∧
    (b.dirty = true →
      maybe_recover env b (autosave_if_needed env true true b fs) = (true, { b with dirty := true })) ∧
    (∀ (p : Str) (m : Nat) (b0 : Buffer),
      (load_file p b0 (fs.put p { mode := m, data := autosave_text b })).lines = b.lines) ∧
    (∀ (o : SaveFaults) (p : Str) (backup : Bool) (b0 : Buffer),
      (∀ l ∈ b.lines, NUL ∉ l) → (atomic_save o p b backup fs).ok = true →
      (load_file p b0 (atomic_save o p b backup fs).fs).lines = b.lines) := by
  have hr : read_lines (autosave_text b) = b.lines := read_lines_autosave_text b.lines h
  refine ⟨hr, ?_, ?_, ?_⟩
  · intro hd
    unfold maybe_recover autosave_if_needed
    simp only [hd, Bool.not_true, Bool.false_eq_true, if_false, if_true]
    rw [FS.put_same]
    simp only [hr]
  · intro p m b0
    unfold load_file
    rw [FS.put_same]
    exact hr
  · intro o p backup b0 hn hok
    obtain ⟨m, hm⟩ := atomic_save_ok_contents o p b backup fs hok
    unfold load_file
    rw [hm, fputs_lines_of_no_nul b.lines hn]
    exact hr

/-- C24 (amended) at a concrete document: the dirty three-line document `one`, `two`,
`three` comes back from its snapshot and from the file a save leaves. -/
theorem recovery_round_trip_witness :
    (∀ l ∈ three_line_editor.buf.lines, NL ∉ l ∧ l.getLast? ≠ some CR) ∧
    read_lines (autosave_text three_line_editor.buf) = three_line_editor.buf.lines ∧
    (maybe_recover demo_env three_line_editor.buf
        (autosave_if_needed demo_env true true three_line_editor.buf empty_fs)).2.lines
      = ["one".toList, "two".toList, "three".toList] ∧
    (load_file "f".toList Buffer.fresh
        (atomic_save no_faults "f".toList three_line_editor.buf false empty_fs).fs).lines
      = ["one".toList, "two".toList, "three".toList] := by
  have h : ∀ l ∈ three_line_editor.buf.lines, NL ∉ l ∧ l.getLast? ≠ some CR := by decide
  have t := recovery_round_trip demo_env three_line_editor.buf empty_fs h
  refine ⟨h, t.1, ?_, ?_⟩
  · rw [t.2.1 (by rfl)]
    rfl
  · exact t.2.2.2 no_faults "f".toList false Buffer.fresh (by decide) (by rfl)

/-! ## Move (C27) -/

/-- The cast `(size_t)` of a non-negative `long` is its value. -/
theorem toSizeT_natCast (k : Nat) (h : k < 2 ^ 64) : toSizeT (k : Int) = k := by
  unfold toSizeT
  have h1 : ((k : Int) % (2 ^ 64 : Int)) = (k : Int) :=
    Int.emod_eq_of_lt (by omega) (by omega)
  rw [h1]
  simp

/-- The cast `(long)` of a size below `2^63` is its value. -/
theorem toLong_of_lt (k : Nat) (h : k < 2 ^ 63) : toLong k = (k : Int) := by
  unfold toLong
  have h1 : k % 2 ^ 64 = k := Nat.mod_eq_of_lt (by omega)
  simp only [h1]
  rw [if_pos h]

/-- Taking the element at `i` out of a list and putting it back at index `j`: it is at
`j` afterwards, taking it out again gives the list without it, and the result is a
rearrangement of the list of the same length. -/
theorem insert_erase_facts (l : List Str) (i j : Nat) (hi : i < l.length)
    (hj : j ≤ l.length - 1) :
    (insert_at (l.eraseIdx i) j [l.getD i []]).getD j [] = l.getD i [] ∧
    (insert_at (l.eraseIdx i) j [l.getD i []]).eraseIdx j = l.eraseIdx i ∧
    (insert_at (l.eraseIdx i) j [l.getD i []]).Perm l ∧
    (insert_at (l.eraseIdx i) j [l.getD i []]).length = l.length := by
  have hlen : (l.eraseIdx i).length = l.length - 1 := List.length_eraseIdx_of_lt hi
  have htk : ((l.eraseIdx i).take j).length = j := by
    rw [List.length_take, hlen]; omega
  unfold insert_at
  refine ⟨?_, ?_, ?_, ?_⟩
  · rw [List.append_assoc, List.getD_eq_getElem?_getD,
      List.getElem?_append_right (by omega), htk]
    simp
  · rw [List.append_assoc, List.eraseIdx_append_of_length_le (by omega), htk]
    simp
  · have h1 : ((l.eraseIdx i).take j ++ [l.getD i []] ++ (l.eraseIdx i).drop j).Perm
        (l.getD i [] :: l.eraseIdx i) := by
      rw [List.append_assoc, List.singleton_append]
      refine List.perm_middle.trans ?_
      rw [List.take_append_drop]
    refine h1.trans ?_
    have h2 : l = l.take i ++ l.getD i [] :: l.drop (i + 1) := by
      rw [List.getD_eq_getElem?_getD, List.getElem?_eq_getElem hi, Option.getD_some]
      simp
    have h3 : l.eraseIdx i = l.take i ++ l.drop (i + 1) := List.eraseIdx_eq_take_drop_succ l i
    rw [h3]
    conv_rhs => rw [h2]
    exact List.perm_middle.symm
  · simp only [List.length_append, List.length_take, List.length_drop, hlen,
      List.length_singleton]
    omega

/-- C27, the code at inputs where the claim fails: on the four lines `a`, `b`, `c`,
`d` the accepted command `move 3 1` leaves `a`, `c`, `b`, `d`, so the line `c` is at
position 2, where position 1 would give `c`, `a`, `b`, `d`; and `move 2 2` leaves `a`,
`c`, `b`, `d` too, where the buffer was `a`, `b`, `c`, `d`. -/
theorem move_to_lower_position_counterexample :
    (cmd_move "3 1".toList four_line_editor).buf.lines
      = ["a".toList, "c".toList, "b".toList, "d".toList] ∧
    move_to_position four_line_editor.buf.lines 3 1
      = ["c".toList, "a".toList, "b".toList, "d".toList] ∧
    (cmd_move "3 1".toList four_line_editor).buf.lines.getD (1 - 1) []
      ≠ four_line_editor.buf.lines.getD (3 - 1) [] ∧
    (cmd_move "2 2".toList four_line_editor).buf.lines
      = ["a".toList, "c".toList, "b".toList, "d".toList] ∧
    (cmd_move "2 2".toList four_line_editor).buf.lines ≠ four_line_editor.buf.lines := by
  refine ⟨by rfl, by rfl, by decide, by rfl, by decide⟩

/-- C27 (amended): for a buffer of `n` lines and a command `move from to` with
`1 <= from <= n`, `0 <= to <= n` and `to` different from `from`, the line that was at
position `from` is put directly behind the line that was at position `to` (in front of
all lines when `to` is 0): its new 1-based position is `to` when `to > from` and
`to + 1` when `to < from`. All other lines keep their relative order, and the buffer is
a rearrangement of the original of the same length. -/
theorem move_places_line_after (rest : Str) (e : Editor) (frm to_ : Nat)
    (hf : ((IStream.ofStr rest).long 0).1 = (frm : Int))
    (ht : (((IStream.ofStr rest).long 0).2.long 0).1 = (to_ : Int))
    (h1 : 1 ≤ frm) (h2 : frm ≤ e.buf.lines.length) (h3 : to_ ≤ e.buf.lines.length)
    (hne : to_ ≠ frm) (hsz : e.buf.lines.length < 2 ^ 63) :
    (cmd_move rest e).buf.lines
      = move_to_position e.buf.lines frm (if frm < to_ then to_ else to_ + 1) ∧
    (cmd_move rest e).buf.lines.getD ((if frm < to_ then to_ else to_ + 1) - 1) []
      = e.buf.lines.getD (frm - 1) [] ∧
    (cmd_move rest e).buf.lines.eraseIdx ((if frm < to_ then to_ else to_ + 1) - 1)
      = e.buf.lines.eraseIdx (frm - 1) ∧
    (cmd_move rest e).buf.lines.Perm e.buf.lines ∧
    (cmd_move rest e).buf.lines.length = e.buf.lines.length := by
  have hfs : toSizeT (frm : Int) = frm := toSizeT_natCast frm (by omega)
  have hts : toSizeT (to_ : Int) = to_ := toSizeT_natCast to_ (by omega)
  have hlen : (e.buf.lines.eraseIdx (frm - 1)).length = e.buf.lines.length - 1 :=
    List.length_eraseIdx_of_lt (by omega)
  have hlong : toLong (e.buf.lines.length - 1) = ((e.buf.lines.length - 1 : Nat) : Int) :=
    toLong_of_lt _ (by omega)
  have hcode : (cmd_move rest e).buf.lines
      = move_to_position e.buf.lines frm (if frm < to_ then to_ else to_ + 1) := by
    unfold cmd_move move_to_position
    simp only [hf, ht, hfs, hts, Editor.push_undo]
    have c1 : ¬ ((frm : Int) = 0 ∧ (to_ : Int) = 0) := by omega
    have c2 : ¬ ((frm : Int) < 1 ∨ frm > e.buf.lines.length ∨ (to_ : Int) < 0 ∨
        to_ > e.buf.lines.length) := by omega
    rw [if_neg c1, if_neg c2]
    simp only [hlen, hlong]
    congr 1
    by_cases hlt : frm < to_
    · have d1 : (to_ : Int) > (frm : Int) := by omega
      have d2 : ¬ ((to_ : Int) - 1 > ((e.buf.lines.length - 1 : Nat) : Int)) := by omega
      simp only [d1, if_true, d2, if_false, hlt]
      omega
    · have d1 : ¬ ((to_ : Int) > (frm : Int)) := by omega
      have d2 : ¬ ((to_ : Int) > ((e.buf.lines.length - 1 : Nat) : Int)) := by omega
      simp only [d1, if_false, d2, hlt]
      omega
  have hj : (if frm < to_ then to_ else to_ + 1) - 1 ≤ e.buf.lines.length - 1 := by
    split <;> omega
  have facts := insert_erase_facts e.buf.lines (frm - 1)
    ((if frm < to_ then to_ else to_ + 1) - 1) (by omega) hj
  rw [hcode]
  exact ⟨rfl, facts.1, facts.2.1, facts.2.2.1, facts.2.2.2⟩

/-- C27 (amended) at concrete inputs: on `a`, `b`, `c`, `d`, `move 1 3` leaves `b`,
`c`, `a`, `d` (position 3) and `move 3 1` leaves `a`, `c`, `b`, `d` (position 2, behind
the line that was first). -/
theorem move_places_line_after_witness :
    (cmd_move "1 3".toList four_line_editor).buf.lines
      = ["b".toList, "c".toList, "a".toList, "d".toList] ∧
    (cmd_move "3 1".toList four_line_editor).buf.lines
      = ["a".toList, "c".toList, "b".toList, "d".toList] ∧
    (cmd_move "3 1".toList four_line_editor).buf.lines.getD 1 [] = "c".toList :=
  ⟨(move_places_line_after "1 3".toList four_line_editor 1 3 (by rfl) (by rfl)
      (by decide) (by decide) (by decide) (by decide)
      (by show (4 : Nat) < 2 ^ 63; norm_num)).1.trans (by rfl),
   (move_places_line_after "3 1".toList four_line_editor 3 1 (by rfl) (by rfl)
      (by decide) (by decide) (by decide) (by decide)
      (by show (4 : Nat) < 2 ^ 63; norm_num)).1.trans (by rfl),
   (move_places_line_after "3 1".toList four_line_editor 3 1 (by rfl) (by rfl)
      (by decide) (by decide) (by decide) (by decide)
      (by show (4 : Nat) < 2 ^ 63; norm_num)).2.1.trans (by rfl)⟩

/-! ## The two stacks together (C29) -/

/-- Source `Editor::save` leaves both stacks alone. -/
theorem save_stacks (env : Env) (m : Str) (e : Editor) (w : World) :
    (e.save env m w).2.1.undo = e.undo ∧ (e.save env m w).2.1.redo = e.redo := by
  unfold Editor.save
  simp only
  generalize (if m.isEmpty = true then e.buf.path else m) = target
  split_ifs <;> exact ⟨rfl, rfl⟩

/-- The branch `wq` leaves both stacks alone. -/
theorem cmd_wq_stacks (env : Env) (e : Editor) (w : World) :
    (cmd_wq env e w).ed.undo = e.undo ∧ (cmd_wq env e w).ed.redo = e.redo := by
  unfold cmd_wq
  simp only
  split
  · exact save_stacks env [] e w
  · exact save_stacks env [] e w

/-- The branch `open` leaves both stacks alone. -/
theorem cmd_open_stacks (env : Env) (rest : Str) (e : Editor) (w : World) :
    (cmd_open env rest e w).undo = e.undo ∧ (cmd_open env rest e w).redo = e.redo := by
  unfold cmd_open
  split_ifs <;> exact ⟨rfl, rfl⟩

/-- The branches `find` and `findi` leave both stacks alone. -/
theorem cmd_find_stacks (icase : Bool) (rest : Str) (e : Editor) :
    (cmd_find icase rest e).undo = e.undo ∧ (cmd_find icase rest e).redo = e.redo := by
  unfold cmd_find
  split_ifs <;> exact ⟨rfl, rfl⟩

/-- Source `Editor::next_match` leaves both stacks alone. -/
theorem next_match_stacks (e : Editor) (reverse : Bool) :
    (e.next_match reverse).undo = e.undo ∧ (e.next_match reverse).redo = e.redo := by
  unfold Editor.next_match
  simp only
  split_ifs <;> exact ⟨rfl, rfl⟩

/-- Source `Editor::bnext` leaves both stacks alone. -/
theorem bnext_stacks (e : Editor) : e.bnext.undo = e.undo ∧ e.bnext.redo = e.redo := by
  unfold Editor.bnext
  split_ifs <;> exact ⟨rfl, rfl⟩

/-- Source `Editor::bprev` leaves both stacks alone. -/
theorem bprev_stacks (e : Editor) : e.bprev.undo = e.undo ∧ e.bprev.redo = e.redo := by
  unfold Editor.bprev
  split_ifs <;> exact ⟨rfl, rfl⟩

/-- What a branch of the dispatch chain does to the two stacks: nothing, a
`push_undo()`, the undo loop, or one redo. -/
theorem handle_cmd_stacks (env : Env) (lc rest : Str) (e : Editor) (w : World) (o : Outcome)
    (h : handle_cmd env lc rest e w = some o) :
    (o.ed.undo = e.undo ∧ o.ed.redo = e.redo) ∨ Performed e o.ed ∨
      o.ed = cmd_undo rest e ∨ o.ed = cmd_redo e := by
  have keep : ∀ e1 : Editor, e1 = e ∨ Performed e e1 →
      (e1.undo = e.undo ∧ e1.redo = e.redo) ∨ Performed e e1 ∨
        e1 = cmd_undo rest e ∨ e1 = cmd_redo e := by
    intro e1 h1
    rcases h1 with h1 | h1
    · left; rw [h1]; exact ⟨rfl, rfl⟩
    · right; left; exact h1
  unfold handle_cmd at h
  by_cases c1 : lc = "open".toList
  · rw [if_pos c1] at h
    cases h
    exact Or.inl (cmd_open_stacks env rest e w)
  rw [if_neg c1] at h
  by_cases c2 : lc = "wq".toList
  · rw [if_pos c2] at h
    cases h
    exact Or.inl (cmd_wq_stacks env e w)
  rw [if_neg c2] at h
  by_cases c3 : lc = "write".toList ∨ lc = "w".toList
  · rw [if_pos c3] at h
    cases h
    exact Or.inl (save_stacks env rest e w)
  rw [if_neg c3] at h
  by_cases c4 : lc = "saveas".toList
  · rw [if_pos c4] at h
    by_cases cr : rest.isEmpty = true
    · rw [if_pos cr] at h; cases h; exact Or.inl ⟨rfl, rfl⟩
    · rw [if_neg cr] at h; cases h; exact Or.inl (save_stacks env rest e w)
  rw [if_neg c4] at h
  by_cases c5 : lc = "append".toList ∨ lc = "a".toList
  · rw [if_pos c5] at h
    cases h
    exact Or.inr (Or.inl (cmd_append_cases e w))
  rw [if_neg c5] at h
  by_cases c6 : lc = "insert".toList ∨ lc = "i".toList
  · rw [if_pos c6] at h
    cases h
    rcases cmd_insert_cases rest e w with h1 | h1
    · left; rw [h1]; exact ⟨rfl, rfl⟩
    · exact Or.inr (Or.inl h1)
  rw [if_neg c6] at h
  by_cases c7 : lc = "delete".toList ∨ lc = "d".toList
  · rw [if_pos c7] at h
    cases h
    exact keep _ (cmd_delete_cases rest e)
  rw [if_neg c7] at h
  by_cases c8 : lc = "move".toList ∨ lc = "m".toList
  · rw [if_pos c8] at h
    cases h
    exact keep _ (cmd_move_cases rest e)
  rw [if_neg c8] at h
  by_cases c9 : lc = "join".toList
  · rw [if_pos c9] at h
    cases h
    exact keep _ (cmd_join_cases rest e)
  rw [if_neg c9] at h
  by_cases c10 : lc = "find".toList
  · rw [if_pos c10] at h
    cases h
    exact Or.inl (cmd_find_stacks false rest e)
  rw [if_neg c10] at h
  by_cases c11 : lc = "findi".toList
  · rw [if_pos c11] at h
    cases h
    exact Or.inl (cmd_find_stacks true rest e)
  rw [if_neg c11] at h
  by_cases c12 : lc = "findre".toList
  · rw [if_pos c12] at h
    cases h
    exact Or.inl ⟨rfl, rfl⟩
  rw [if_neg c12] at h
  by_cases c13 : lc = "n".toList
  · rw [if_pos c13] at h
    cases h
    exact Or.inl (next_match_stacks e false)
  rw [if_neg c13] at h
  by_cases c14 : lc = "N".toList
  · rw [if_pos c14] at h
    cases h
    exact Or.inl (next_match_stacks e true)
  rw [if_neg c14] at h
  by_cases c15 : lc = "repl".toList ∨ lc = "replg".toList
  · rw [if_pos c15] at h
    cases h
    exact keep _ (cmd_repl_cases lc rest e)
  rw [if_neg c15] at h
  by_cases c16 : lc = "read".toList
  · rw [if_pos c16] at h
    cases h
    exact keep _ (cmd_read_cases rest e w)
  rw [if_neg c16] at h
  by_cases c17 : lc = "write".toList
  · exact absurd (Or.inl c17) c3
  rw [if_neg c17] at h
  by_cases c18 : lc = "filter".toList
  · rw [if_pos c18] at h
    cases h
    exact keep _ (cmd_filter_cases env rest e)
  rw [if_neg c18] at h
  by_cases c19 : lc = "undo".toList ∨ lc = "u".toList
  · rw [if_pos c19] at h
    cases h
    exact Or.inr (Or.inr (Or.inl rfl))
  rw [if_neg c19] at h
  by_cases c20 : lc = "redo".toList
  · rw [if_pos c20] at h
    cases h
    exact Or.inr (Or.inr (Or.inr rfl))
  rw [if_neg c20] at h
  by_cases c21 : lc = "new".toList
  · rw [if_pos c21] at h
    cases h
    exact Or.inl ⟨rfl, rfl⟩
  rw [if_neg c21] at h
  by_cases c22 : lc = "bnext".toList
  · rw [if_pos c22] at h
    cases h
    exact Or.inl (bnext_stacks e)
  rw [if_neg c22] at h
  by_cases c23 : lc = "bprev".toList
  · rw [if_pos c23] at h
    cases h
    exact Or.inl (bprev_stacks e)
  rw [if_neg c23] at h
  cases h

/-- What a command line does to the two stacks. -/
theorem handle_stacks (env : Env) (raw : Str) (e : Editor) (w : World) (o : Outcome)
    (h : handle env raw e w = some o) :
    (o.ed.undo = e.undo ∧ o.ed.redo = e.redo) ∨ Performed e o.ed ∨
      (∃ rest, o.ed = cmd_undo rest e) ∨ o.ed = cmd_redo e := by
  unfold handle at h
  simp only at h
  split_ifs at h
  all_goals first
    | (cases h; left; exact ⟨rfl, rfl⟩)
    | (rcases handle_cmd_stacks env _ _ e w o h with h1 | h1 | h1 | h1
       · exact Or.inl h1
       · exact Or.inr (Or.inl h1)
       · exact Or.inr (Or.inr (Or.inl ⟨_, h1⟩))
       · exact Or.inr (Or.inr (Or.inr h1)))

/-- One turn of the undo loop keeps the bound on the two stacks together. -/
theorem undo_loop_bound : ∀ (k : Nat) (e : Editor),
    e.undo.st.length + e.redo.st.length ≤ UNDO_MAX →
    (undo_loop k e).undo.st.length + (undo_loop k e).redo.st.length ≤ UNDO_MAX := by
  intro k
  induction k with
  | zero => intro e h; exact h
  | succ k ih =>
    intro e h
    rcases List.eq_nil_or_concat e.undo.st with hn | ⟨pre, x, hx⟩
    · rw [undo_loop_empty _ e hn]; exact h
    · rw [List.concat_eq_append] at hx
      rw [undo_loop_succ_snoc k e pre x hx]
      apply ih
      have hl : e.undo.st.length = pre.length + 1 := by rw [hx]; simp
      have hlt : e.redo.st.length < UNDO_MAX := by omega
      show pre.length + (e.redo.push e.buf).st.length ≤ UNDO_MAX
      rw [Stack.push_st_of_lt e.redo e.buf hlt]
      simp only [List.length_append, List.length_singleton]
      omega

/-- One redo keeps the bound on the two stacks together. -/
theorem cmd_redo_bound (e : Editor) (h : e.undo.st.length + e.redo.st.length ≤ UNDO_MAX) :
    (cmd_redo e).undo.st.length + (cmd_redo e).redo.st.length ≤ UNDO_MAX := by
  rcases List.eq_nil_or_concat e.redo.st with hn | ⟨pre, x, hx⟩
  · rw [cmd_redo_of_empty e hn]; exact h
  · rw [List.concat_eq_append] at hx
    have hp : e.redo.pop = some (x, { st := pre }) := by
      have : e.redo = { st := pre ++ [x] } := by
        cases hr : e.redo with
        | mk st => rw [hr] at hx; simp only at hx; rw [hx]
      rw [this]; exact Stack.pop_snoc pre x
    have hl : e.redo.st.length = pre.length + 1 := by rw [hx]; simp
    have hlt : e.undo.st.length < UNDO_MAX := by omega
    unfold cmd_redo
    rw [hp]
    show (e.undo.push e.buf).st.length + pre.length ≤ UNDO_MAX
    rw [Stack.push_st_of_lt e.undo e.buf hlt]
    simp only [List.length_append, List.length_singleton]
    omega

/-- In every reachable state the two stacks together hold at most `UNDO_MAX`
snapshots. -/
theorem reachable_bound (e : Editor) (h : Reachable e) :
    e.undo.st.length + e.redo.st.length ≤ UNDO_MAX := by
  induction h with
  | start e hu hr => rw [hu, hr]; simp
  | command env raw e w o _ hh ih =>
    rcases handle_stacks env raw e w o hh with h1 | h1 | ⟨rest, h1⟩ | h1
    · rw [h1.1, h1.2]; exact ih
    · rw [h1.1, h1.2]
      simp only [List.length_nil, Nat.add_zero]
      exact Stack.push_length_le e.undo e.buf (by omega)
    · rw [h1]; exact undo_loop_bound _ e ih
    · rw [h1]; exact cmd_redo_bound e ih
  | other e e1 _ hu hr ih => rw [hu, hr]; exact ih

/-- With room for one more snapshot, `undo` followed by `redo` restores the lines and
both stacks. -/
theorem undo_then_redo (e : Editor) (h : e.undo.st.length + e.redo.st.length ≤ UNDO_MAX)
    (hne : e.undo.st ≠ []) :
    (cmd_redo (cmd_undo [] e)).buf.lines = e.buf.lines ∧
    (cmd_redo (cmd_undo [] e)).undo = e.undo ∧
    (cmd_redo (cmd_undo [] e)).redo = e.redo := by
  rcases List.eq_nil_or_concat e.undo.st with hn | ⟨pre, x, hx⟩
  · exact absurd hn hne
  · rw [List.concat_eq_append] at hx
    have hl : e.undo.st.length = pre.length + 1 := by rw [hx]; simp
    have hlt : e.redo.st.length < UNDO_MAX := by omega
    have hU : UNDO_MAX = 200 := rfl
    have hpre : pre.length < UNDO_MAX := by omega
    have h1 : cmd_undo [] e = { e with
        undo := { st := pre }, redo := { st := e.redo.st ++ [{ lines := e.buf.lines }] },
        buf := { e.buf with lines := x.lines, dirty := true } } := by
      show undo_loop (0 + 1) e = _
      rw [undo_loop_succ_snoc 0 e pre x hx, Stack.push_eq_of_lt e.redo e.buf hlt]
      rfl
    rw [h1]
    unfold cmd_redo
    simp only [Stack.pop_snoc]
    refine ⟨?_, ?_, ?_⟩
    · trivial
    · rw [Stack.push_eq_of_lt _ _ hpre]
      cases hu : e.undo with
      | mk st => rw [hu] at hx; simp only at hx; simp [hx]
    · trivial

/-- With room for one more snapshot, `redo` followed by `undo` restores the lines and
both stacks. -/
theorem redo_then_undo (e : Editor) (h : e.undo.st.length + e.redo.st.length ≤ UNDO_MAX)
    (hne : e.redo.st ≠ []) :
    (cmd_undo [] (cmd_redo e)).buf.lines = e.buf.lines ∧
    (cmd_undo [] (cmd_redo e)).undo = e.undo ∧
    (cmd_undo [] (cmd_redo e)).redo = e.redo := by
  rcases List.eq_nil_or_concat e.redo.st with hn | ⟨pre, x, hx⟩
  · exact absurd hn hne
  · rw [List.concat_eq_append] at hx
    have hl : e.redo.st.length = pre.length + 1 := by rw [hx]; simp
    have hlt : e.undo.st.length < UNDO_MAX := by omega
    have hpre : pre.length < UNDO_MAX := by omega
    have hr : e.redo = { st := pre ++ [x] } := by
      cases hr : e.redo with
      | mk st => rw [hr] at hx; simp only at hx; rw [hx]
    have h1 : cmd_redo e = { e with
        redo := { st := pre }, undo := { st := e.undo.st ++ [{ lines := e.buf.lines }] },
        buf := { e.buf with lines := x.lines, dirty := true } } := by
      unfold cmd_redo
      rw [hr, Stack.pop_snoc, Stack.push_eq_of_lt e.undo e.buf hlt]
    rw [h1]
    show (undo_loop (0 + 1) _).buf.lines = _ ∧ (undo_loop (0 + 1) _).undo = _ ∧
      (undo_loop (0 + 1) _).redo = _
    rw [undo_loop_succ_snoc 0 _ e.undo.st { lines := e.buf.lines } rfl]
    refine ⟨rfl, rfl, ?_⟩
    show Stack.push { st := pre } _ = _
    rw [Stack.push_eq_of_lt _ _ hpre, hr]

/-- C29: in every editor state reachable from a start with both stacks empty by any
sequence of commands, the two stacks together hold at most 200 snapshots, also after
any number of turns of the undo loop. So the push inside `undo` (the undo stack is not
empty) and inside `redo` (the redo stack is not empty) appends without dropping the
oldest snapshot, and `undo` followed by `redo`, or `redo` followed by `undo`, restores
the lines and both stacks exactly. -/
theorem stack_size_invariant (e : Editor) (h : Reachable e) (env : Env) (w : World) :
    e.undo.st.length + e.redo.st.length ≤ 200 ∧
    (∀ k : Nat, (undo_loop k e).undo.st.length + (undo_loop k e).redo.st.length ≤ 200) ∧
    (e.undo.st ≠ [] →
      (e.redo.push e.buf).st = e.redo.st ++ [{ lines := e.buf.lines }] ∧
      ∃ o1 o2 : Outcome,
        handle_cmd env "undo".toList [] e w = some o1 ∧
        handle_cmd env "redo".toList [] o1.ed o1.world = some o2 ∧
        o2.ed.buf.lines = e.buf.lines ∧ o2.ed.undo = e.undo ∧ o2.ed.redo = e.redo) ∧
    (e.redo.st ≠ [] →
      (e.undo.push e.buf).st = e.undo.st ++ [{ lines := e.buf.lines }] ∧
      ∃ o1 o2 : Outcome,
        handle_cmd env "redo".toList [] e w = some o1 ∧
        handle_cmd env "undo".toList [] o1.ed o1.world = some o2 ∧
        o2.ed.buf.lines = e.buf.lines ∧ o2.ed.undo = e.undo ∧ o2.ed.redo = e.redo) := by
  have hb := reachable_bound e h
  have hU : UNDO_MAX = 200 := rfl
  refine ⟨hU ▸ hb, ?_, ?_, ?_⟩
  · intro k
    have := undo_loop_bound k e hb
    rw [hU] at this
    exact this
  · intro hne
    have hpos : 0 < e.undo.st.length := List.length_pos.2 hne
    refine ⟨Stack.push_st_of_lt e.redo e.buf (by omega), _, _,
      handle_cmd_undo env [] e w, handle_cmd_redo env [] _ _, ?_⟩
    exact undo_then_redo e hb hne
  · intro hne
    have hpos : 0 < e.redo.st.length := List.length_pos.2 hne
    refine ⟨Stack.push_st_of_lt e.undo e.buf (by omega), _, _,
      handle_cmd_redo env [] e w, handle_cmd_undo env [] _ _, ?_⟩
    exact redo_then_undo e hb hne

/-- C29 at a concrete state: the editor after `delete 1` on the three-line document is
reachable, its two stacks hold one snapshot, and `undo` followed by `redo` restores its
lines and both stacks. -/
theorem stack_size_invariant_witness :
    Reachable (cmd_delete "1".toList three_line_editor) ∧
    (cmd_delete "1".toList three_line_editor).undo.st ≠ [] ∧
    (cmd_delete "1".toList three_line_editor).undo.st.length
      + (cmd_delete "1".toList three_line_editor).redo.st.length ≤ 200 ∧
    ∃ o1 o2 : Outcome,
      handle_cmd demo_env "undo".toList [] (cmd_delete "1".toList three_line_editor)
        demo_world = some o1 ∧
      handle_cmd demo_env "redo".toList [] o1.ed o1.world = some o2 ∧
      o2.ed.buf.lines = (cmd_delete "1".toList three_line_editor).buf.lines ∧
      o2.ed.undo = (cmd_delete "1".toList three_line_editor).undo ∧
      o2.ed.redo = (cmd_delete "1".toList three_line_editor).redo := by
  have hr : Reachable (cmd_delete "1".toList three_line_editor) :=
    Reachable.command demo_env "delete 1".toList three_line_editor demo_world
      { ed := cmd_delete "1".toList three_line_editor, world := demo_world, keep := true }
      (Reachable.start _ rfl rfl) (by rfl)
  have t := stack_size_invariant (cmd_delete "1".toList three_line_editor) hr demo_env
    demo_world
  exact ⟨hr, by decide, t.1, (t.2.2.1 (by decide)).2⟩

/-! ## Range parsing (C30) -/

/-- The decimal digit characters are digits with the right value. -/
theorem digitChar_facts : ∀ d : Nat, d < 10 →
    isdigit (Nat.digitChar d) = true ∧ (Nat.digitChar d).toNat - 48 = d := by
  decide

/-- The value of a run of digits, most significant first. -/
theorem digitsVal_foldl (cs : Str) : ∀ a : Nat,
    cs.foldl (fun a c => 10 * a + (c.toNat - 48)) a = a * 10 ^ cs.length + digitsVal cs := by
  induction cs with
  | nil => intro a; simp [digitsVal]
  | cons c cs ih =>
    intro a
    unfold digitsVal
    rw [List.foldl_cons, List.foldl_cons, ih, ih (10 * 0 + (c.toNat - 48))]
    simp only [List.length_cons, pow_succ]
    ring

theorem digitsVal_cons (c : Char) (cs : Str) :
    digitsVal (c :: cs) = (c.toNat - 48) * 10 ^ cs.length + digitsVal cs := by
  unfold digitsVal
  rw [List.foldl_cons, digitsVal_foldl]
  simp [digitsVal]

/-- What `Nat.toDigitsCore` produces in base ten: digits only, at least one, with the
value of the number in front of what was there. -/
theorem toDigitsCore_facts : ∀ (fuel n : Nat) (ds : Str), n < fuel →
    (∀ c ∈ ds, isdigit c = true) →
    (∀ c ∈ Nat.toDigitsCore 10 fuel n ds, isdigit c = true) ∧
    Nat.toDigitsCore 10 fuel n ds ≠ [] ∧
    digitsVal (Nat.toDigitsCore 10 fuel n ds) = n * 10 ^ ds.length + digitsVal ds := by
  intro fuel
  induction fuel with
  | zero => intro n ds h; omega
  | succ fuel ih =>
    intro n ds hlt hds
    have hd := digitChar_facts (n % 10) (Nat.mod_lt _ (by decide))
    have hds1 : ∀ c ∈ Nat.digitChar (n % 10) :: ds, isdigit c = true := by
      intro c hc
      rcases List.mem_cons.1 hc with h | h
      · rw [h]; exact hd.1
      · exact hds c h
    unfold Nat.toDigitsCore
    simp only
    by_cases h0 : n / 10 = 0
    · rw [if_pos h0]
      refine ⟨hds1, by simp, ?_⟩
      rw [digitsVal_cons, hd.2]
      have : n % 10 = n := by omega
      rw [this]
    · rw [if_neg h0]
      have hlt1 : n / 10 < fuel := by omega
      obtain ⟨a, b, c⟩ := ih (n / 10) (Nat.digitChar (n % 10) :: ds) hlt1 hds1
      refine ⟨a, b, ?_⟩
      rw [c, digitsVal_cons, hd.2]
      simp only [List.length_cons, pow_succ]
      have hn : n = 10 * (n / 10) + n % 10 := (Nat.div_add_mod n 10).symm
      generalize 10 ^ ds.length = P at *
      generalize digitsVal ds = D at *
      conv_rhs => rw [hn]
      ring

/-- The C++ `std::to_string` writes digits only, at least one, that denote the number. -/
theorem to_string_facts (n : Nat) :
    (∀ c ∈ to_string n, isdigit c = true) ∧ to_string n ≠ [] ∧ digitsVal (to_string n) = n := by
  have h := toDigitsCore_facts (n + 1) n [] (by omega) (by simp)
  have e : to_string n = Nat.toDigitsCore 10 (n + 1) n [] := rfl
  rw [e]
  refine ⟨h.1, h.2.1, ?_⟩
  rw [h.2.2]
  simp [digitsVal]

/-- A digit is not NUL, not white space and not a sign. -/
theorem isdigit_facts (c : Char) (h : isdigit c = true) :
    c ≠ NUL ∧ isspace c = false ∧ c ≠ '-' ∧ c ≠ '+' := by
  unfold isdigit at h
  simp only [Bool.and_eq_true, decide_eq_true_eq] at h
  refine ⟨?_, ?_, ?_, ?_⟩
  · intro hc
    have : c.toNat = 0 := by rw [hc]; rfl
    omega
  · unfold isspace
    simp only [Bool.or_eq_false_iff, Bool.and_eq_false_iff, beq_eq_false_iff_ne, ne_eq,
      decide_eq_false_iff_not]
    constructor
    · omega
    · right; omega
  · intro hc
    have : c.toNat = 45 := by rw [hc]; rfl
    omega
  · intro hc
    have : c.toNat = 43 := by rw [hc]; rfl
    omega

/-- Source `parse_long` on a run of digits whose value fits a `long`. -/
theorem parse_long_digits (s : Str) (hne : s ≠ []) (hd : ∀ c ∈ s, isdigit c = true)
    (hv : digitsVal s < 2 ^ 63) : parse_long s = some (digitsVal s : Int) := by
  have hnul : NUL ∉ s := fun hm => (isdigit_facts NUL (hd NUL hm)).1 rfl
  cases s with
  | nil => exact absurd rfl hne
  | cons c cs =>
    have hc := isdigit_facts c (hd c (List.mem_cons_self _ _))
    have htw : (c :: cs).takeWhile isdigit = c :: cs := by
      rw [List.takeWhile_eq_self_iff]
      exact hd
    have hdw : (c :: cs).dropWhile isdigit = [] := by
      rw [List.dropWhile_eq_nil_iff]
      exact hd
    have hsp : (c :: cs).dropWhile isspace = c :: cs := by
      simp [List.dropWhile_cons, hc.2.1]
    have hm : ¬ ((c == '-') = true) := by simpa using hc.2.2.1
    have hp : ¬ ((c == '+') = true) := by simpa using hc.2.2.2
    have hmax : ¬ ((digitsVal (c :: cs) : Int) > LONG_MAX) := by
      unfold LONG_MAX
      have : (digitsVal (c :: cs) : Int) < 2 ^ 63 := by exact_mod_cast hv
      omega
    have hmin : ¬ ((digitsVal (c :: cs) : Int) < LONG_MIN) := by
      unfold LONG_MIN
      have : (0 : Int) ≤ (digitsVal (c :: cs) : Int) := Int.natCast_nonneg _
      omega
    unfold parse_long
    rw [c_str_of_no_nul _ hnul]
    unfold strtol
    simp only [hsp, List.head?_cons, Option.some_beq_some, hm, hp, Bool.or_self,
      Bool.false_eq_true, if_false, htw, hdw, List.isEmpty_cons, hmax, hmin, Bool.or_false]
    simp

/-- Source `parse_long` reads what `std::to_string` writes. -/
theorem parse_long_to_string (n : Nat) (h : n < 2 ^ 63) :
    parse_long (to_string n) = some (n : Int) := by
  have f := to_string_facts n
  have := parse_long_digits (to_string n) f.2.1 f.1 (by rw [f.2.2]; exact h)
  rw [f.2.2] at this
  exact this

/-- The value `strtol` returns is a `long`. -/
theorem strtol_range (nptr : Str) :
    LONG_MIN ≤ (strtol nptr).value ∧ (strtol nptr).value ≤ LONG_MAX := by
  have key : ∀ (c : Prop) [Decidable c] (v : Int) (t0 t1 : Str),
      LONG_MIN ≤ (if c then
          ({ value := 0, erange := false, converted := false, tail := t0 } : StrtolResult)
        else if v > LONG_MAX then
          { value := LONG_MAX, erange := true, converted := true, tail := t1 }
        else if v < LONG_MIN then
          { value := LONG_MIN, erange := true, converted := true, tail := t1 }
        else { value := v, erange := false, converted := true, tail := t1 }).value ∧
      (if c then
          ({ value := 0, erange := false, converted := false, tail := t0 } : StrtolResult)
        else if v > LONG_MAX then
          { value := LONG_MAX, erange := true, converted := true, tail := t1 }
        else if v < LONG_MIN then
          { value := LONG_MIN, erange := true, converted := true, tail := t1 }
        else { value := v, erange := false, converted := true, tail := t1 }).value
        ≤ LONG_MAX := by
    intro c _ v t0 t1
    have h1 : LONG_MIN = -(2 ^ 63) := rfl
    have h2 : LONG_MAX = 2 ^ 63 - 1 := rfl
    split_ifs <;> simp only [] <;> omega
  unfold strtol
  exact key _ _ _ _

/-- A value `parse_long` delivers is a `long`. -/
theorem parse_long_range (s : Str) (v : Int) (h : parse_long s = some v) :
    LONG_MIN ≤ v ∧ v ≤ LONG_MAX := by
  unfold parse_long at h
  simp only at h
  split_ifs at h
  injection h with h
  rw [← h]
  exact strtol_range _

/-- Source `trim_copy` leaves a string without white space alone. -/
theorem trim_copy_id (t : Str) (h : ∀ c ∈ t, isspace c = false) : trim_copy t = t := by
  have h1 : ∀ l : Str, (∀ c ∈ l, isspace c = false) → l.dropWhile isspace = l := by
    intro l hl
    cases l with
    | nil => rfl
    | cons c cs => simp [List.dropWhile_cons, hl c (List.mem_cons_self _ _)]
  unfold trim_copy
  rw [h1 t h, h1 t.reverse (fun c hc => h c (List.mem_reverse.1 hc)), List.reverse_reverse]

/-- The value of a run of digits as the specification reads it is the value `strtol`
computes for it. -/
theorem digits_value_eq (ds : Str) :
    digits_value ds
      = if ds ≠ [] ∧ (∀ c ∈ ds, isdigit c = true) then some (digitsVal ds) else none := by
  have hall : (ds.all (fun c => decide (48 ≤ c.toNat) && decide (c.toNat ≤ 57)) = true) ↔
      ∀ c ∈ ds, isdigit c = true := by
    rw [List.all_eq_true]
    exact Iff.rfl
  unfold digits_value
  by_cases h : ds ≠ [] ∧ (∀ c ∈ ds, isdigit c = true)
  · rw [if_pos h, if_pos ⟨h.1, hall.2 h.2⟩]
    rfl
  · rw [if_neg h, if_neg (fun h1 => h ⟨h1.1, hall.1 h1.2⟩)]

/-- Source `parse_long` on a string without NUL that does not start with white space,
in terms of its sign and of the text `b` behind the sign: the value of the digits `b`,
signed, when `b` is a run of digits and the value is a `long`; nothing otherwise. -/
theorem parse_long_parts (t b : Str) (neg : Bool) (hne : t ≠ []) (hnul : NUL ∉ t)
    (h1 : t.dropWhile isspace = t) (hneg : (t.head? == some '-') = neg)
    (hb : (if (t.head? == some '-' || t.head? == some '+') = true then t.drop 1 else t) = b) :
    parse_long t = (digits_value b).bind (fun v =>
      if LONG_MIN ≤ (if neg = true then -(v : Int) else (v : Int)) ∧
          (if neg = true then -(v : Int) else (v : Int)) ≤ LONG_MAX
      then some (if neg = true then -(v : Int) else (v : Int)) else none) := by
  have hte : t.isEmpty = false := by
    cases t with
    | nil => exact absurd rfl hne
    | cons c cs => rfl
  have hM : LONG_MAX = 2 ^ 63 - 1 := rfl
  have hm : LONG_MIN = -(2 ^ 63) := rfl
  have key1 : ∀ w : Int,
      (if (if w > LONG_MAX then
            ({ value := LONG_MAX, erange := true, converted := true, tail := [] } : StrtolResult)
          else if w < LONG_MIN then
            { value := LONG_MIN, erange := true, converted := true, tail := [] }
          else { value := w, erange := false, converted := true, tail := [] }).erange = true
        then none
        else if (!(if w > LONG_MAX then
            ({ value := LONG_MAX, erange := true, converted := true, tail := [] } : StrtolResult)
          else if w < LONG_MIN then
            { value := LONG_MIN, erange := true, converted := true, tail := [] }
          else { value := w, erange := false, converted := true, tail := [] }).converted ||
          !(if w > LONG_MAX then
            ({ value := LONG_MAX, erange := true, converted := true, tail := [] } : StrtolResult)
          else if w < LONG_MIN then
            { value := LONG_MIN, erange := true, converted := true, tail := [] }
          else { value := w, erange := false, converted := true, tail := [] }).tail.isEmpty)
            = true then none
        else some (if w > LONG_MAX then
            ({ value := LONG_MAX, erange := true, converted := true, tail := [] } : StrtolResult)
          else if w < LONG_MIN then
            { value := LONG_MIN, erange := true, converted := true, tail := [] }
          else { value := w, erange := false, converted := true, tail := [] }).value)
        = if LONG_MIN ≤ w ∧ w ≤ LONG_MAX then some w else none := by
    intro w
    by_cases c1 : w > LONG_MAX
    · simp only [c1, if_true]
      rw [if_neg (by omega)]
    · by_cases c2 : w < LONG_MIN
      · simp only [c1, c2, if_true, if_false]
        rw [if_neg (by omega)]
      · simp only [c1, c2, if_false, Bool.false_eq_true, Bool.not_true, List.isEmpty_nil,
          Bool.or_self]
        rw [if_pos (by omega)]
  have key2 : ∀ (w : Int) (tl : Str), tl.isEmpty = false →
      (if (if w > LONG_MAX then
            ({ value := LONG_MAX, erange := true, converted := true, tail := tl } : StrtolResult)
          else if w < LONG_MIN then
            { value := LONG_MIN, erange := true, converted := true, tail := tl }
          else { value := w, erange := false, converted := true, tail := tl }).erange = true
        then none
        else if (!(if w > LONG_MAX then
            ({ value := LONG_MAX, erange := true, converted := true, tail := tl } : StrtolResult)
          else if w < LONG_MIN then
            { value := LONG_MIN, erange := true, converted := true, tail := tl }
          else { value := w, erange := false, converted := true, tail := tl }).converted ||
          !(if w > LONG_MAX then
            ({ value := LONG_MAX, erange := true, converted := true, tail := tl } : StrtolResult)
          else if w < LONG_MIN then
            { value := LONG_MIN, erange := true, converted := true, tail := tl }
          else { value := w, erange := false, converted := true, tail := tl }).tail.isEmpty)
            = true then none
        else some (if w > LONG_MAX then
            ({ value := LONG_MAX, erange := true, converted := true, tail := tl } : StrtolResult)
          else if w < LONG_MIN then
            { value := LONG_MIN, erange := true, converted := true, tail := tl }
          else { value := w, erange := false, converted := true, tail := tl }).value)
        = (none : Option Int) := by
    intro w tl htl
    by_cases c1 : w > LONG_MAX
    · simp only [c1, if_true]
    · by_cases c2 : w < LONG_MIN
      · simp only [c1, c2, if_true, if_false]
      · simp only [c1, c2, if_false, Bool.false_eq_true, Bool.not_true, htl, Bool.not_false,
          Bool.or_true, if_true]
  rw [digits_value_eq]
  unfold parse_long strtol
  rw [c_str_of_no_nul t hnul]
  simp only [h1, hte, Bool.false_eq_true, if_false]
  simp only [hb]
  simp only [hneg]
  by_cases hd : b ≠ [] ∧ (∀ c ∈ b, isdigit c = true)
  · have htw : b.takeWhile isdigit = b := List.takeWhile_eq_self_iff.2 hd.2
    have hdw : b.dropWhile isdigit = [] := List.dropWhile_eq_nil_iff.2 hd.2
    have hbe : b.isEmpty = false := by
      cases b with
      | nil => exact absurd rfl hd.1
      | cons c cs => rfl
    rw [if_pos hd]
    simp only [htw, hdw, hbe, Bool.false_eq_true, if_false, Option.some_bind]
    exact key1 _
  · rw [if_neg hd]
    simp only [Option.none_bind]
    by_cases he : (b.takeWhile isdigit).isEmpty = true
    · rw [if_pos he]
      simp
    · rw [if_neg he]
      have hbne : b ≠ [] := by
        intro hb0
        rw [hb0] at he
        exact he rfl
      have hdw : (b.dropWhile isdigit).isEmpty = false := by
        cases hx : b.dropWhile isdigit with
        | nil => exact absurd ⟨hbne, List.dropWhile_eq_nil_iff.1 hx⟩ hd
        | cons c cs => rfl
      exact key2 _ _ hdw

/-- Source `parse_long` on a string without NUL and without white space reads exactly
the decimal numbers that are a `long`. -/
theorem parse_long_eq_decimal (t : Str) (hnul : NUL ∉ t) (hsp : ∀ c ∈ t, isspace c = false) :
    parse_long t = (decimal_value t).bind (fun v =>
      if LONG_MIN ≤ v ∧ v ≤ LONG_MAX then some v else none) := by
  cases t with
  | nil => rfl
  | cons c cs =>
    have h1 : (c :: cs).dropWhile isspace = c :: cs := by
      simp [List.dropWhile_cons, hsp c (List.mem_cons_self _ _)]
    unfold decimal_value
    simp only
    by_cases hm : c = '-'
    · rw [if_pos hm]
      rw [parse_long_parts (c :: cs) cs true (by simp) hnul h1 (by rw [hm]; rfl)
        (by rw [hm]; rfl)]
      cases digits_value cs <;> simp
    · rw [if_neg hm]
      have hm1 : (some c == some '-') = false := by simpa using hm
      by_cases hp : c = '+'
      · rw [if_pos hp]
        rw [parse_long_parts (c :: cs) cs false (by simp) hnul h1 (by rw [hp]; rfl)
          (by rw [hp]; rfl)]
        cases digits_value cs <;> simp
      · rw [if_neg hp]
        have hp1 : (some c == some '+') = false := by simpa using hp
        rw [parse_long_parts (c :: cs) (c :: cs) false (by simp) hnul h1
          (by simp only [List.head?_cons]; exact hm1)
          (by simp only [List.head?_cons, hm1, hp1]; rfl)]
        cases digits_value (c :: cs) <;> simp

/-- On a bound token without NUL and without white space, what the code makes of it
(`norm_token`, `parse_long`, the test `lo<=0`) is the bound of the specification,
except that a number above `LONG_MAX` is rejected. -/
theorem bound_of_norm_token (n : Nat) (hn : 0 < n) (hsz : n < 2 ^ 63) (t : Str)
    (hnul : NUL ∉ t) (h : ∀ c ∈ t, isspace c = false) :
    (parse_long (if trim_copy t = ['$'] then to_string n else trim_copy t) = none →
      bound_within_long n t = none) ∧
    (∀ v : Int, parse_long (if trim_copy t = ['$'] then to_string n else trim_copy t) = some v →
      bound_within_long n t = if 0 < v then some v.toNat else none) := by
  have hM : LONG_MAX = 2 ^ 63 - 1 := rfl
  have hm : LONG_MIN = -(2 ^ 63) := rfl
  rw [trim_copy_id t h]
  unfold bound_within_long bound_as_specified
  by_cases hd : t = ['$']
  · rw [if_pos hd, if_pos hd, parse_long_to_string n hsz]
    have hpos : (0 : Int) < (n : Int) := by exact_mod_cast hn
    have hle : (n : Int) ≤ LONG_MAX := by omega
    constructor
    · intro h0; cases h0
    · intro v hv
      injection hv with hv
      rw [← hv, if_pos hpos]
      simp [hle]
  · rw [if_neg hd, if_neg hd, parse_long_eq_decimal t hnul h]
    cases hv : decimal_value t with
    | none =>
      simp
    | some w =>
      simp only [Option.some_bind]
      by_cases hr : LONG_MIN ≤ w ∧ w ≤ LONG_MAX
      · rw [if_pos hr]
        constructor
        · intro h0; cases h0
        · intro v hv1
          injection hv1 with hv1
          rw [← hv1]
          by_cases hw : 0 < w
          · have hc : ((w.toNat : Nat) : Int) ≤ LONG_MAX := by omega
            rw [if_pos hw]
            simp only
            rw [if_pos hc]
          · rw [if_neg hw]
      · rw [if_neg hr]
        constructor
        · intro _
          by_cases hw : 0 < w
          · have hc : ¬ (((w.toNat : Nat) : Int) ≤ LONG_MAX) := by omega
            rw [if_pos hw]
            simp only
            rw [if_neg hc]
          · rw [if_neg hw]
        · intro v hv1; cases hv1

/-- The clamping at the end of `parse_range`, for bounds above zero. -/
theorem clamp_eq (lo hi : Int) (n : Nat) (hn : 0 < n) (hsz : n < 2 ^ 63)
    (hlo : 0 < lo) (hlo1 : lo ≤ LONG_MAX) (hhi : 0 < hi) (hhi1 : hi ≤ LONG_MAX) :
    (if (if toSizeT lo < 1 then (1 : Int) else lo)
        > (if toSizeT hi > n then toLong n else hi) then none
      else some (toSizeT (if toSizeT lo < 1 then (1 : Int) else lo),
        toSizeT (if toSizeT hi > n then toLong n else hi)))
      = (if lo.toNat ≤ min hi.toNat n then some (lo.toNat, min hi.toNat n) else none) := by
  have hM : LONG_MAX = 2 ^ 63 - 1 := rfl
  have e1 : toSizeT lo = lo.toNat := by
    unfold toSizeT
    rw [Int.emod_eq_of_lt (by omega) (by omega)]
  have e2 : toSizeT hi = hi.toNat := by
    unfold toSizeT
    rw [Int.emod_eq_of_lt (by omega) (by omega)]
  have e3 : toLong n = (n : Int) := toLong_of_lt n hsz
  have e4 : toSizeT (n : Int) = n := toSizeT_natCast n (by omega)
  have c1 : ¬ (lo.toNat < 1) := by omega
  rw [e1, e2, e3, if_neg c1]
  by_cases c2 : hi.toNat > n
  · rw [if_pos c2, e1, e4]
    have hmin : min hi.toNat n = n := by omega
    rw [hmin]
    by_cases c3 : lo > (n : Int)
    · rw [if_pos c3, if_neg (by omega)]
    · rw [if_neg c3, if_pos (by omega)]
  · rw [if_neg c2, e1, e2]
    have hmin : min hi.toNat n = hi.toNat := by omega
    rw [hmin]
    by_cases c3 : lo > hi
    · rw [if_pos c3, if_neg (by omega)]
    · rw [if_neg c3, if_pos (by omega)]

/-- Source `parse_range` computes the range of the specification for any reading
`bound` of a bound that agrees with what the code makes of a bound token: `norm_token`,
`parse_long` and the test `lo<=0`. -/
theorem parse_range_eq_of_bound (bound : Str → Option Nat) (arg : Str) (n : Nat)
    (hn : 0 < n) (hsz : n < 2 ^ 63)
    (H : ∀ t : Str, (∀ c ∈ t, c ∈ arg ∧ isspace c = false) →
      (parse_long (if trim_copy t = ['$'] then to_string n else trim_copy t) = none →
        bound t = none) ∧
      (∀ v : Int,
        parse_long (if trim_copy t = ['$'] then to_string n else trim_copy t) = some v →
        bound t = if 0 < v then some v.toNat else none)) :
    parse_range arg n = range_of_bounds bound arg n := by
  have hns0 : ∀ c ∈ arg.filter (fun c => !isspace c), c ∈ arg ∧ isspace c = false := by
    intro c hc
    have := List.mem_filter.1 hc
    exact ⟨this.1, by simpa using this.2⟩
  have hn0 : n ≠ 0 := by omega
  have e3 : toLong n = (n : Int) := toLong_of_lt n hsz
  have hM : LONG_MAX = 2 ^ 63 - 1 := rfl
  unfold parse_range range_of_bounds
  simp only
  generalize arg.filter (fun c => !isspace c) = s at hns0
  have hns : ∀ c ∈ s, isspace c = false := fun c hc => (hns0 c hc).2
  by_cases hs : s.isEmpty = true
  · rw [if_pos hs, if_pos hs]
  · rw [if_neg hs, if_neg hs]
    cases hd : findChar '-' s with
    | none =>
      simp only
      have hb := H s hns0
      cases hp : parse_long (if trim_copy s = ['$'] then to_string n else trim_copy s) with
      | none => rw [hb.1 hp]
      | some v =>
        have hr := parse_long_range _ v hp
        rw [hb.2 v hp]
        simp only
        by_cases hv : v ≤ 0
        · rw [if_pos hv, if_neg (by omega)]
        · rw [if_neg hv, if_pos (by omega)]
          simp only [hn0, if_false]
          rw [clamp_eq v v n hn hsz (by omega) hr.2 (by omega) hr.2]
          by_cases c : v.toNat ≤ n
          · rw [if_pos c, if_pos (by omega)]
            have : min v.toNat n = v.toNat := by omega
            rw [this]
          · rw [if_neg c, if_neg (by omega)]
    | some d =>
      simp only
      have hL : ∀ c ∈ s.take d, isspace c = false := fun c hc => hns c (List.mem_of_mem_take hc)
      have hR : ∀ c ∈ s.drop (d + 1), isspace c = false :=
        fun c hc => hns c (List.mem_of_mem_drop hc)
      have hbL := H (s.take d) (fun c hc => hns0 c (List.mem_of_mem_take hc))
      have hbR := H (s.drop (d + 1)) (fun c hc => hns0 c (List.mem_of_mem_drop hc))
      have hLe : trim_copy (s.take d) = s.take d := trim_copy_id _ hL
      have hRe : trim_copy (s.drop (d + 1)) = s.drop (d + 1) := trim_copy_id _ hR
      have hLi : ∀ b : Bool, (s.take d).isEmpty = b →
          (if trim_copy (s.take d) = ['$'] then to_string n else trim_copy (s.take d)).isEmpty
            = b := by
        intro b hb
        rw [hLe]
        split
        · next h => rw [h] at hb; rw [← hb]; exact (List.isEmpty_eq_false.2 (to_string_facts n).2.1)
        · exact hb
      have hRi : ∀ b : Bool, (s.drop (d + 1)).isEmpty = b →
          (if trim_copy (s.drop (d + 1)) = ['$'] then to_string n
            else trim_copy (s.drop (d + 1))).isEmpty = b := by
        intro b hb
        rw [hRe]
        split
        · next h => rw [h] at hb; rw [← hb]; exact (List.isEmpty_eq_false.2 (to_string_facts n).2.1)
        · exact hb
      have one : Int.toNat 1 = 1 := rfl
      cases hLb : (s.take d).isEmpty
      · cases hpL : parse_long (if trim_copy (s.take d) = ['$'] then to_string n
            else trim_copy (s.take d)) with
        | none =>
          simp only [hLi false hLb, hbL.1 hpL, Bool.false_eq_true, if_false]
        | some lo =>
          have hrL := parse_long_range _ lo hpL
          by_cases hvL : lo ≤ 0
          · have hvL1 : ¬ (0 < lo) := by omega
            simp only [hLi false hLb, hbL.2 lo hpL, hvL, hvL1, Bool.false_eq_true, if_false,
              if_true]
          · have hvL1 : 0 < lo := by omega
            cases hRb : (s.drop (d + 1)).isEmpty
            · cases hpR : parse_long (if trim_copy (s.drop (d + 1)) = ['$'] then to_string n
                  else trim_copy (s.drop (d + 1))) with
              | none =>
                simp only [hLi false hLb, hbL.2 lo hpL, hvL, hvL1, hRi false hRb, hbR.1 hpR, Bool.false_eq_true, if_false, if_true]
              | some hi =>
                have hrR := parse_long_range _ hi hpR
                by_cases hvR : hi ≤ 0
                · have hvR1 : ¬ (0 < hi) := by omega
                  simp only [hLi false hLb, hbL.2 lo hpL, hvL, hvL1, hRi false hRb, hbR.2 hi hpR, hvR, hvR1, Bool.false_eq_true,
                    if_false, if_true]
                · have hvR1 : 0 < hi := by omega
                  simp only [hLi false hLb, hbL.2 lo hpL, hvL, hvL1, hRi false hRb, hbR.2 hi hpR, hvR, hvR1, Bool.false_eq_true,
                    if_false, if_true, hn0]
                  have hc := clamp_eq lo hi n hn hsz hvL1 hrL.2 hvR1 hrR.2
                  exact hc
            · simp only [hLi false hLb, hbL.2 lo hpL, hvL, hvL1, hRi true hRb, Bool.false_eq_true, if_false, if_true, hn0]
              have hc := clamp_eq lo (toLong n) n hn hsz hvL1 hrL.2 (by omega) (by omega)
              rw [e3] at hc ⊢
              simp only [Int.toNat_ofNat] at hc
              exact hc
      · cases hRb : (s.drop (d + 1)).isEmpty
        · cases hpR : parse_long (if trim_copy (s.drop (d + 1)) = ['$'] then to_string n
              else trim_copy (s.drop (d + 1))) with
          | none =>
            simp only [hLi true hLb, hRi false hRb, hbR.1 hpR, Bool.false_eq_true, if_false, if_true]
          | some hi =>
            have hrR := parse_long_range _ hi hpR
            by_cases hvR : hi ≤ 0
            · have hvR1 : ¬ (0 < hi) := by omega
              simp only [hLi true hLb, hRi false hRb, hbR.2 hi hpR, hvR, hvR1, Bool.false_eq_true,
                if_false, if_true]
            · have hvR1 : 0 < hi := by omega
              simp only [hLi true hLb, hRi false hRb, hbR.2 hi hpR, hvR, hvR1, Bool.false_eq_true,
                if_false, if_true, hn0]
              have hc := clamp_eq 1 hi n hn hsz (by omega) (by omega) hvR1 hrR.2
              rw [one] at hc
              exact hc
        · simp only [hLi true hLb, hRi true hRb, Bool.false_eq_true, if_false, if_true, hn0]
          have hc := clamp_eq 1 (toLong n) n hn hsz (by omega) (by omega) (by omega) (by omega)
          rw [e3] at hc ⊢
          simp only [Int.toNat_ofNat] at hc
          rw [one] at hc
          exact hc

/-- The range of the specification lies inside the buffer, for any reading of a
bound that gives numbers from 1 on. -/
theorem range_of_bounds_safe (bound : Str → Option Nat) (arg : Str) (n : Nat) (hn : 0 < n)
    (hpos : ∀ (t : Str) (a : Nat), bound t = some a → 1 ≤ a) (lo hi : Nat)
    (h : range_of_bounds bound arg n = some (lo, hi)) : 1 ≤ lo ∧ lo ≤ hi ∧ hi ≤ n := by
  unfold range_of_bounds at h
  simp only at h
  generalize arg.filter (fun c => !isspace c) = s at h
  by_cases hs : s.isEmpty = true
  · rw [if_pos hs] at h
    injection h with h
    injection h with h1 h2
    omega
  · rw [if_neg hs] at h
    cases hd : findChar '-' s with
    | none =>
      rw [hd] at h
      simp only at h
      cases hb : bound s with
      | none => rw [hb] at h; cases h
      | some a =>
        rw [hb] at h
        simp only at h
        have ha := hpos s a hb
        by_cases c : a ≤ n
        · rw [if_pos c] at h
          injection h with h
          injection h with h1 h2
          omega
        · rw [if_neg c] at h; cases h
    | some d =>
      rw [hd] at h
      simp only at h
      have key : ∀ (l r : Option Nat), (∀ a, l = some a → 1 ≤ a) →
          (match l, r with
            | some lo, some hi => if lo ≤ min hi n then some (lo, min hi n) else none
            | _, _ => none) = some (lo, hi) → 1 ≤ lo ∧ lo ≤ hi ∧ hi ≤ n := by
        intro l r hl hm
        cases l with
        | none => cases hm
        | some a =>
          cases r with
          | none => cases hm
          | some b =>
            simp only at hm
            have ha := hl a rfl
            by_cases c : a ≤ min b n
            · rw [if_pos c] at hm
              injection hm with hm
              injection hm with h1 h2
              omega
            · rw [if_neg c] at hm; cases hm
      refine key _ _ ?_ h
      intro a ha
      by_cases hLe : (s.take d).isEmpty = true
      · rw [if_pos hLe] at ha
        injection ha with ha
        omega
      · rw [if_neg hLe] at ha
        exact hpos _ a ha

/-- A range `parse_range` accepts lies inside the buffer, whatever the argument. -/
theorem parse_range_inside (arg : Str) (n : Nat) (hn : 0 < n) (hsz : n < 2 ^ 63)
    (lo hi : Nat) (h : parse_range arg n = some (lo, hi)) : 1 ≤ lo ∧ lo ≤ hi ∧ hi ≤ n := by
  have href := parse_range_eq_of_bound
    (fun t => (parse_long (if trim_copy t = ['$'] then to_string n else trim_copy t)).bind
      (fun v => if 0 < v then some v.toNat else none)) arg n hn hsz
    (by
      intro t _
      constructor
      · intro h0; simp only [h0, Option.none_bind]
      · intro v hv; simp only [hv, Option.some_bind])
  rw [href] at h
  refine range_of_bounds_safe _ arg n hn ?_ lo hi h
  intro t a ha
  cases hp : parse_long (if trim_copy t = ['$'] then to_string n else trim_copy t) with
  | none => simp only [hp, Option.none_bind] at ha; cases ha
  | some v =>
    simp only [hp, Option.some_bind] at ha
    by_cases hv : 0 < v
    · rw [if_pos hv] at ha
      injection ha with ha
      omega
    · rw [if_neg hv] at ha; cases ha

/-- A bound the specification accepts is at least 1 and is not the empty text. -/
theorem bound_within_long_pos (n : Nat) (hn : 0 < n) (t : Str) (a : Nat)
    (h : bound_within_long n t = some a) : 1 ≤ a ∧ t ≠ [] := by
  unfold bound_within_long at h
  cases hb : bound_as_specified n t with
  | none => rw [hb] at h; cases h
  | some x =>
    rw [hb] at h
    simp only at h
    by_cases hx : (x : Int) ≤ LONG_MAX
    · rw [if_pos hx] at h
      injection h with h
      rw [← h]
      unfold bound_as_specified at hb
      by_cases hd : t = ['$']
      · rw [if_pos hd] at hb
        injection hb with hb
        rw [hd]
        exact ⟨by omega, by simp⟩
      · rw [if_neg hd] at hb
        cases hp : decimal_value t with
        | none => rw [hp] at hb; cases hb
        | some v =>
          rw [hp] at hb
          simp only at hb
          by_cases hv : 0 < v
          · rw [if_pos hv] at hb
            injection hb with hb
            refine ⟨by omega, ?_⟩
            intro ht
            rw [ht] at hp
            cases hp
          · rw [if_neg hv] at hb; cases hb
    · rw [if_neg hx] at h; cases h

/-- C30, the code at an input where the claim fails: `1-99999999999999999999` is of
the form `a-b` with two decimal numbers above zero, so for a buffer of ten lines the
specification gives `1..min(b,10)`, that is 1..10; `parse_range` rejects the argument,
because `parse_long` turns down a number that `strtol` reports as out of range. -/
theorem parse_range_overflow_counterexample :
    bound_as_specified 10 "1".toList = some 1 ∧
    bound_as_specified 10 "99999999999999999999".toList = some 99999999999999999999 ∧
    range_as_specified "1-99999999999999999999".toList 10 = some (1, 10) ∧
    parse_long "99999999999999999999".toList = none ∧
    parse_range "1-99999999999999999999".toList 10 = none ∧
    parse_range "1-99999999999999999999".toList 10
      ≠ range_as_specified "1-99999999999999999999".toList 10 := by
  refine ⟨by rfl, by rfl, by rfl, by rfl, by rfl, ?_⟩
  have h1 : parse_range "1-99999999999999999999".toList 10 = none := by rfl
  have h2 : range_as_specified "1-99999999999999999999".toList 10 = some (1, 10) := by rfl
  rw [h1, h2]
  decide

/-- The code on a bound that holds a NUL byte: `parse_long` hands `s.c_str()` to
`strtol` and takes the NUL for the end of the text, so the bound `1`, NUL, `x`, which
is not a decimal number, is read as 1 and the argument is accepted as 1..1. -/
theorem parse_range_accepts_nul_bound :
    decimal_value ['1', NUL, 'x'] = none ∧
    range_as_specified ['1', NUL, 'x'] 10 = none ∧
    parse_long ['1', NUL, 'x'] = some 1 ∧
    parse_range ['1', NUL, 'x'] 10 = some (1, 1) := by
  refine ⟨by rfl, by rfl, by rfl, by rfl⟩

/-- C30 (amended): for every argument and every line count `n > 0` (below `2^63`, as
the size of a vector is), a range `parse_range` accepts satisfies `1 <= lo <= hi <= n`,
so the erase in `delete` and the slices of `join`, `filter` and `print` stay inside the
buffer; an argument of white space only gives `1..n`. For an argument without NUL byte
the range is, white space set aside, the one the specification words, with numbers
above `LONG_MAX` rejected: `a-b` (the bounds being what stands before and after the
first `-`) gives `a..min(b,n)` and is rejected when `a` is above `min(b,n)`; `$`
stands for `n`; a bound that is zero, negative, not a decimal number or above
`LONG_MAX` rejects the argument; a single bound `a` gives `a..a`. -/
theorem parse_range_safe (arg : Str) (n : Nat) (hn : 0 < n) (hsz : n < 2 ^ 63) :
    (∀ lo hi : Nat, parse_range arg n = some (lo, hi) → 1 ≤ lo ∧ lo ≤ hi ∧ hi ≤ n) ∧
    ((∀ c ∈ arg, isspace c = true) → parse_range arg n = some (1, n)) ∧
    (NUL ∉ arg →
      parse_range arg n = range_of_bounds (bound_within_long n) arg n ∧
      (∀ d a b : Nat, findChar '-' (arg.filter (fun c => !isspace c)) = some d →
        bound_within_long n ((arg.filter (fun c => !isspace c)).take d) = some a →
        bound_within_long n ((arg.filter (fun c => !isspace c)).drop (d + 1)) = some b →
        parse_range arg n = if a ≤ min b n then some (a, min b n) else none) ∧
      (∀ d : Nat, findChar '-' (arg.filter (fun c => !isspace c)) = some d →
        (((arg.filter (fun c => !isspace c)).take d ≠ [] ∧
            bound_within_long n ((arg.filter (fun c => !isspace c)).take d) = none) ∨
          ((arg.filter (fun c => !isspace c)).drop (d + 1) ≠ [] ∧
            bound_within_long n ((arg.filter (fun c => !isspace c)).drop (d + 1)) = none)) →
        parse_range arg n = none) ∧
      (findChar '-' (arg.filter (fun c => !isspace c)) = none →
        arg.filter (fun c => !isspace c) ≠ [] →
        parse_range arg n =
          (bound_within_long n (arg.filter (fun c => !isspace c))).bind
            (fun a => if a ≤ n then some (a, a) else none))) := by
  refine ⟨parse_range_inside arg n hn hsz, ?_, ?_⟩
  · intro h
    have hs : arg.filter (fun c => !isspace c) = [] := by
      rw [List.filter_eq_nil_iff]
      intro c hc
      simp [h c hc]
    unfold parse_range
    simp [hs]
  · intro hnul
    have href : parse_range arg n = range_of_bounds (bound_within_long n) arg n :=
      parse_range_eq_of_bound (bound_within_long n) arg n hn hsz
        (fun t ht => bound_of_norm_token n hn hsz t (fun hm => hnul (ht NUL hm).1)
          (fun c hc => (ht c hc).2))
    refine ⟨href, ?_, ?_, ?_⟩
    · intro d a b hd ha hb
      have hne : (arg.filter (fun c => !isspace c)).isEmpty = false := by
        cases hs : arg.filter (fun c => !isspace c) with
        | nil => rw [hs] at hd; simp [findChar] at hd
        | cons x xs => rfl
      have hL := (bound_within_long_pos n hn _ a ha).2
      have hR := (bound_within_long_pos n hn _ b hb).2
      rw [href]
      unfold range_of_bounds
      simp only [hne, hd, Bool.false_eq_true, if_false]
      rw [if_neg (by simpa using hL), if_neg (by simpa using hR), ha, hb]
    · intro d hd h
      have hne : (arg.filter (fun c => !isspace c)).isEmpty = false := by
        cases hs : arg.filter (fun c => !isspace c) with
        | nil => rw [hs] at hd; simp [findChar] at hd
        | cons x xs => rfl
      rw [href]
      unfold range_of_bounds
      simp only [hne, hd, Bool.false_eq_true, if_false]
      rcases h with ⟨h1, h2⟩ | ⟨h1, h2⟩
      · rw [if_neg (by simpa using h1), h2]
      · rw [if_neg (by simpa using h1) (c := (List.drop (d + 1) _).isEmpty = true), h2]
        generalize (if (List.take d (arg.filter (fun c => !isspace c))).isEmpty = true
          then some 1
          else bound_within_long n (List.take d (arg.filter (fun c => !isspace c)))) = l
        cases l <;> rfl
    · intro hd hne
      rw [href]
      unfold range_of_bounds
      have hne1 : (arg.filter (fun c => !isspace c)).isEmpty = false := by simpa using hne
      simp only [hne1, hd, Bool.false_eq_true, if_false]
      cases bound_within_long n (arg.filter (fun c => !isspace c)) <;> rfl

/-- C30 (amended) at concrete inputs, for a buffer of ten lines: `2-$` gives 2..10,
which lies inside the buffer; white space gives 1..10; `4 - 99` gives 4..10; `$` gives
10..10; `0`, `x`, `3--5` (a negative upper bound) and `7-3` are rejected; `-5`, which
has nothing before its `-`, gives 1..5. -/
theorem parse_range_safe_witness :
    parse_range "2-$".toList 10 = some (2, 10) ∧ (1 ≤ 2 ∧ 2 ≤ 10 ∧ 10 ≤ 10) ∧
    parse_range "  ".toList 10 = some (1, 10) ∧
    parse_range "4 - 99".toList 10 = some (4, 10) ∧
    parse_range "$".toList 10 = some (10, 10) ∧
    parse_range "0".toList 10 = none ∧
    parse_range "x".toList 10 = none ∧
    parse_range "3--5".toList 10 = none ∧
    parse_range "7-3".toList 10 = none ∧
    parse_range "-5".toList 10 = some (1, 5) := by
  have h10 : (10 : Nat) < 2 ^ 63 := by norm_num
  have a := parse_range_safe "2-$".toList 10 (by decide) h10
  have b := parse_range_safe "  ".toList 10 (by decide) h10
  have c := (parse_range_safe "4 - 99".toList 10 (by decide) h10).2.2 (by decide)
  have d := (parse_range_safe "3--5".toList 10 (by decide) h10).2.2 (by decide)
  have e := (parse_range_safe "$".toList 10 (by decide) h10).2.2 (by decide)
  refine ⟨by rfl, a.1 2 10 (by rfl), b.2.1 (by decide), ?_, ?_, by rfl, by rfl, ?_,
    by rfl, by rfl⟩
  · exact (c.2.1 1 4 99 (by rfl) (by rfl) (by rfl)).trans (by rfl)
  · exact (e.2.2.2 (by rfl) (by decide)).trans (by rfl)
  · exact d.2.2.1 1 (by rfl) (Or.inr ⟨by decide, by rfl⟩)

end Tedit
